import Mathlib

/-!
# State-selection core of the symbolic-execution engine (`lib/Core/Searcher.cpp`)

A shallow embedding of the searchers of `Searcher.cpp` and the properties of
their selection disciplines.

Conventions of the embedding:

* an `ExecutionState *` is a number (`ES`); the null pointer is `none` in `Option ES`;
* a `std::vector` / `std::deque` of states is a `List ES` (front = head, back = last);
* a failed `assert` (or an access the C++ leaves undefined) is `none`.
-/

namespace klee

/-- An `ExecutionState *`, identified by a number. -/
abbrev ES := Nat

/-- Modelled from the spec: `time::Span` and `time::Point`, declared in `Time.h` (absent):
a time span or a point in time as an exact number of ticks of the clock. -/
abbrev Span := Int

/-! ## DFSSearcher -/

namespace DFSSearcher

/-- The method `DFSSearcher::selectState`: `*states.back()`. -/
def selectState (states : List ES) : Option ES :=
  states.getLast?

/-- Body of the removal loop of `DFSSearcher::update` for one removed state: the test
`es == states.back()` reads the back of the vector, which is undefined when the vector
is empty (`none`); then `pop_back` when `es` is the back element, otherwise erase its
first occurrence (the `assert(ok)` is commented out in the source, so a miss in a
non-empty vector is tolerated). -/
def removeOne (states : List ES) (es : ES) : Option (List ES) :=
  if states.isEmpty then none
  else if states.getLast? = some es then some states.dropLast
  else some (states.erase es)

/-- The method `DFSSearcher::update`: append `addedStates`, then remove each of
`removedStates`. -/
def update (states : List ES) (_current : Option ES) (addedStates removedStates : List ES) :
    Option (List ES) :=
  removedStates.foldlM removeOne (states ++ addedStates)

end DFSSearcher

/-! ## BFSSearcher -/

namespace BFSSearcher

/-- The method `BFSSearcher::selectState`: `*states.front()`. -/
def selectState (states : List ES) : Option ES :=
  states.head?

/-- The fork prologue of `BFSSearcher::update`: when `addedStates` is non-empty and
`current` is non-null and not among `removedStates`, `current` is erased from the
queue and pushed to the back (`assert(pos != states.end())` fails if it is absent). -/
def moveCurrent (states : List ES) (current : Option ES) (addedStates removedStates : List ES) :
    Option (List ES) :=
  match current with
  | some c =>
    if !addedStates.isEmpty && !removedStates.contains c then
      if states.contains c then some (states.erase c ++ [c]) else none
    else some states
  | none => some states

/-- Body of the removal loop of `BFSSearcher::update` for one removed state:
`pop_front` when it is the front element, otherwise erase its first occurrence,
with `assert(ok && "invalid state removed")`. -/
def removeOne (states : List ES) (es : ES) : Option (List ES) :=
  if states.head? = some es then some states.tail
  else if states.contains es then some (states.erase es) else none

/-- The method `BFSSearcher::update`: the fork prologue, the appended states, then the
removal loop. -/
def update (states : List ES) (current : Option ES) (addedStates removedStates : List ES) :
    Option (List ES) :=
  (moveCurrent states current addedStates removedStates).bind fun moved =>
    removedStates.foldlM removeOne (moved ++ addedStates)

end BFSSearcher

/-! ## RandomSearcher -/

namespace RandomSearcher

/-- The method `RandomSearcher::selectState`: `*states[theRNG.getInt32() % states.size()]`,
with the random word as an input. -/
def selectState (states : List ES) (rnd : Nat) : Option ES :=
  if states.length = 0 then none else states.get? (rnd % states.length)

/-- Body of the removal loop of `RandomSearcher::update` for one removed state:
erase its first occurrence, with `assert(ok && "invalid state removed")`. -/
def removeOne (states : List ES) (es : ES) : Option (List ES) :=
  if states.contains es then some (states.erase es) else none

/-- The method `RandomSearcher::update`: append `addedStates`, then the removal loop. -/
def update (states : List ES) (_current : Option ES) (addedStates removedStates : List ES) :
    Option (List ES) :=
  removedStates.foldlM removeOne (states ++ addedStates)

end RandomSearcher

/-! ## The searcher interface seen by the wrappers -/

/-- The three flat searchers, as the dynamic type of a `Searcher *`. -/
inductive FlatKind where
  | dfs
  | bfs
  | random
  deriving DecidableEq, Repr

/-- Virtual dispatch of `update` on a flat searcher whose container is `states`
(`none`: an assertion of the callee failed). -/
def FlatKind.update (k : FlatKind) (states : List ES) (current : Option ES)
    (addedStates removedStates : List ES) : Option (List ES) :=
  match k with
  | .dfs => DFSSearcher.update states current addedStates removedStates
  | .bfs => BFSSearcher.update states current addedStates removedStates
  | .random => RandomSearcher.update states current addedStates removedStates

/-- Virtual dispatch of `selectState` on a flat searcher; `rnd` is the word that
`theRNG.getInt32()` returns (read by `RandomSearcher` only). -/
def FlatKind.selectState (k : FlatKind) (states : List ES) (rnd : Nat) : Option ES :=
  match k with
  | .dfs => DFSSearcher.selectState states
  | .bfs => BFSSearcher.selectState states
  | .random => RandomSearcher.selectState states rnd

/-- The operations a wrapper calls on its `baseSearcher`, over the base's state `β`.
`selectState` and `empty` may change the base; `none` is a failed assertion. -/
structure Base (β : Type) where
  selectState : β → Option (ES × β)
  update : β → Option ES → List ES → List ES → Option β
  empty : β → Bool × β

/-- Modelled from the spec: `Searcher::removeState(es)`, declared in `Searcher.h`
(absent); it removes one state from the searcher, `update(nullptr, {}, {es})`. -/
def Base.removeState {β : Type} (B : Base β) (b : β) (es : ES) : Option β :=
  B.update b none [] [es]

/-- Modelled from the spec: `empty()` of the three flat searchers, declared in
`Searcher.h` (absent): the population is empty, `states.empty()`. -/
def FlatKind.empty (_k : FlatKind) (states : List ES) : Bool :=
  states.isEmpty

/-- A flat searcher as a base searcher. Its state is the container together with the
number of words already drawn from the global generator `rng`. -/
def flatBase (k : FlatKind) (rng : Nat → Nat) : Base (List ES × Nat) where
  selectState := fun b =>
    match k with
    | .random => (RandomSearcher.selectState b.1 (rng b.2)).map fun es => (es, (b.1, b.2 + 1))
    | _ => (k.selectState b.1 0).map fun es => (es, b)
  update := fun b current added removed =>
    (k.update b.1 current added removed).map fun st => (st, b.2)
  empty := fun b => (k.empty b.1, b)

/-! ## InterleavedSearcher -/

namespace InterleavedSearcher

/-- The fields of an `InterleavedSearcher`: `numSearchers` is `searchers.size()`,
`index` the `unsigned` cursor. -/
structure State where
  numSearchers : Nat
  index : Nat
  deriving DecidableEq, Repr

/-- The constructor: `searchers(_searchers), index(1)`. -/
def init (numSearchers : Nat) : State :=
  { numSearchers := numSearchers, index := 1 }

/-- The method `InterleavedSearcher::selectState`: `s = searchers[--index]; if (index==0) index =
searchers.size();`. Returns the 0-based position of the sub-searcher the call is
delegated to and the new fields; `none` when `searchers[--index]` is out of bounds. -/
def selectState (s : State) : Option (Nat × State) :=
  let idx := (s.index + 2 ^ 32 - 1) % 2 ^ 32
  if idx < s.numSearchers then
    some (idx, { s with index := if idx = 0 then s.numSearchers % 2 ^ 32 else idx })
  else none

/-- The fields after `calls` successive `selectState` calls. -/
def afterCalls (s : State) : Nat → Option State
  | 0 => some s
  | calls + 1 => (afterCalls s calls).bind fun s' => (selectState s').map Prod.snd

/-- The 0-based position of the sub-searcher that the `i`-th call (`i ≥ 1`) of
`selectState` after construction delegates to. -/
def delegateOfCall (numSearchers i : Nat) : Option Nat :=
  (afterCalls (init numSearchers) (i - 1)).bind fun s => (selectState s).map Prod.fst

end InterleavedSearcher

/-! ## BatchingSearcher -/

namespace BatchingSearcher

/-- The fields of a `BatchingSearcher` over a base with state `β`; the two instruction
counts are 64-bit counters. -/
structure State (β : Type) where
  base : β
  timeBudget : Span
  instructionBudget : Nat
  lastState : Option ES
  lastStartTime : Span
  lastStartInstructions : Nat

/-- The constructor: `lastState(0)`; the two snapshots are not yet meaningful. -/
def init {β : Type} (b : β) (timeBudget : Span) (instructionBudget : Nat) : State β :=
  { base := b, timeBudget := timeBudget, instructionBudget := instructionBudget,
    lastState := none, lastStartTime := 0, lastStartInstructions := 0 }

/-- The unsigned difference `stats::instructions - lastStartInstructions`. -/
def instructionsSince (instructions lastStartInstructions : Nat) : Nat :=
  (instructions + 2 ^ 64 - lastStartInstructions % 2 ^ 64) % 2 ^ 64

/-- The condition of the `if` in `BatchingSearcher::selectState`; `now` is the value
of `time::getWallTime()` read there and `instructions` that of `stats::instructions`. -/
def mustRefresh {β : Type} (s : State β) (now : Span) (instructions : Nat) : Bool :=
  s.lastState.isNone ||
  (decide (s.timeBudget > 0) && decide (now - s.lastStartTime > s.timeBudget)) ||
  (decide (s.instructionBudget > 0) &&
    decide (instructionsSince instructions s.lastStartInstructions > s.instructionBudget))

/-- The method `BatchingSearcher::selectState`. The three reads of the wall clock are the inputs
`now`, `nowDelta` and `nowStart`, the instruction counter is `instructions`, and
`scale` is `t *= 1.1` on a `time::Span` (defined in `Time.h`, absent). -/
def selectState {β : Type} (B : Base β) (scale : Span → Span) (s : State β)
    (now nowDelta nowStart : Span) (instructions : Nat) : Option (ES × State β) :=
  if mustRefresh s now instructions then
    let timeBudget' :=
      if s.lastState.isSome && decide (nowDelta - s.lastStartTime > scale s.timeBudget) then
        nowDelta - s.lastStartTime
      else s.timeBudget
    (B.selectState s.base).map fun r =>
      (r.1, { base := r.2, timeBudget := timeBudget',
              instructionBudget := s.instructionBudget, lastState := some r.1,
              lastStartTime := nowStart, lastStartInstructions := instructions })
  else s.lastState.map fun es => (es, s)

/-- The method `BatchingSearcher::update`: forget `lastState` when it is among `removedStates`,
then forward to the base. -/
def update {β : Type} (B : Base β) (s : State β) (current : Option ES)
    (addedStates removedStates : List ES) : Option (State β) :=
  let lastState' :=
    match s.lastState with
    | some es => if removedStates.contains es then none else some es
    | none => none
  (B.update s.base current addedStates removedStates).map fun b =>
    { s with base := b, lastState := lastState' }

/-- A batch in progress over a DFS base holding state 1: 5 s and 10000 instructions of
budget, started at time 100 with 7 instructions executed. -/
def exampleState : State (List ES × Nat) :=
  { base := ([1], 0), timeBudget := 5000000, instructionBudget := 10000,
    lastState := some 1, lastStartTime := 100, lastStartInstructions := 7 }

end BatchingSearcher

/-! ## IterativeDeepeningTimeSearcher -/

namespace IterativeDeepeningTimeSearcher

/-- The operation `std::set<ExecutionState*>::insert` on the increasing list of the
elements of the set. -/
def setInsert (x : ES) : List ES → List ES
  | [] => [x]
  | y :: ys => if x < y then x :: y :: ys else if x = y then y :: ys else y :: setInsert x ys

/-- The fields of an `IterativeDeepeningTimeSearcher`: `time` is the deepening bound and
`pausedStates` lists the `std::set` in iteration order (increasing). -/
structure State (β : Type) where
  base : β
  time : Span
  startTime : Span
  pausedStates : List ES

/-- The constructor: `time(time::seconds(1))`, where `oneSecond` is the span that
`time::seconds(1)` denotes (`Time.h` is absent). -/
def init {β : Type} (oneSecond : Span) (b : β) : State β :=
  { base := b, time := oneSecond, startTime := 0, pausedStates := [] }

/-- The method `IterativeDeepeningTimeSearcher::selectState`; `now` is `time::getWallTime()`. -/
def selectState {β : Type} (B : Base β) (s : State β) (now : Span) : Option (ES × State β) :=
  (B.selectState s.base).map fun r => (r.1, { s with base := r.2, startTime := now })

/-- One iteration of the loop over `removedStates`: a paused state is erased from
`pausedStates` and every copy of it is taken out of `alt`. -/
def filterPaused (acc : List ES × List ES) (es : ES) : List ES × List ES :=
  if acc.1.contains es then (acc.1.erase es, acc.2.filter fun x => x != es) else acc

/-- The pair (`pausedStates`, `alt`) after the loop over `removedStates`. -/
def splitRemoved (pausedStates removedStates : List ES) : List ES × List ES :=
  removedStates.foldl filterPaused (pausedStates, removedStates)

/-- The first two steps of `IterativeDeepeningTimeSearcher::update`: forward the update
to the base (with the paused states taken out of the removal list), then pause
`current` when it is live and has run longer than the bound. The result is
`pausedStates` and the base as they are when `baseSearcher->empty()` is tested. -/
def removeAndPause {β : Type} (B : Base β) (s : State β) (now : Span) (current : Option ES)
    (addedStates removedStates : List ES) : Option (List ES × β) :=
  let elapsed := now - s.startTime
  let split :=
    if removedStates.isEmpty then (s.pausedStates, removedStates)
    else splitRemoved s.pausedStates removedStates
  (B.update s.base current addedStates split.2).bind fun b1 =>
    match current with
    | some c =>
      if !removedStates.contains c && decide (elapsed > s.time) then
        (B.removeState b1 c).map fun b2 => (setInsert c split.1, b2)
      else some (split.1, b1)
    | none => some (split.1, b1)

/-- The method `IterativeDeepeningTimeSearcher::update`; `now` is `time::getWallTime()`. The
Boolean result tells whether the bound was doubled (the `klee_message` was issued). -/
def update {β : Type} (B : Base β) (s : State β) (now : Span) (current : Option ES)
    (addedStates removedStates : List ES) : Option (State β × Bool) :=
  (removeAndPause B s now current addedStates removedStates).bind fun p =>
    let e := B.empty p.2
    if e.1 then
      (B.update e.2 none p.1 []).map fun b4 =>
        ({ base := b4, time := s.time * 2, startTime := s.startTime, pausedStates := [] }, true)
    else
      some ({ base := e.2, time := s.time, startTime := s.startTime, pausedStates := p.1 },
        false)

/-- A call made by the engine: `selectState` or `update`, with the wall-clock value
read during the call. -/
inductive Call where
  | select (now : Span)
  | update (now : Span) (current : Option ES) (addedStates removedStates : List ES)

/-- Run a sequence of calls; the result carries the number of times the bound was
doubled. -/
def run {β : Type} (B : Base β) : State β × Nat → List Call → Option (State β × Nat)
  | acc, [] => some acc
  | acc, Call.select now :: cs =>
    (selectState B acc.1 now).bind fun r => run B (r.2, acc.2) cs
  | acc, Call.update now current added removed :: cs =>
    (update B acc.1 now current added removed).bind fun r =>
      run B (r.1, if r.2 then acc.2 + 1 else acc.2) cs

/-- The representation invariant over a flat base: the base holds no state twice,
`pausedStates` is strictly increasing (it lists a `std::set`), and no state is both in
the base and paused. -/
def Consistent (s : State (List ES × Nat)) : Prop :=
  s.base.1.Nodup ∧ s.pausedStates.Pairwise (fun a b => a < b) ∧
    ∀ x ∈ s.base.1, x ∉ s.pausedStates

instance (s : State (List ES × Nat)) : Decidable (Consistent s) := by
  unfold Consistent; infer_instance

/-- A searcher over a BFS base holding states 1 and 2, with state 3 paused. -/
def examplePaused : State (List ES × Nat) :=
  { base := ([1, 2], 0), time := 1000000, startTime := 0, pausedStates := [3] }

/-- A run, on a clock that ticks every microsecond, in which state 1 is added, selected
at time 0, found to have run 2 s at its update, selected again and found to have run
3 s more. -/
def exampleCalls : List Call :=
  [Call.update 0 none [1] [], Call.select 0, Call.update 2000000 (some 1) [] [],
   Call.select 2000000, Call.update 5000000 (some 1) [] []]

/-- The fields after `exampleCalls` over a DFS base. -/
def exampleFinal : State (List ES × Nat) :=
  { base := ([1], 0), time := 4000000, startTime := 2000000, pausedStates := [] }

end IterativeDeepeningTimeSearcher

/-! ## The process tree and RandomPathSearcher -/

/-- What a `PTreeNodePtr` points to, with everything below it: the null pointer, a node
with `data` (a leaf carrying a live state; its two child slots are null), or a node
without `data` together with its two child slots, each a tag and a pointer. -/
inductive PTree where
  | null
  | leaf (data : ES)
  | node (leftTag : Nat) (left : PTree) (rightTag : Nat) (right : PTree)
  deriving DecidableEq, Repr

/-- The process tree as a searcher sees it: the slot `executor.processTree->root`. -/
structure ProcessTree where
  rootTag : Nat
  root : PTree
  deriving DecidableEq, Repr

namespace PTree

/-- The test `p == nullptr`. -/
def isNull : PTree → Bool
  | null => true
  | _ => false

/-- The states carried by the leaves below a pointer, left to right. -/
def leaves : PTree → List ES
  | null => []
  | leaf data => [data]
  | node _ l _ r => l.leaves ++ r.leaves

/-- The tree with every tag cleared: the nodes and links, which no searcher changes. -/
def untag : PTree → PTree
  | null => null
  | leaf data => leaf data
  | node _ l _ r => node 0 l.untag 0 r.untag

/-- The number of nodes without `data` on the longest downward path. -/
def height : PTree → Nat
  | null => 0
  | leaf _ => 0
  | node _ l _ r => max l.height r.height + 1

end PTree

namespace RandomPathSearcher

/-- The constructor: `idBitMask(1 << numRPSearchers)`. -/
def idBitMask (numRPSearchers : Nat) : Nat :=
  1 <<< numRPSearchers

/-- The test that `n.getInt() & idBitMask` is non-zero. -/
def hasBit (mask tag : Nat) : Bool :=
  tag &&& mask != 0

/-- The macro `IS_OUR_NODE_VALID(n)`: the slot carries the bit and its pointer is not null. -/
def isOurNodeValid (mask tag : Nat) (p : PTree) : Bool :=
  hasBit mask tag && !p.isNull

/-- The new tag `getInt() | idBitMask`. -/
def setBit (mask tag : Nat) : Nat :=
  tag ||| mask

/-- The new tag `getInt() & ~idBitMask`: the tag without the bits of the mask. -/
def clearBit (mask tag : Nat) : Nat :=
  tag ^^^ (tag &&& mask)

/-- The loop of `RandomPathSearcher::selectState` from node `n` on. `flips` and `bits`
are the locals of that name, `rng i` is the `i`-th word that `theRNG.getInt32()`
returns and `used` the number of words drawn so far. The result is the selected state
and the new `used`; `none` is a failed assertion (both children invalid) or a null `n`.
The assertions `n != n->right.getPointer()` and `n != n->left.getPointer()` cannot fail
on a tree and have no counterpart here. -/
def descend (mask : Nat) (rng : Nat → Nat) : PTree → Nat → Nat → Nat → Option (ES × Nat)
  | .null, _, _, _ => none
  | .leaf data, _, _, used => some (data, used)
  | .node lt l rt r, flips, bits, used =>
    if !isOurNodeValid mask lt l then
      if isOurNodeValid mask rt r then descend mask rng r flips bits used else none
    else if !isOurNodeValid mask rt r then descend mask rng l flips bits used
    else
      let flips' := if bits = 0 then rng used % 2 ^ 32 else flips
      let used' := if bits = 0 then used + 1 else used
      let bits' := (if bits = 0 then 32 else bits) - 1
      if flips' &&& (1 <<< bits') != 0 then descend mask rng l flips' bits' used'
      else descend mask rng r flips' bits' used'

/-- The method `RandomPathSearcher::selectState`: assert that the root slot carries the bit, then
walk down from the root with `flips = 0, bits = 0`. -/
def selectState (mask : Nat) (rng : Nat → Nat) (t : ProcessTree) (used : Nat) :
    Option (ES × Nat) :=
  if hasBit mask t.rootTag then descend mask rng t.root 0 0 used else none

/-- A parent seen from the child `pnode` during an ascent: whether `pnode` hangs in the
left slot (`parent->left.getPointer() == pnode`), the tag of that slot, and the other
slot of the parent. -/
structure Frame where
  onLeft : Bool
  tag : Nat
  siblingTag : Nat
  sibling : PTree
  deriving DecidableEq, Repr

/-- The parent node with `p` put back in the slot the frame came from. -/
def Frame.plug (f : Frame) (p : PTree) : PTree :=
  if f.onLeft then .node f.tag p f.siblingTag f.sibling
  else .node f.siblingTag f.sibling f.tag p

/-- The whole tree around the subtree `p`, given its chain of parents, nearest first. -/
def rebuild (p : PTree) : List Frame → PTree
  | [] => p
  | f :: fs => rebuild (f.plug p) fs

/-- The leaf `es->ptreeNode` with its chain of `parent` pointers up to the root, nearest first;
`none` when no leaf of the tree carries `es`. -/
def locate (es : ES) : PTree → Option (List Frame)
  | .null => none
  | .leaf data => if data = es then some [] else none
  | .node lt l rt r =>
    match locate es l with
    | some fs => some (fs ++ [{ onLeft := true, tag := lt, siblingTag := rt, sibling := r }])
    | none =>
      match locate es r with
      | some fs => some (fs ++ [{ onLeft := false, tag := rt, siblingTag := lt, sibling := l }])
      | none => none

/-- The `while` loop for an added state in `RandomPathSearcher::update`. `pnode` is the
root of `p`, `childPtr` the slot in the nearest frame (the root slot when there is no
frame). While that slot is not valid, set the bit and move up. -/
def addAscend (mask : Nat) : PTree → List Frame → Nat → ProcessTree
  | p, [], rootTag =>
    if isOurNodeValid mask rootTag p then { rootTag := rootTag, root := p }
    else { rootTag := setBit mask rootTag, root := p }
  | p, f :: fs, rootTag =>
    if isOurNodeValid mask f.tag p then { rootTag := rootTag, root := rebuild p (f :: fs) }
    else addAscend mask (Frame.plug { f with tag := setBit mask f.tag } p) fs rootTag

/-- The loop condition `!IS_OUR_NODE_VALID(pnode->left) &&
!IS_OUR_NODE_VALID(pnode->right)`. -/
def childrenInvalid (mask : Nat) : PTree → Bool
  | .null => false
  | .leaf _ => true
  | .node lt l rt r => !isOurNodeValid mask lt l && !isOurNodeValid mask rt r

/-- The `while` loop for a removed state in `RandomPathSearcher::update`. While both
children of `pnode` are invalid: assert that the slot pointing to `pnode` is valid,
clear its bit and move up. `none` is the failed assertion. -/
def removeAscend (mask : Nat) : PTree → List Frame → Nat → Option ProcessTree
  | p, [], rootTag =>
    if childrenInvalid mask p then
      if isOurNodeValid mask rootTag p then some { rootTag := clearBit mask rootTag, root := p }
      else none
    else some { rootTag := rootTag, root := p }
  | p, f :: fs, rootTag =>
    if childrenInvalid mask p then
      if isOurNodeValid mask f.tag p then
        removeAscend mask (Frame.plug { f with tag := clearBit mask f.tag } p) fs rootTag
      else none
    else some { rootTag := rootTag, root := rebuild p (f :: fs) }

/-- The body of the loop over `addedStates`; `none` when `es` has no leaf in the tree. -/
def addState (mask : Nat) (t : ProcessTree) (es : ES) : Option ProcessTree :=
  (locate es t.root).map fun fs => addAscend mask (.leaf es) fs t.rootTag

/-- The body of the loop over `removedStates`. -/
def removeState (mask : Nat) (t : ProcessTree) (es : ES) : Option ProcessTree :=
  (locate es t.root).bind fun fs => removeAscend mask (.leaf es) fs t.rootTag

/-- The method `RandomPathSearcher::update` on the field `size` and the shared process tree. -/
def update (mask : Nat) (s : Int × ProcessTree) (_current : Option ES)
    (addedStates removedStates : List ES) : Option (Int × ProcessTree) :=
  (addedStates.foldlM (addState mask) s.2).bind fun t1 =>
    (removedStates.foldlM (removeState mask) t1).map fun t2 =>
      (s.1 + addedStates.length - removedStates.length, t2)

/-- The method `RandomPathSearcher::empty`: `!IS_OUR_NODE_VALID(executor.processTree->root)`. -/
def empty (mask : Nat) (t : ProcessTree) : Bool :=
  !isOurNodeValid mask t.rootTag t.root

/-- Some leaf below `p` carries a state of the population `pop`. -/
def ownsLeaf (pop : List ES) (p : PTree) : Bool :=
  p.leaves.any fun x => pop.contains x

/-- Every child slot below `p` carries the bit exactly when the subtree below that slot
has a leaf whose state is in `pop`. -/
def tagsOk (mask : Nat) (pop : List ES) : PTree → Bool
  | .null => true
  | .leaf _ => true
  | .node lt l rt r =>
    (hasBit mask lt == ownsLeaf pop l) && (hasBit mask rt == ownsLeaf pop r) &&
      tagsOk mask pop l && tagsOk mask pop r

/-- The tag-bit invariant of a searcher with population `pop`, root slot included. -/
def tagInvariant (mask : Nat) (pop : List ES) (t : ProcessTree) : Bool :=
  (hasBit mask t.rootTag == ownsLeaf pop t.root) && tagsOk mask pop t.root

/-- The population after an update: old members and added states, minus the removed. -/
def newPopulation (pop addedStates removedStates : List ES) : List ES :=
  (pop ++ addedStates).filter fun x => !removedStates.contains x

/-- The `pos`-th coin flip of a finite sequence, `false` beyond its end. -/
def flipAt : List Bool → Nat → Bool
  | [], _ => false
  | b :: _, 0 => b
  | _ :: bs, pos + 1 => flipAt bs pos

/-- The `width`-bit number whose bits, from the most significant one down, are
`f 0, f 1, …, f (width - 1)`. -/
def packWord (f : Nat → Bool) : Nat → Nat
  | 0 => 0
  | width + 1 => 2 * packWord f width + (if f width then 1 else 0)

/-- The words that `theRNG.getInt32()` returns when the bits which `selectState`
consumes, in the order in which it consumes them (bit 31 of each word first), are the
coin flips `flips`, followed by zeros. -/
def wordsOfFlips (flips : List Bool) (i : Nat) : Nat :=
  packWord (fun j => flipAt flips (32 * i + j)) 32

/-- All sequences of `n` coin flips; each has probability `1 / 2 ^ n` when the flips are
independent and fair. -/
def allFlips : Nat → List (List Bool)
  | 0 => [[]]
  | n + 1 => (allFlips n).map (fun bs => true :: bs) ++ (allFlips n).map (fun bs => false :: bs)

/-- The number of sequences of `n` coin flips on which `selectState` returns `es`. -/
def favourable (mask : Nat) (t : ProcessTree) (es : ES) (n : Nat) : Nat :=
  ((allFlips n).filter fun bs =>
    (selectState mask (wordsOfFlips bs) t 0).map Prod.fst == some es).length

/-- The probability that `selectState` returns `es` when the first `n` bits it may
consume are independent fair coin flips. -/
def selectProbability (mask : Nat) (t : ProcessTree) (es : ES) (n : Nat) : ℚ :=
  (favourable mask t es n : ℚ) / 2 ^ n

/-- The number of leaves of the tree whose state belongs to `pop`. -/
def ownedLeaves (pop : List ES) (t : ProcessTree) : Nat :=
  (t.root.leaves.filter fun x => pop.contains x).length

/-- The number of nodes on the way from `p` down to the leaf of `es` at which both
children are valid, that is, at which `selectState` flips a coin. -/
def forksTo (mask : Nat) (es : ES) : PTree → Nat
  | .null => 0
  | .leaf _ => 0
  | .node lt l rt r =>
    (if isOurNodeValid mask lt l && isOurNodeValid mask rt r then 1 else 0) +
      (if es ∈ l.leaves then forksTo mask es l else forksTo mask es r)

/-- The walk of `selectState` with its coin flips handed over one by one (`false` once
the list is exhausted). -/
def walkFlips (mask : Nat) : PTree → List Bool → Option ES
  | .null, _ => none
  | .leaf data, _ => some data
  | .node lt l rt r, bs =>
    if !isOurNodeValid mask lt l then
      if isOurNodeValid mask rt r then walkFlips mask r bs else none
    else if !isOurNodeValid mask rt r then walkFlips mask l bs
    else
      match bs with
      | [] => walkFlips mask r []
      | b :: rest => if b then walkFlips mask l rest else walkFlips mask r rest

/-- The leaves of the siblings along a chain of parents hold no copy of `es`. -/
def OffPath (es : ES) (fs : List Frame) : Prop :=
  ∀ f ∈ fs, es ∉ f.sibling.leaves

/-- The tag-bit invariant of the part of the tree around a subtree, given whether that
subtree owns a leaf (`own`): every slot on the way up carries the bit exactly when the
subtree below it owns a leaf, and the siblings satisfy the invariant. -/
def FramesOk (mask : Nat) (pop : List ES) : Bool → List Frame → Nat → Prop
  | own, [], rootTag => hasBit mask rootTag = own
  | own, f :: fs, rootTag =>
    hasBit mask f.tag = own ∧ hasBit mask f.siblingTag = ownsLeaf pop f.sibling ∧
      tagsOk mask pop f.sibling = true ∧
      FramesOk mask pop (own || ownsLeaf pop f.sibling) fs rootTag

/-- The locals `flips`, `bits` and the count `used` of `selectState` when `pos` coin
flips have been consumed. -/
def InStep (bs : List Bool) (flips bits used pos : Nat) : Prop :=
  bits < 32 ∧ pos + bits = 32 * used ∧
    (0 < bits → flips = wordsOfFlips bs (used - 1) % 2 ^ 32)

/-- A process tree with the leaves 1, 2, 3 (state 1 at depth 1, states 2 and 3 at
depth 2) in which no slot carries a bit. -/
def exampleTree : ProcessTree :=
  { rootTag := 0, root := .node 0 (.leaf 1) 0 (.node 0 (.leaf 2) 0 (.leaf 3)) }

/-- The same tree with the bit of searcher 0 on every slot: it owns all three leaves. -/
def exampleOwned : ProcessTree :=
  { rootTag := 1, root := .node 1 (.leaf 1) 1 (.node 1 (.leaf 2) 1 (.leaf 3)) }

end RandomPathSearcher

namespace RandomPathSearcher

/-- The loop of `RandomPathSearcher::selectForDelition` over the rest of
`executor.states`: `size--; if(size < 1) break; ret.push_back(es);`. -/
def selectForDelitionLoop : List ES → Int → List ES → List ES
  | [], _, ret => ret
  | es :: rest, size, ret =>
    if size - 1 < 1 then ret else selectForDelitionLoop rest (size - 1) (ret ++ [es])

/-- The method `RandomPathSearcher::selectForDelition`, for `size ≥ 0`; `states` lists
the set `executor.states` in iteration order. -/
def selectForDelition (states : List ES) (size : Int) : List ES :=
  selectForDelitionLoop states size []

end RandomPathSearcher

namespace MergingSearcher

/-- One entry of `executor.mergeGroups`: what its `hasMergedStates()` and its
`getPrioritizeState()` return. -/
structure MergeGroup where
  hasMergedStates : Bool
  prioritizeState : Option ES
  deriving DecidableEq, Repr

/-- The loop of `MergingSearcher::selectState` over the merge groups from position `i`
on: the state that a group yields, if any, and the positions of the groups on which
`releaseStates()` has been called, in order. -/
def scan : List MergeGroup → Nat → List Nat → Option ES × List Nat
  | [], _, released => (none, released)
  | g :: gs, i, released =>
    if !g.hasMergedStates then scan gs (i + 1) released
    else
      match g.prioritizeState with
      | some es => (some es, released)
      | none => scan gs (i + 1) (released ++ [i])

/-- The method `MergingSearcher::selectState`: the selected state, the base, and the
positions of the released groups; `none` is the failed assertion that the base is not
empty (or a failure of the base). -/
def selectState {β : Type} (B : Base β) (b : β) (groups : List MergeGroup) :
    Option (ES × β × List Nat) :=
  if (B.empty b).1 then none
  else
    match scan groups 0 [] with
    | (some es, released) => some (es, (B.empty b).2, released)
    | (none, released) =>
      (B.selectState (B.empty b).2).map fun r => (r.1, r.2, released)

/-- A group that has merged states and a state to prioritise. -/
def yields (g : MergeGroup) : Bool :=
  g.hasMergedStates && g.prioritizeState.isSome

/-- A group that has merged states but none to prioritise: its deadline has passed. -/
def expired (g : MergeGroup) : Bool :=
  g.hasMergedStates && g.prioritizeState.isNone

/-- The positions of the expired groups of a list whose first element has position
`i`. -/
def expiredFrom : Nat → List MergeGroup → List Nat
  | _, [] => []
  | i, g :: gs => (if expired g then [i] else []) ++ expiredFrom (i + 1) gs

/-- Three merge groups: an expired one, one without merged states, and one that
yields state 7. -/
def exampleGroups : List MergeGroup :=
  [⟨true, none⟩, ⟨false, some 5⟩, ⟨true, some 7⟩]

end MergingSearcher

/-! ## The engine as the pending searchers see it -/

/-- A call that a pending searcher makes on the engine, on the solver or on one of its
base searchers, as recorded in the trace of the engine. -/
inductive Event where
  | setTimeout (timeout : Span)
  | mayBeTrue (es : ES) (expr : Nat) (timeout : Span) (ignoreFailures status result : Bool)
  | addConstraint (es : ES) (expr : Nat)
  | addToNormal (es : ES)
  | removeFromPending (es : ES)
  | removeTreeNode (es : ES)
  | eraseState (es : ES)
  | release (es : ES)
  | attemptToRevive (es : ES) (success : Bool)
  | terminateState (es : ES)
  deriving DecidableEq, Repr

/-- Modelled from the spec: the part of the engine (its classes are declared in absent
headers) that the pending searchers read and write: the non-null `pendingConstraint`
fields (state and expression), the set `executor.states`, the timeout of the solver,
the option `IgnoreSolverFailures`, the two statistics, and the trace of the calls made
so far. -/
structure Engine where
  pendingConstraint : List (ES × Nat)
  states : List ES
  solverTimeout : Span
  ignoreSolverFailures : Bool
  pendingRevives : Nat
  pendingKills : Nat
  trace : List Event
  deriving DecidableEq, Repr

/-- Modelled from the spec: what the solver and the expressions answer (neither is in
the sources): `mayBeTrue es expr` is the pair of the returned status and of
`solverResult`, `width expr` is `expr->getWidth()`. -/
structure Solver where
  mayBeTrue : ES → Nat → Bool × Bool
  width : Nat → Nat

namespace Engine

/-- The field `es.pendingConstraint`, `none` when it is null. -/
def constraintOf (e : Engine) (es : ES) : Option Nat :=
  e.pendingConstraint.lookup es

/-- The lambda `is_pending`: `!es->pendingConstraint.isNull()`. -/
def isPending (e : Engine) (es : ES) : Bool :=
  (e.constraintOf es).isSome

/-- The assignment `es.pendingConstraint = nullptr`. -/
def clearConstraint (e : Engine) (es : ES) : Engine :=
  { e with pendingConstraint := e.pendingConstraint.filter fun p => p.1 != es }

/-- Append a call to the trace. -/
def record (e : Engine) (ev : Event) : Engine :=
  { e with trace := e.trace ++ [ev] }

/-- The call `exec->solver->setTimeout(t)`. -/
def setTimeout (e : Engine) (t : Span) : Engine :=
  { e with solverTimeout := t, trace := e.trace ++ [Event.setTimeout t] }

end Engine

/-! ## PendingSearcher -/

namespace PendingSearcher

/-- The fields of a `PendingSearcher` over two bases with states `α` and `β`. -/
structure State (α β : Type) where
  normal : α
  pending : β
  maxReviveTime : Span

/-- The method `PendingSearcher::update`: route the added and the removed states by
`is_pending`; a pending `current` is also removed from the normal base and added to
the pending base. -/
def update {α β : Type} (BN : Base α) (BP : Base β) (isPending : ES → Bool)
    (s : State α β) (current : Option ES) (addedStates removedStates : List ES) :
    Option (State α β) :=
  let addedN := addedStates.filter fun es => !isPending es
  let addedP := addedStates.filter fun es => isPending es
  let removedN := removedStates.filter fun es => !isPending es
  let removedP := removedStates.filter fun es => isPending es
  let moved := (current.toList).filter fun es => isPending es
  (BN.update s.normal current addedN (removedN ++ moved)).bind fun n =>
    (BP.update s.pending none (addedP ++ moved) removedP).map fun p =>
      { s with normal := n, pending := p }

/-- The method `PendingSearcher::selectState`. -/
def selectState {α β : Type} (BN : Base α) (s : State α β) : Option (ES × State α β) :=
  (BN.selectState s.normal).map fun r => (r.1, { s with normal := r.2 })

/-- The engine after the calls of the branch of `PendingSearcher::empty` for an accepted
constraint: `addConstraint`, the two updates of the bases, `++pendingRevives`. -/
def revived (e : Engine) (es : ES) (expr : Nat) : Engine :=
  { (((e.record (Event.addConstraint es expr)).record (Event.addToNormal es)).record
      (Event.removeFromPending es)) with pendingRevives := e.pendingRevives + 1 }

/-- The engine after the calls of the branch of `PendingSearcher::empty` for a rejected
constraint: `++pendingKills`, the update of the pending base, the removal of the tree
node, the erasure from `exec->states`, and `delete`. -/
def destroyed (e : Engine) (es : ES) : Engine :=
  { ((((e.record (Event.removeFromPending es)).record (Event.removeTreeNode es)).record
      (Event.eraseState es)).record (Event.release es)) with
    states := e.states.erase es, pendingKills := e.pendingKills + 1 }

/-- The branch of `PendingSearcher::empty` for an accepted constraint: add it to the
state, add the state to the normal base, remove it from the pending base, count a
revival. -/
def revive {α β : Type} (BN : Base α) (BP : Base β) (s : State α β) (e : Engine)
    (es : ES) (expr : Nat) : Option (State α β × Engine) :=
  (BN.update s.normal none [es] []).bind fun n =>
    (BP.update s.pending none [] [es]).map fun p =>
      ({ s with normal := n, pending := p }, revived e es expr)

/-- The branch of `PendingSearcher::empty` for a rejected constraint: count a kill,
remove the state from the pending base, remove its tree node, erase it from
`exec->states` (asserting that it is there) and delete it. -/
def kill {α β : Type} (BP : Base β) (s : State α β) (e : Engine) (es : ES) :
    Option (State α β × Engine) :=
  (BP.update s.pending none [] [es]).bind fun p =>
    if e.states.contains es then some ({ s with pending := p }, destroyed e es) else none

/-- The engine after the statements of an iteration up to the query: the pending
constraint of `es` is cleared and the call of `mayBeTrue` is in the trace. -/
def queried (solver : Solver) (e : Engine) (es : ES) (expr : Nat) : Engine :=
  (e.clearConstraint es).record
    (Event.mayBeTrue es expr e.solverTimeout e.ignoreSolverFailures
      (solver.mayBeTrue es expr).1 (solver.mayBeTrue es expr).2)

/-- The `while(baseNormalSearcher->empty())` loop of `PendingSearcher::empty` and the
statements after it, run for at most `fuel` tests of the loop condition. The result is
the returned Boolean with the searcher and the engine on return; `none` is a failed
assertion, a failure of a base, or the exhaustion of `fuel`. -/
def reviveLoop {α β : Type} (BN : Base α) (BP : Base β) (solver : Solver) :
    Nat → State α β → Engine → Option (Bool × State α β × Engine)
  | 0, _, _ => none
  | fuel + 1, s, e =>
    if (BN.empty s.normal).1 then
      let s1 : State α β := { s with normal := (BN.empty s.normal).2 }
      if (BP.empty s1.pending).1 then
        some (true, { s1 with pending := (BP.empty s1.pending).2 }, e)
      else
        (BP.selectState (BP.empty s1.pending).2).bind fun sel =>
          let s2 : State α β := { s1 with pending := sel.2 }
          match e.constraintOf sel.1 with
          | none => none
          | some expr =>
            if solver.width expr = 0 then none
            else
              let e1 := queried solver e sel.1 expr
              if (solver.mayBeTrue sel.1 expr).1 && (solver.mayBeTrue sel.1 expr).2 then
                (revive BN BP s2 e1 sel.1 expr).bind fun r => reviveLoop BN BP solver fuel r.1 r.2
              else
                (kill BP s2 e1 sel.1).bind fun r => reviveLoop BN BP solver fuel r.1 r.2
    else
      let s1 : State α β := { s with normal := (BN.empty s.normal).2 }
      let e1 := e.setTimeout 0
      if (BN.empty s1.normal).1 then
        some ((BP.empty s1.pending).1,
          { s1 with normal := (BN.empty s1.normal).2, pending := (BP.empty s1.pending).2 }, e1)
      else some (false, { s1 with normal := (BN.empty s1.normal).2 }, e1)

/-- The method `PendingSearcher::empty`, its loop run for at most `fuel` tests. -/
def empty {α β : Type} (BN : Base α) (BP : Base β) (solver : Solver) (fuel : Nat)
    (s : State α β) (e : Engine) : Option (Bool × State α β × Engine) :=
  if (BN.empty s.normal).1 then
    reviveLoop BN BP solver fuel { s with normal := (BN.empty s.normal).2 }
      (e.setTimeout s.maxReviveTime)
  else some (false, { s with normal := (BN.empty s.normal).2 }, e)

end PendingSearcher

namespace PendingSearcher

/-- A searcher over a BFS normal base holding states 1 and 2 and a DFS pending base
holding state 3. -/
def exampleState : State (List ES × Nat) (List ES × Nat) :=
  { normal := ([1, 2], 0), pending := ([3], 0), maxReviveTime := 0 }

/-- The partition invariant over flat bases, as it stands when `update` is entered:
neither base holds a state twice, they share no state, every state of the pending base
is pending, and every state of the normal base other than `current` is not. -/
def Routed (isPending : ES → Bool) (current : Option ES)
    (s : State (List ES × Nat) (List ES × Nat)) : Prop :=
  s.normal.1.Nodup ∧ s.pending.1.Nodup ∧ (∀ x ∈ s.normal.1, x ∉ s.pending.1) ∧
    (∀ x ∈ s.normal.1, some x ≠ current → isPending x = false) ∧
    (∀ x ∈ s.pending.1, isPending x = true)

instance (isPending : ES → Bool) (current : Option ES)
    (s : State (List ES × Nat) (List ES × Nat)) : Decidable (Routed isPending current s) := by
  unfold Routed; infer_instance

end PendingSearcher

/-- The state that an event of the trace is about, if any. -/
def Event.subject : Event → Option ES
  | .setTimeout _ => none
  | .mayBeTrue es _ _ _ _ _ => some es
  | .addConstraint es _ => some es
  | .addToNormal es => some es
  | .removeFromPending es => some es
  | .removeTreeNode es => some es
  | .eraseState es => some es
  | .release es => some es
  | .attemptToRevive es _ => some es
  | .terminateState es => some es

namespace PendingSearcher

/-- What `empty` needs of a searcher over flat bases and of the engine to fail no
assertion: the pending base holds no state twice, and each of its states is in
`exec->states` and has a pending constraint of non-zero width. -/
def Revivable (solver : Solver) (s : State (List ES × Nat) (List ES × Nat)) (e : Engine) :
    Prop :=
  s.pending.1.Nodup ∧
    ∀ x ∈ s.pending.1, x ∈ e.states ∧
      ∃ expr, e.constraintOf x = some expr ∧ solver.width expr ≠ 0

/-- The four calls that destroy a state, in the order of the source. -/
def destroySteps (es : ES) : List Event :=
  [Event.removeFromPending es, Event.removeTreeNode es, Event.eraseState es, Event.release es]

/-- The outcome `r` of the revival loop started on the searcher `s` and the engine `e`,
described through the calls `new` that the loop has appended to the trace. -/
def Outcome (solver : Solver) (s : State (List ES × Nat) (List ES × Nat)) (e : Engine)
    (r : Bool × State (List ES × Nat) (List ES × Nat) × Engine) (new : List Event) : Prop :=
  r.2.2.trace = e.trace ++ new ∧
  (r.1 = true ↔ r.2.1.normal.1 = [] ∧ r.2.1.pending.1 = []) ∧
  (r.1 = false → r.2.1.normal.1 ≠ []) ∧
  (∀ x ∈ s.normal.1, x ∈ r.2.1.normal.1) ∧
  (∀ x ∈ r.2.1.pending.1, x ∈ s.pending.1) ∧
  (∀ ev ∈ new, ∀ x, ev.subject = some x → x ∈ s.pending.1) ∧
  (∀ x, Event.release x ∈ new →
    ∃ expr, e.constraintOf x = some expr ∧
      Event.mayBeTrue x expr e.solverTimeout e.ignoreSolverFailures
        (solver.mayBeTrue x expr).1 (solver.mayBeTrue x expr).2 ∈ new ∧
      ((solver.mayBeTrue x expr).1 && (solver.mayBeTrue x expr).2) = false) ∧
  (∀ x expr t i, Event.mayBeTrue x expr t i true true ∈ new →
    x ∈ r.2.1.normal.1 ∧ x ∉ r.2.1.pending.1 ∧ Event.release x ∉ new ∧
      Event.addConstraint x expr ∈ new ∧ r.2.2.isPending x = false ∧
      e.constraintOf x = some expr) ∧
  (∀ x, Event.release x ∈ new → destroySteps x <:+: new) ∧
  r.2.2.pendingRevives + r.2.2.pendingKills + r.2.1.pending.1.length
    = e.pendingRevives + e.pendingKills + s.pending.1.length ∧
  e.pendingRevives ≤ r.2.2.pendingRevives ∧ e.pendingKills ≤ r.2.2.pendingKills

end PendingSearcher

namespace PendingSearcher

/-- A searcher whose normal base (BFS) is empty and whose pending base (DFS) holds the
states 3 and 4. -/
def exampleStarved : State (List ES × Nat) (List ES × Nat) :=
  { normal := ([], 0), pending := ([3, 4], 0), maxReviveTime := 5000000 }

/-- An engine with the states 1 to 4, of which 3 and 4 are pending on the expressions
30 and 40. -/
def exampleEngine : Engine :=
  { pendingConstraint := [(3, 30), (4, 40)], states := [1, 2, 3, 4], solverTimeout := 0,
    ignoreSolverFailures := false, pendingRevives := 0, pendingKills := 0, trace := [] }

/-- A solver that accepts expression 30 and fails on every other one; every expression
has width 1. -/
def exampleSolver : Solver :=
  { mayBeTrue := fun _ expr => (decide (expr = 30), true), width := fun _ => 1 }

end PendingSearcher

/-! ## ZESTIPendingSearcher -/

namespace ZESTIPendingSearcher

/-- The value of an integer as an `int`: 32 bits, two's complement. This is the
conversion `(int)es->depth` of the unsigned `depth`; the model also applies it to the
results of `int` arithmetic, which are exact whenever they fit. -/
def toInt (x : Int) : Int :=
  (x + 2147483648) % 4294967296 - 2147483648

/-- Modelled from the spec: what the searcher reads from the engine and from the
configuration, declared in headers that are absent: the field `depth` of a state (a
non-negative integer), the sensitive depths `exec->senstiveDepths` (integers), the
option `ZestiBound` (`cl::opt<int>`, line 69 of the source), the answer of
`exec->attemptToRevive` for a state, and the order in which `std::sort` leaves a list
under a comparator. -/
structure Env where
  depth : ES → Nat
  senstiveDepths : List Int
  zestiBound : Int
  attemptToRevive : ES → Bool
  sort : (ES → ES → Bool) → List ES → List ES

/-- The fields of a `ZESTIPendingSearcher`; `normalSearcher` is the list of its
`DFSSearcher`, `smallestSensitiveDistance` the entries of the map, latest first. -/
structure State where
  normalSearcher : List ES
  normalStates : List ES
  pendingStates : List ES
  toDelete : List ES
  smallestSensitiveDistance : List (ES × Int)
  bound : Int
  currentBaseDepth : Int
  hasSelectedState : Bool
  deriving DecidableEq, Repr

/-- The constructor: a new `DFSSearcher` and `bound = 0`. Modelled from the spec: the
initial values of `currentBaseDepth` (−1, unbounded) and of `hasSelectedState`
(false), which are set in the absent header. -/
def init : State :=
  ⟨[], [], [], [], [], 0, -1, false⟩

/-- The lookup `smallestSensitiveDistance[es]`: a missing key reads as 0. -/
def distanceOf (m : List (ES × Int)) (es : ES) : Int :=
  (m.lookup es).getD 0

/-- The local `int diff = sDepth - pEs->depth`. -/
def diff (sDepth : Int) (depth : Nat) : Int :=
  toInt (sDepth - depth)

/-- The inner loop of `computeDistances` for a state of depth `depth`: starting from
999999, every sensitive depth replaces the running value by `diff` when
`diff >= 0 && diff < smallestDistance`. -/
def smallestDistance (senstiveDepths : List Int) (depth : Nat) : Int :=
  senstiveDepths.foldl
    (fun sd sDepth => if 0 ≤ diff sDepth depth ∧ diff sDepth depth < sd then diff sDepth depth else sd)
    999999

/-- The comparator that `computeDistances` gives to `std::sort`: with equal distances
the lower depth goes first, otherwise the greater distance goes first. -/
def before (env : Env) (m : List (ES × Int)) (es1 es2 : ES) : Bool :=
  if distanceOf m es1 = distanceOf m es2 then decide (env.depth es1 < env.depth es2)
  else decide (distanceOf m es1 > distanceOf m es2)

/-- The outer loop of `computeDistances`: one entry of the map per pending state. -/
def distanceTable (env : Env) (m : List (ES × Int)) (pendingStates : List ES) :
    List (ES × Int) :=
  pendingStates.foldl (fun m pEs => (pEs, smallestDistance env.senstiveDepths (env.depth pEs)) :: m)
    m

/-- The method `ZESTIPendingSearcher::computeDistances`: fill the map, then sort the
pending states with the comparator. -/
def computeDistances (env : Env) (s : State) : State :=
  { s with
    smallestSensitiveDistance := distanceTable env s.smallestSensitiveDistance s.pendingStates,
    pendingStates :=
      env.sort (before env (distanceTable env s.smallestSensitiveDistance s.pendingStates))
        s.pendingStates }

/-- What `std::sort` guarantees of its output for the comparator `lt`: a rearrangement
of the input in which no element is before one that `lt` puts ahead of it. -/
def SortedBy (lt : ES → ES → Bool) (input output : List ES) : Prop :=
  output.Perm input ∧ output.Pairwise fun a b => lt b a = false

instance (lt : ES → ES → Bool) (input output : List ES) : Decidable (SortedBy lt input output) := by
  unfold SortedBy
  infer_instance

/-- The opening of `empty` and of `selectState`: `computeDistances` on the first use,
then `hasSelectedState = true`. -/
def prepare (env : Env) (s : State) : State :=
  { (if s.hasSelectedState then s else computeDistances env s) with hasSelectedState := true }

/-- The test `currentBaseDepth >= 0 && (int)es->depth > currentBaseDepth + bound`. -/
def outOfBound (env : Env) (s : State) (es : ES) : Bool :=
  decide (0 ≤ s.currentBaseDepth) &&
    decide (toInt (env.depth es) > toInt (s.currentBaseDepth + s.bound))

/-- The erase loops at the end of `update`: every removed state is erased from the
list, at its first occurrence. The source keeps iterating with the erased iterator up to
the end it read before the loop; on a list without duplicates that removes the one
occurrence and nothing else, which is what this definition computes. On a list with
duplicates the loop of the source skips the element after an erased one, so the
theorems that state what these lists hold after `update` assume them duplicate-free
(`Fresh`) and show that they stay so. -/
def eraseAll (states removed : List ES) : List ES :=
  removed.foldl List.erase states

/-- The method `ZESTIPendingSearcher::update`. Added states go to `addedP` when
pending, to `toDelete` when out of bound, to `addedN` otherwise; removed states are
split by `is_pending`; a pending `current` is moved to the pending list; an
out-of-bound `current` is pushed to `toDelete` unless it is among the removed states,
and `current` becomes null. With `hasSelectedState` set, `assert(addedP.empty())`.
Then the DFS searcher (`none` when its removal loop meets an empty vector) and the two
lists are updated. -/
def update (env : Env) (isPending : ES → Bool) (s : State) (current : Option ES)
    (addedStates removedStates : List ES) : Option State :=
  let addedP := addedStates.filter isPending
  let late := addedStates.filter fun es => !isPending es && outOfBound env s es
  let addedN := addedStates.filter fun es => !isPending es && !outOfBound env s es
  let removedP := removedStates.filter isPending
  let removedN := removedStates.filter fun es => !isPending es
  let moved := current.toList.filter isPending
  let dropped := current.toList.filter fun c => !isPending c && outOfBound env s c
  let current1 := if dropped.isEmpty then current else none
  let toDelete := s.toDelete ++ late ++ dropped.filter fun c => !removedStates.contains c
  if s.hasSelectedState && !(addedP ++ moved).isEmpty then none
  else
    (DFSSearcher.update s.normalSearcher current1 addedN (removedN ++ moved)).map fun searcher =>
      { s with
        normalSearcher := searcher,
        normalStates := eraseAll (s.normalStates ++ addedN) (removedN ++ moved),
        pendingStates := eraseAll (s.pendingStates ++ (addedP ++ moved)) removedP,
        toDelete := toDelete }

/-- Modelled from the spec: a successful `exec->attemptToRevive(es, ...)` (the state is
now non-pending), recorded in the trace. -/
def revived (e : Engine) (es : ES) : Engine :=
  (e.clearConstraint es).record (Event.attemptToRevive es true)

/-- Modelled from the spec: the calls on the engine for a state that is not revived:
the failed `attemptToRevive`, if the distance allowed the attempt, then
`exec->terminateState(*es)`. -/
def terminated (e : Engine) (es : ES) (attempted : Bool) : Engine :=
  (if attempted then e.record (Event.attemptToRevive es false) else e).record
    (Event.terminateState es)

/-- The window that a revival of `es` sets: `currentBaseDepth = es->depth`,
`bound = ZestiBound * smallestSensitiveDistance[es]`, `bound = bound == 0 ? 1 : bound`. -/
def window (env : Env) (s : State) (es : ES) : State :=
  { s with
    currentBaseDepth := toInt (env.depth es),
    bound :=
      if toInt (env.zestiBound * distanceOf s.smallestSensitiveDistance es) = 0 then 1
      else toInt (env.zestiBound * distanceOf s.smallestSensitiveDistance es) }

/-- The loop of `ZESTIPendingSearcher::empty`, with fuel: while `normalStates` is
empty and `pendingStates` is not, pop the back of `pendingStates`; revive it, set the
window and `update(nullptr, {es}, {})`, or terminate it. -/
def reviveLoop (env : Env) : Nat → State → Engine → Option (State × Engine)
  | 0, _, _ => none
  | fuel + 1, s, e =>
    if s.normalStates.isEmpty && !s.pendingStates.isEmpty then
      match s.pendingStates.getLast? with
      | none => none
      | some es =>
        if distanceOf s.smallestSensitiveDistance es != 999999 then
          if env.attemptToRevive es then
            (update env (revived e es).isPending
                (window env { s with pendingStates := s.pendingStates.dropLast } es)
                none [es] []).bind
              fun s1 => reviveLoop env fuel s1 (revived e es)
          else
            reviveLoop env fuel { s with pendingStates := s.pendingStates.dropLast }
              (terminated e es true)
        else
          reviveLoop env fuel { s with pendingStates := s.pendingStates.dropLast }
            (terminated e es false)
    else some (s, e)

/-- The method `ZESTIPendingSearcher::empty`: the opening, `return true` when
`ZestiBound == 0`, otherwise the loop and `normalSearcher->empty()`. -/
def empty (env : Env) (fuel : Nat) (s : State) (e : Engine) : Option (Bool × State × Engine) :=
  if env.zestiBound = 0 then some (true, prepare env s, e)
  else (reviveLoop env fuel (prepare env s) e).map
    fun r => (FlatKind.empty .dfs r.1.normalSearcher, r.1, r.2)

/-- The method `ZESTIPendingSearcher::selectState`: the opening, `terminateState` for
every state of `toDelete`, `toDelete.clear()`, then `normalSearcher->selectState()`. -/
def selectState (env : Env) (s : State) (e : Engine) : Option (ES × State × Engine) :=
  (DFSSearcher.selectState (prepare env s).normalSearcher).map
    fun es =>
      (es, { prepare env s with toDelete := [] },
        (prepare env s).toDelete.foldl (fun e1 x => e1.record (Event.terminateState x)) e)

/-- Sorting by insertion, as one order that `std::sort` may produce. -/
def exampleSort (lt : ES → ES → Bool) (l : List ES) : List ES :=
  l.insertionSort fun a b => lt b a = false

/-- The engine of the examples: nothing pending that matters, an empty trace. -/
def exampleEngine : Engine :=
  ⟨[], [1, 2], 0, false, 0, 0, []⟩

/-- Scenario 6 of the spec: sensitive depths {10}, multiplier 2; state 1 has depth 7,
state 2 depth 14, state 3 depth 13; every revival succeeds. -/
def exampleEnv : Env :=
  ⟨fun es => if es = 1 then 7 else if es = 2 then 14 else 13, [10], 2, fun _ => true, exampleSort⟩

/-- The searcher of scenario 6 before the first `empty`: state 1 is pending. -/
def examplePending : State :=
  ⟨[], [], [1], [], [], 0, -1, false⟩

/-- The searcher of scenario 6 after the revival of state 1: window base 7, bound 6. -/
def exampleRevived : State :=
  ⟨[1], [1], [], [], [(1, 3)], 6, 7, true⟩

/-- Two sensitive depths 10 and 20; state 1 has depth 7 and state 2 has depth 17, so
both are at distance 3. -/
def exampleTies : Env :=
  ⟨fun es => if es = 1 then 7 else 17, [10, 20], 2, fun _ => true, exampleSort⟩

/-- The two states of `exampleTies`, pending, before the first use. -/
def exampleTiesPending : State :=
  ⟨[], [], [2, 1], [], [], 0, -1, false⟩

/-- A sensitive depth a million above a state of depth 0. -/
def exampleFar : Env :=
  ⟨fun _ => 0, [1000000], 2, fun _ => true, exampleSort⟩

/-- Scenario 6 with the multiplier −1. -/
def exampleNegative : Env :=
  ⟨fun es => if es = 1 then 7 else if es = 2 then 14 else 13, [10], -1, fun _ => true, exampleSort⟩

/-- Scenario 6 with the multiplier 0. -/
def exampleSimple : Env :=
  ⟨fun es => if es = 1 then 7 else if es = 2 then 14 else 13, [10], 0, fun _ => true, exampleSort⟩

/-- A searcher with window base 7 and bound 6 whose population is the state 2, of
depth 14. -/
def exampleDeep : State :=
  ⟨[2], [2], [], [], [], 6, 7, true⟩

end ZESTIPendingSearcher

/-! ## WeightedRandomSearcher -/

namespace WeightedRandomSearcher

/-- The enumeration `WeightedRandomSearcher::WeightType`. -/
inductive WeightType where
  | Depth
  | RP
  | InstCount
  | CPInstCount
  | QueryCost
  | MinDistToUncovered
  | CoveringNew
  deriving DecidableEq, Repr

/-- Modelled from the spec: what `getWeight` reads of a state, from headers and
statistics that are absent: `es->depth`, the executions of the instruction at `es->pc`,
the instructions of the call-path node, `es->queryCost.toSeconds()`, the value of
`computeMinDistToUncovered`, and `es->instsSinceCovNew`. -/
structure Reading where
  depth : Nat
  instructions : Nat
  callPathInstructions : Nat
  queryCost : ℚ
  md2u : Nat
  instsSinceCovNew : Nat

/-- The constructor's `switch`: whether `update` re-weights `current`. -/
def updateWeights : WeightType → Bool
  | .Depth => false
  | .RP => false
  | .InstCount => true
  | .CPInstCount => true
  | .QueryCost => true
  | .MinDistToUncovered => true
  | .CoveringNew => true

/-- The local `invMD2U = 1. / (md2u ? md2u : 10000)`. -/
def invMD2U (r : Reading) : ℚ :=
  1 / (if r.md2u ≠ 0 then (r.md2u : ℚ) else 10000)

/-- The local `invCovNew`: 0, or `1. / std::max(1, (int) es->instsSinceCovNew - 1000)`
when `es->instsSinceCovNew` is not 0. -/
def invCovNew (r : Reading) : ℚ :=
  if r.instsSinceCovNew ≠ 0 then
    1 / ((max 1 (ZESTIPendingSearcher.toInt r.instsSinceCovNew - 1000) : Int) : ℚ)
  else 0

/-- The method `WeightedRandomSearcher::getWeight`, its `double` arithmetic taken as
exact arithmetic on rationals (the rounding of the source is not modelled). In the `RP`
case the exponent `-1*es->depth` is computed on the unsigned 32-bit `depth`, so it is
not `-depth` but `2^32 - depth` for every depth from 1 on, and 0 for depth 0: the value
is the power of two with that exponent (beyond the range of a `double`, where the
source has `+inf`), not `1 / 2^depth`. -/
def getWeight (type : WeightType) (r : Reading) : ℚ :=
  match type with
  | .Depth => r.depth
  | .RP => 2 ^ ((2 ^ 32 - r.depth % 2 ^ 32) % 2 ^ 32)
  | .InstCount => (1 / (max 1 r.instructions : Nat)) * (1 / (max 1 r.instructions : Nat))
  | .CPInstCount => 1 / (max 1 r.callPathInstructions : Nat)
  | .QueryCost => if r.queryCost < 1 / 10 then 1 else 1 / r.queryCost
  | .CoveringNew => invCovNew r * invCovNew r + invMD2U r * invMD2U r
  | .MinDistToUncovered => invMD2U r * invMD2U r

/-- Modelled from the spec: `DiscretePDF::insert`, on the entries (state and weight)
in insertion order. -/
def pdfInsert (pdf : List (ES × ℚ)) (es : ES) (w : ℚ) : List (ES × ℚ) :=
  pdf ++ [(es, w)]

/-- Modelled from the spec: `DiscretePDF::update`, the new weight of an entry. -/
def pdfUpdate (pdf : List (ES × ℚ)) (es : ES) (w : ℚ) : List (ES × ℚ) :=
  pdf.map fun p => if p.1 = es then (es, w) else p

/-- Modelled from the spec: `DiscretePDF::remove`. -/
def pdfRemove (pdf : List (ES × ℚ)) (es : ES) : List (ES × ℚ) :=
  pdf.filter fun p => p.1 != es

/-- The fields of a `WeightedRandomSearcher` that `update` writes: the entries of
`states` and the counter `size`. -/
structure State where
  states : List (ES × ℚ)
  size : Int

/-- The method `WeightedRandomSearcher::update`: adjust `size`; re-weight `current` when
it is non-null, `updateWeights` is set and it is not among the removed states; insert
every added state with its weight; remove every removed state. -/
def update (type : WeightType) (reading : ES → Reading) (s : State) (current : Option ES)
    (addedStates removedStates : List ES) : State :=
  let reweighted :=
    match current with
    | some c =>
      if updateWeights type && !removedStates.contains c then
        pdfUpdate s.states c (getWeight type (reading c))
      else s.states
    | none => s.states
  { states :=
      removedStates.foldl pdfRemove
        (addedStates.foldl (fun pdf es => pdfInsert pdf es (getWeight type (reading es)))
          reweighted),
    size := s.size + addedStates.length - removedStates.length }

/-- A state whose distance to uncovered code is 5. -/
def exampleNear : Reading :=
  ⟨3, 1, 1, 0, 5, 0⟩

/-- A searcher holding the states 1 and 2 with the weights 1 and 1/4. -/
def exampleState : State :=
  ⟨[(1, 1), (2, 1 / 4)], 2⟩

end WeightedRandomSearcher

namespace BFSSearcher

/-- The removal of one state as the spec words it: the first occurrence is erased; a
state that is not in the queue is an invalid removal. -/
def eraseFirst (states : List ES) (es : ES) : Option (List ES) :=
  if es ∈ states then some (states.erase es) else none

end BFSSearcher

/-- Whether an event of the trace is a query `mayBeTrue`. -/
def Event.isQuery : Event → Bool
  | .mayBeTrue _ _ _ _ _ _ => true
  | _ => false

/-- Whether an event of the trace is the release (`delete`) of a state. -/
def Event.isRelease : Event → Bool
  | .release _ => true
  | _ => false

namespace PendingSearcher

/-- Modelled from the spec: the virtual methods of the base searchers that
`PendingSearcher::selectForDelition` calls and that the absent header declares:
`getSize()` of the pending base and `selectForDelition(size)` of either base. -/
structure Culling (α β : Type) where
  pendingSize : β → Int
  normalVictims : α → Int → List ES
  pendingVictims : β → Int → List ES

/-- The statements of an iteration of the loop of `selectForDelition`, from
`selectState` to the end of the branch: select a pending state, take and clear its
pending constraint (asserting that it is set and has a width), query the solver, then
revive the state or destroy it. The Boolean tells whether the state was revived. -/
def attempt {α β : Type} (BN : Base α) (BP : Base β) (solver : Solver) (s : State α β)
    (e : Engine) : Option (Bool × State α β × Engine) :=
  (BP.selectState s.pending).bind fun sel =>
    match e.constraintOf sel.1 with
    | none => none
    | some expr =>
      if solver.width expr = 0 then none
      else if (solver.mayBeTrue sel.1 expr).1 && (solver.mayBeTrue sel.1 expr).2 then
        (revive BN BP { s with pending := sel.2 } (queried solver e sel.1 expr) sel.1 expr).map
          fun r => (true, r)
      else
        (kill BP { s with pending := sel.2 } (queried solver e sel.1 expr) sel.1).map
          fun r => (false, r)

/-- What the loop of `selectForDelition` leaves: whether it was left by
`if(exec->haltExecution) return {}`, the searcher, the engine, and the locals `size`,
`revived` and `killed`. -/
structure CullResult (α β : Type) where
  halted : Bool
  searcher : State α β
  engine : Engine
  size : Int
  revived : Int
  killed : Int

/-- The loop of `PendingSearcher::selectForDelition`, run for at most `fuel` tests of
its condition `!basePendingSearcher->empty() && size - revived > 0 &&
basePendingSearcher->getSize() > size`: a revival counts in `revived`, a kill counts in
`killed` and decrements `size`. -/
def cullLoop {α β : Type} (BN : Base α) (BP : Base β) (C : Culling α β) (solver : Solver)
    (haltExecution : Bool) :
    Nat → State α β → Engine → Int → Int → Int → Option (CullResult α β)
  | 0, _, _, _, _, _ => none
  | fuel + 1, s, e, size, revived, killed =>
    if !(BP.empty s.pending).1 && decide (size - revived > 0) &&
        decide (C.pendingSize (BP.empty s.pending).2 > size) then
      if haltExecution then
        some ⟨true, { s with pending := (BP.empty s.pending).2 }, e, size, revived, killed⟩
      else
        (attempt BN BP solver { s with pending := (BP.empty s.pending).2 } e).bind fun r =>
          if r.1 then cullLoop BN BP C solver haltExecution fuel r.2.1 r.2.2 size (revived + 1) killed
          else cullLoop BN BP C solver haltExecution fuel r.2.1 r.2.2 (size - 1) revived (killed + 1)
    else some ⟨false, { s with pending := (BP.empty s.pending).2 }, e, size, revived, killed⟩

/-- The engine at the start of the loop of `selectForDelition`:
`setTimeout(maxReviveTime)` and `IgnoreSolverFailures = true`. -/
def tolerant (e : Engine) (maxReviveTime : Span) : Engine :=
  { e.setTimeout maxReviveTime with ignoreSolverFailures := true }

/-- The engine after the loop of `selectForDelition`: `setTimeout(time::Span())` and
`IgnoreSolverFailures = rememberIgnore`. -/
def restored (e : Engine) (rememberIgnore : Bool) : Engine :=
  { e.setTimeout 0 with ignoreSolverFailures := rememberIgnore }

/-- The method `PendingSearcher::selectForDelition`. With `RandomPendingDelition` the
proposals of the two bases are combined (the test `size - ret.size() > 0` is unsigned,
so it holds whenever the two differ, and the difference is passed on as an `int`).
Otherwise the loop runs with the revive timeout and with `IgnoreSolverFailures` forced;
when the engine halts the result is empty, otherwise the timeout is reset, the flag
is restored and the result is `baseNormalSearcher->selectForDelition(size)`. -/
def selectForDelition {α β : Type} (BN : Base α) (BP : Base β) (C : Culling α β)
    (solver : Solver) (randomPendingDelition haltExecution : Bool) (fuel : Nat)
    (s : State α β) (e : Engine) (size : Int) : Option (List ES × State α β × Engine) :=
  if randomPendingDelition then
    if size - (C.pendingVictims s.pending size).length ≠ 0 then
      some (C.pendingVictims s.pending size
          ++ C.normalVictims s.normal
              (ZESTIPendingSearcher.toInt (size - (C.pendingVictims s.pending size).length)),
        s, e)
    else some (C.pendingVictims s.pending size, s, e)
  else
    (cullLoop BN BP C solver haltExecution fuel s (tolerant e s.maxReviveTime) size 0 0).map
      fun r =>
        if r.halted then ([], r.searcher, r.engine)
        else (C.normalVictims r.searcher.normal r.size, r.searcher,
          restored r.engine e.ignoreSolverFailures)

/-- Bases that report the length of the pending list and propose the first states of
their lists. -/
def exampleCulling : Culling (List ES × Nat) (List ES × Nat) :=
  ⟨fun b => b.1.length, fun b n => b.1.take n.toNat, fun b n => b.1.take n.toNat⟩

/-- A searcher with the normal states 1 and 2 and the pending states 3 and 4. -/
def exampleCrowded : State (List ES × Nat) (List ES × Nat) :=
  { normal := ([1, 2], 0), pending := ([3, 4], 0), maxReviveTime := 5000000 }

end PendingSearcher

namespace ZESTIPendingSearcher

/-- The mirror invariant: the list of the internal DFS searcher and `normalStates` hold
the same states (here: in the same order), without duplicates. -/
def Mirror (s : State) : Prop :=
  s.normalSearcher = s.normalStates ∧ s.normalStates.Nodup

instance (s : State) : Decidable (Mirror s) := by
  unfold Mirror
  infer_instance

end ZESTIPendingSearcher

namespace ZESTIPendingSearcher

/-- No state is added twice: `normalStates` with the added non-pending states, and
`pendingStates` with the added pending states and a pending `current`, hold no state
twice. (On such lists the erase loops of `update` remove the one occurrence.) -/
def Fresh (isPending : ES → Bool) (s : State) (current : Option ES)
    (addedStates : List ES) : Prop :=
  (s.normalStates ++ addedStates.filter fun es => !isPending es).Nodup ∧
  (s.pendingStates ++ (addedStates.filter isPending ++ current.toList.filter isPending)).Nodup

instance (isPending : ES → Bool) (s : State) (current : Option ES) (addedStates : List ES) :
    Decidable (Fresh isPending s current addedStates) := by
  unfold Fresh
  infer_instance

/-- Every state that the call removes from the normal population is live: the
non-pending removed states and a pending `current` are in the DFS searcher, and none
is removed twice. (The removal loop of the DFS searcher then never reads the back of an
empty vector.) -/
def Live (isPending : ES → Bool) (s : State) (current : Option ES)
    (removedStates : List ES) : Prop :=
  ((removedStates.filter fun es => !isPending es) ++ current.toList.filter isPending).Nodup ∧
  ∀ x ∈ (removedStates.filter fun es => !isPending es) ++ current.toList.filter isPending,
    x ∈ s.normalSearcher

instance (isPending : ES → Bool) (s : State) (current : Option ES) (removedStates : List ES) :
    Decidable (Live isPending s current removedStates) := by
  unfold Live
  infer_instance

end ZESTIPendingSearcher

/-! ## Theorems: flat searchers -/

section FlatTheorems

theorem DFSSearcher.update_no_removed (states : List ES) (current : Option ES)
    (added : List ES) :
    DFSSearcher.update states current added [] = some (states ++ added) := rfl

theorem DFSSearcher.update_remove_back (states : List ES) (current : Option ES) (x : ES)
    (h : states.getLast? = some x) :
    DFSSearcher.update states current [] [x] = some states.dropLast := by
  have hne : states.isEmpty = false := by
    cases states with
    | nil => simp at h
    | cons a t => rfl
  simp [DFSSearcher.update, DFSSearcher.removeOne, h, hne]

/-- C1: DFSSearcher is a stack. An update without removals appends the added states in
order; when `added` is non-empty the next `selectState` returns the last element of
`added`; removing that selected state pops it, so that the following `selectState`
returns the element directly below it. No update of the scenario fails. -/
theorem dfs_stack_discipline (states added : List ES) (current current' : Option ES)
    (hadd : added ≠ []) :
    DFSSearcher.update states current added [] = some (states ++ added) ∧
    (DFSSearcher.update states current added []).bind DFSSearcher.selectState
      = some (added.getLast hadd) ∧
    (DFSSearcher.update states current added []).bind
        (fun q => DFSSearcher.update q current' [] [added.getLast hadd])
      = some (states ++ added).dropLast ∧
    ((DFSSearcher.update states current added []).bind
        (fun q => DFSSearcher.update q current' [] [added.getLast hadd])).bind
        DFSSearcher.selectState = (states ++ added).dropLast.getLast? ∧
    ∀ below y, states ++ added = below ++ [y, added.getLast hadd] →
      ((DFSSearcher.update states current added []).bind
          (fun q => DFSSearcher.update q current' [] [added.getLast hadd])).bind
          DFSSearcher.selectState = some y := by
  have hlast : (states ++ added).getLast? = some (added.getLast hadd) := by
    rw [List.getLast?_append_of_ne_nil _ hadd, List.getLast?_eq_getLast _ hadd]
  have hpop := DFSSearcher.update_remove_back (states ++ added) current' _ hlast
  refine ⟨rfl, ?_, ?_, ?_, ?_⟩
  · rw [DFSSearcher.update_no_removed, Option.some_bind]
    exact hlast
  · rw [DFSSearcher.update_no_removed, Option.some_bind]
    exact hpop
  · rw [DFSSearcher.update_no_removed, Option.some_bind, hpop, Option.some_bind]
    rfl
  · intro below y hxy
    rw [DFSSearcher.update_no_removed, Option.some_bind, hpop, Option.some_bind, hxy]
    have : below ++ [y, added.getLast hadd] = (below ++ [y]) ++ [added.getLast hadd] := by simp
    rw [this, List.dropLast_concat]
    simp [DFSSearcher.selectState]

/-- Scenario "add a, b, c; select c; remove c; select b" of C1 with a, b, c = 1, 2, 3. -/
theorem dfs_stack_discipline_witness :
    ([1, 2, 3] : List ES) ≠ [] ∧
    (DFSSearcher.update [] none [1, 2, 3] []).bind DFSSearcher.selectState = some 3 ∧
    ((DFSSearcher.update [] none [1, 2, 3] []).bind
        (fun q => DFSSearcher.update q none [] [3])).bind DFSSearcher.selectState = some 2 :=
  ⟨by decide, (dfs_stack_discipline [] [1, 2, 3] none none (by decide)).2.1,
    (dfs_stack_discipline [] [1, 2, 3] none none (by decide)).2.2.2.2 [1] 2 rfl⟩

theorem BFSSearcher.update_fork (q added : List ES) (c : ES) (hc : c ∈ q) (hadd : added ≠ []) :
    BFSSearcher.update q (some c) added [] = some (q.erase c ++ c :: added) := by
  cases added with
  | nil => exact absurd rfl hadd
  | cons a as => simp [BFSSearcher.update, BFSSearcher.moveCurrent, hc]

/-- C5 as stated fails: with population `[a]`, after `update(current=a, added=[b,c])`
the queue is `[a, b, c]` and `selectState` returns the parent `a`, not `b`
(here a, b, c = 1, 2, 3). -/
theorem bfs_fork_parent_keeps_head :
    BFSSearcher.selectState [1] = some 1 ∧
    BFSSearcher.update [1] (some 1) [2, 3] [] = some [1, 2, 3] ∧
    (BFSSearcher.update [1] (some 1) [2, 3] []).bind BFSSearcher.selectState = some 1 ∧
    (BFSSearcher.update [1] (some 1) [2, 3] []).bind BFSSearcher.selectState ≠ some 2 := by
  decide

/-- C5 (amended): after a fork update (`added` non-empty, `current` in the queue and not
removed) the queue is the old queue without `current`, then `current`, then the added
states: `current` is behind every other old state and directly ahead of the new ones,
and it is the head exactly when nothing else was queued. For population `[a]` and
`added = [b, c]` the queue is `[a, b, c]`, and `selectState` returns `a` after the
fork, after removing `b`, and after removing `c`. -/
theorem bfs_fork_queue (q added : List ES) (c : ES) (hc : c ∈ q) (hadd : added ≠ []) :
    BFSSearcher.update q (some c) added [] = some (q.erase c ++ c :: added) ∧
    (q.erase c = [] →
      (BFSSearcher.update q (some c) added []).bind BFSSearcher.selectState = some c) ∧
    (∀ y ys, q.erase c = y :: ys →
      (BFSSearcher.update q (some c) added []).bind BFSSearcher.selectState = some y) ∧
    (∀ a b d : ES, ∀ cur cur' : Option ES, a ≠ b → a ≠ d →
      BFSSearcher.update [a] (some a) [b, d] [] = some [a, b, d] ∧
      BFSSearcher.selectState [a, b, d] = some a ∧
      BFSSearcher.update [a, b, d] cur [] [b] = some [a, d] ∧
      BFSSearcher.selectState [a, d] = some a ∧
      BFSSearcher.update [a, d] cur' [] [d] = some [a] ∧
      BFSSearcher.selectState [a] = some a) := by
  have hq := BFSSearcher.update_fork q added c hc hadd
  refine ⟨hq, ?_, ?_, ?_⟩
  · intro he
    rw [hq, he]; rfl
  · intro y ys he
    rw [hq, he]; rfl
  · intro a b d cur cur' hab had
    have hba : ¬ b = a := fun h => hab h.symm
    have hda : ¬ d = a := fun h => had h.symm
    refine ⟨?_, rfl, ?_, rfl, ?_, rfl⟩
    · simp [BFSSearcher.update, BFSSearcher.moveCurrent]
    · cases cur <;>
        simp [BFSSearcher.update, BFSSearcher.moveCurrent, BFSSearcher.removeOne, hab, hba]
    · cases cur' <;>
        simp [BFSSearcher.update, BFSSearcher.moveCurrent, BFSSearcher.removeOne, had, hda]

theorem bfs_fork_queue_witness :
    BFSSearcher.update [1, 2] (some 1) [3] [] = some ([1, 2].erase 1 ++ 1 :: [3]) ∧
    (BFSSearcher.update [1, 2] (some 1) [3] []).bind BFSSearcher.selectState = some 2 :=
  ⟨(bfs_fork_queue [1, 2] [3] 1 (by decide) (by decide)).1,
    (bfs_fork_queue [1, 2] [3] 1 (by decide) (by decide)).2.2.1 2 [] (by decide)⟩

/-- C6 as stated fails for BFSSearcher with a non-null `current`: from the queue
`[1, 2]` with `current = 1`, adding state 3 and removing it again leaves `[2, 1]`,
while without the addition the same two updates leave `[1, 2]`. -/
theorem bfs_round_trip_reorders :
    (BFSSearcher.update [1, 2] (some 1) [3] []).bind
        (fun q => BFSSearcher.update q (some 1) [] [3]) = some [2, 1] ∧
    (BFSSearcher.update [1, 2] (some 1) [] []).bind
        (fun q => BFSSearcher.update q (some 1) [] []) = some [1, 2] ∧
    (FlatKind.update .bfs [1, 2] (some 1) [3] []).bind
        (fun q => FlatKind.update .bfs q (some 1) [] [3]) ≠ some [1, 2] := by
  decide

theorem BFSSearcher.removeOne_appended (q : List ES) (s : ES) (hs : s ∉ q) :
    BFSSearcher.removeOne (q ++ [s]) s = some q := by
  cases q with
  | nil => simp [BFSSearcher.removeOne]
  | cons a as =>
    have has : a ≠ s := fun h => hs (by simp [h])
    have hs' : s ∉ as := fun h => hs (by simp [h])
    have hsa : ¬ s = a := fun h => has h.symm
    have : (a :: (as ++ [s])).erase s = a :: as := by
      rw [List.erase_cons_tail (by simpa using has)]
      rw [List.erase_append_right _ hs']
      simp
    simp [BFSSearcher.removeOne, has, this]

/-- C6 (amended): adding a fresh state `s` and removing it again restores the container
of DFSSearcher and RandomSearcher for every `current`, and that of BFSSearcher when the
adding update has a null `current`; for BFSSearcher with a non-null `current` of the
queue, the round trip leaves the queue without `s` but with `current` moved to the
tail. -/
theorem flat_add_remove_round_trip (k : FlatKind) (states : List ES) (s : ES)
    (current current' : Option ES) (hs : s ∉ states) :
    ((k ≠ FlatKind.bfs ∨ current = none) →
      (k.update states current [s] []).bind (fun st => k.update st current' [] [s])
        = some states) ∧
    (∀ c, k = FlatKind.bfs → current = some c → c ∈ states →
      (k.update states current [s] []).bind (fun st => k.update st current' [] [s])
        = some (states.erase c ++ [c])) := by
  constructor
  · intro hk
    cases k with
    | dfs =>
      simp [FlatKind.update, DFSSearcher.update, DFSSearcher.removeOne]
    | random =>
      have : (states ++ [s]).erase s = states := by
        rw [List.erase_append_right _ hs]; simp
      simp [FlatKind.update, RandomSearcher.update, RandomSearcher.removeOne, this]
    | bfs =>
      rcases hk with hk | hk
      · exact absurd rfl hk
      · subst hk
        have h := BFSSearcher.removeOne_appended states s hs
        cases current' <;>
          simp [FlatKind.update, BFSSearcher.update, BFSSearcher.moveCurrent, h]
  · intro c hk hc hmem
    subst hk; subst hc
    have hs' : s ∉ states.erase c ++ [c] := by
      intro h
      rcases List.mem_append.1 h with h | h
      · exact hs (List.mem_of_mem_erase h)
      · simp at h; exact hs (h ▸ hmem)
    have h := BFSSearcher.removeOne_appended _ s hs'
    have h2 : BFSSearcher.removeOne (states.erase c ++ [c, s]) s
        = some (states.erase c ++ [c]) := by simpa using h
    have h1 : BFSSearcher.update states (some c) [s] [] = some (states.erase c ++ [c] ++ [s]) := by
      simp [BFSSearcher.update, BFSSearcher.moveCurrent, hmem]
    simp only [FlatKind.update, h1, Option.some_bind]
    cases current' <;>
      simp [BFSSearcher.update, BFSSearcher.moveCurrent, h2]

theorem flat_add_remove_round_trip_witness :
    (FlatKind.update .random [1, 2] (some 1) [3] []).bind
        (fun st => FlatKind.update .random st (some 1) [] [3]) = some [1, 2] ∧
    (FlatKind.update .bfs [1, 2] (some 1) [3] []).bind
        (fun st => FlatKind.update .bfs st (some 1) [] [3]) = some ([1, 2].erase 1 ++ [1]) :=
  ⟨(flat_add_remove_round_trip .random [1, 2] 3 (some 1) (some 1) (by decide)).1
      (Or.inl (by decide)),
    (flat_add_remove_round_trip .bfs [1, 2] 3 (some 1) (some 1) (by decide)).2 1 rfl rfl
      (by decide)⟩

end FlatTheorems

/-! ## Theorems: wrappers -/

section WrapperTheorems

theorem InterleavedSearcher.selectState_of_index (n idx : Nat) (h1 : 1 ≤ idx) (h2 : idx ≤ n)
    (hn : n < 2 ^ 32) :
    InterleavedSearcher.selectState { numSearchers := n, index := idx } =
      some (idx - 1, { numSearchers := n, index := if idx = 1 then n else idx - 1 }) := by
  have e : (idx + 2 ^ 32 - 1) % 2 ^ 32 = idx - 1 := by
    have : idx + 2 ^ 32 - 1 = (idx - 1) + 2 ^ 32 := by omega
    rw [this, Nat.add_mod_right, Nat.mod_eq_of_lt (by omega)]
  have hlt : idx - 1 < n := by omega
  have hn' : n % 2 ^ 32 = n := Nat.mod_eq_of_lt hn
  unfold InterleavedSearcher.selectState
  simp only [e, hlt, if_true, hn']
  by_cases h : idx = 1
  · subst h; simp
  · have : idx - 1 ≠ 0 := by omega
    simp [h, this]

/-- The cursor after `m` calls: `n - r` where `r` is `(m + n - 1) mod n`. -/
theorem InterleavedSearcher.afterCalls_index (n : Nat) (h1 : 1 ≤ n) (hn : n < 2 ^ 32) (m : Nat) :
    InterleavedSearcher.afterCalls (InterleavedSearcher.init n) m =
      some { numSearchers := n, index := n - (m + n - 1) % n } := by
  induction m with
  | zero =>
    have : (0 + n - 1) % n = n - 1 := by
      rw [Nat.zero_add]; exact Nat.mod_eq_of_lt (by omega)
    simp only [InterleavedSearcher.afterCalls, InterleavedSearcher.init, this]
    congr 2
    omega
  | succ m ih =>
    have hr : (m + n - 1) % n < n := Nat.mod_lt _ (by omega)
    have hstep : (m + 1 + n - 1) % n =
        if (m + n - 1) % n + 1 = n then 0 else (m + n - 1) % n + 1 := by
      have : m + 1 + n - 1 = (m + n - 1) + 1 := by omega
      rw [this, Nat.add_mod]
      by_cases hn1 : n = 1
      · subst hn1; simp [Nat.mod_one]
      · by_cases hc : (m + n - 1) % n + 1 = n
        · rw [Nat.mod_eq_of_lt (show 1 < n by omega), hc, Nat.mod_self]; simp [hc]
        · have h1n : 1 < n := by omega
          rw [Nat.mod_eq_of_lt h1n, Nat.mod_eq_of_lt (by omega)]; simp [hc]
    simp only [InterleavedSearcher.afterCalls, ih, Option.some_bind]
    rw [InterleavedSearcher.selectState_of_index n _ (by omega) (by omega) hn]
    simp only [Option.map_some', hstep]
    congr 2
    split_ifs <;> omega

/-- C7 as stated fails: with two sub-searchers the first `selectState` is delegated to
the first one (0-based position 0), while the claimed formula names the second. -/
theorem interleaved_first_call_goes_to_first :
    InterleavedSearcher.delegateOfCall 2 1 = some 0 ∧
    (InterleavedSearcher.delegateOfCall 2 1).map (fun j => j + 1)
      ≠ some (((2 - 1) - (1 - 1)) % 2 + 1) := by
  decide

/-- C7 (amended): for `N ≥ 1` sub-searchers the `i`-th call of `selectState` delegates
to `S_j` with `j = (N − (i−1)) mod N + 1`: the first call goes to the first
sub-searcher (0-based position 0) and the following calls cycle backward from
position `N − 1`. -/
theorem interleaved_delegation_order (n i : Nat) (h1 : 1 ≤ n) (hn : n < 2 ^ 32) (hi : 1 ≤ i) :
    InterleavedSearcher.delegateOfCall n i = some ((n - (i - 1) % n) % n) ∧
    (InterleavedSearcher.delegateOfCall n i).map (fun (j : Nat) => (j : Int) + 1)
      = some (((n : Int) - ((i : Int) - 1)) % (n : Int) + 1) := by
  have hr : (i - 1) % n < n := Nat.mod_lt _ (by omega)
  have key : InterleavedSearcher.delegateOfCall n i = some ((n - (i - 1) % n) % n) := by
    unfold InterleavedSearcher.delegateOfCall
    rw [InterleavedSearcher.afterCalls_index n h1 hn, Option.some_bind]
    have hr2 : (i - 1 + n - 1) % n < n := Nat.mod_lt _ (by omega)
    rw [InterleavedSearcher.selectState_of_index n _ (by omega) (by omega) hn]
    simp only [Option.map_some']
    congr 1
    -- relate the two remainders
    have hrel : (i - 1 + n - 1) % n = if (i - 1) % n = 0 then n - 1 else (i - 1) % n - 1 := by
      by_cases h0 : (i - 1) % n = 0
      · have : i - 1 + n - 1 = (n - 1) + (i - 1) := by omega
        rw [this, Nat.add_mod, h0, Nat.add_zero, Nat.mod_mod, Nat.mod_eq_of_lt (by omega)]
        simp [h0]
      · have hdm := Nat.div_add_mod (i - 1) n
        have : i - 1 + n - 1 = ((i - 1) % n - 1) + n * ((i - 1) / n + 1) := by
          rw [Nat.mul_add, Nat.mul_one]; omega
        rw [this, Nat.add_mul_mod_self_left, Nat.mod_eq_of_lt (by omega)]
        simp [h0]
    generalize (i - 1 + n - 1) % n = r2 at hrel hr2
    generalize (i - 1) % n = r at hrel hr
    by_cases h0 : r = 0
    · subst h0
      rw [if_pos rfl] at hrel
      rw [hrel, Nat.sub_zero, Nat.mod_self]; omega
    · rw [if_neg h0] at hrel
      rw [Nat.mod_eq_of_lt (by omega)]; omega
  refine ⟨key, ?_⟩
  rw [key, Option.map_some']
  congr 1
  have hdm := Nat.div_add_mod (i - 1) n
  have hcast : ((i : Int) - 1) = ((i - 1 : Nat) : Int) := by omega
  rw [hcast]
  have e1 : ((n : Int) - ((i - 1 : Nat) : Int)) % (n : Int)
      = (((n - (i - 1) % n : Nat) : Int)) % (n : Int) := by
    have : ((n : Int) - ((i - 1 : Nat) : Int))
        = ((n - (i - 1) % n : Nat) : Int) + (n : Int) * (-(((i - 1) / n : Nat) : Int)) := by
      have h3 : ((n - (i - 1) % n : Nat) : Int) = (n : Int) - (((i - 1) % n : Nat) : Int) := by
        omega
      rw [h3]
      have h4 : (((i - 1 : Nat)) : Int) = (n : Int) * (((i - 1) / n : Nat) : Int)
          + (((i - 1) % n : Nat) : Int) := by
        exact_mod_cast hdm.symm
      rw [h4]; ring
    rw [this, Int.add_mul_emod_self_left]
  rw [e1]
  norm_cast

theorem interleaved_delegation_order_witness :
    InterleavedSearcher.delegateOfCall 3 2 = some ((3 - (2 - 1) % 3) % 3) :=
  (interleaved_delegation_order 3 2 (by decide) (by decide) (by decide)).1

end WrapperTheorems

section BatchingTheorems

/-- The unsigned difference of the two instruction counts is the plain difference when
the counter has not wrapped since the snapshot. -/
theorem BatchingSearcher.instructionsSince_eq (instructions lastStartInstructions : Nat)
    (h1 : lastStartInstructions ≤ instructions) (h2 : instructions < 2 ^ 64) :
    BatchingSearcher.instructionsSince instructions lastStartInstructions
      = instructions - lastStartInstructions := by
  unfold BatchingSearcher.instructionsSince
  have e1 : lastStartInstructions % 2 ^ 64 = lastStartInstructions :=
    Nat.mod_eq_of_lt (lt_of_le_of_lt h1 h2)
  have e2 : instructions + 2 ^ 64 - lastStartInstructions
      = (instructions - lastStartInstructions) + 2 ^ 64 := by omega
  rw [e1, e2, Nat.add_mod_right]
  exact Nat.mod_eq_of_lt (lt_of_le_of_lt (Nat.sub_le _ _) h2)

/-- C8: BatchingSearcher stickiness. (1) While `lastState` is non-null and neither
enabled budget is exceeded, `selectState` returns `lastState` and leaves every field,
the base included, as it was, whatever the base searcher is. (2) When `lastState` is
null or an enabled budget is exceeded, `selectState` returns what the base selects and
re-snapshots the start time and the instruction count. (3) An `update` whose removed
list holds `lastState` nulls it, so that the next `selectState` delegates to the base;
any other `update` keeps it. (4) The instruction condition is the one on `instructions -
lastStartInstructions`: the unsigned difference is that difference while the 64-bit
counter has not wrapped since the snapshot, and then (1) and (2) hold with
`instructions - lastStartInstructions <= instructionBudget` and
`instructions - lastStartInstructions > instructionBudget`. -/
theorem batching_stickiness {β : Type} (B : Base β) (scale : Int → Int)
    (s : BatchingSearcher.State β) (now nowDelta nowStart : Int) (instructions : Nat) :
    (∀ es, s.lastState = some es →
      (s.timeBudget ≤ 0 ∨ now - s.lastStartTime ≤ s.timeBudget) →
      (s.instructionBudget = 0 ∨
        BatchingSearcher.instructionsSince instructions s.lastStartInstructions
          ≤ s.instructionBudget) →
      BatchingSearcher.selectState B scale s now nowDelta nowStart instructions
        = some (es, s)) ∧
    ((s.lastState = none ∨ (s.timeBudget > 0 ∧ now - s.lastStartTime > s.timeBudget) ∨
        (s.instructionBudget > 0 ∧
          BatchingSearcher.instructionsSince instructions s.lastStartInstructions
            > s.instructionBudget)) →
      (BatchingSearcher.selectState B scale s now nowDelta nowStart instructions).map
          (fun r => (r.1, r.2.base)) = B.selectState s.base ∧
      ∀ r, BatchingSearcher.selectState B scale s now nowDelta nowStart instructions = some r →
        r.2.lastState = some r.1 ∧ r.2.lastStartTime = nowStart ∧
        r.2.lastStartInstructions = instructions ∧
        r.2.instructionBudget = s.instructionBudget) ∧
    (∀ current added removed s', BatchingSearcher.update B s current added removed = some s' →
      (∀ es, s.lastState = some es → es ∈ removed →
        s'.lastState = none ∧
        (BatchingSearcher.selectState B scale s' now nowDelta nowStart instructions).map
          (fun r => (r.1, r.2.base)) = B.selectState s'.base) ∧
      (∀ es, s.lastState = some es → es ∉ removed → s'.lastState = some es) ∧
      B.update s.base current added removed = some s'.base ∧
      s'.timeBudget = s.timeBudget ∧ s'.instructionBudget = s.instructionBudget ∧
      s'.lastStartTime = s.lastStartTime ∧
      s'.lastStartInstructions = s.lastStartInstructions) ∧
    (∀ i l, l ≤ i → i < 2 ^ 64 → BatchingSearcher.instructionsSince i l = i - l) ∧
    (s.lastStartInstructions ≤ instructions → instructions < 2 ^ 64 →
      (∀ es, s.lastState = some es →
        (s.timeBudget ≤ 0 ∨ now - s.lastStartTime ≤ s.timeBudget) →
        (s.instructionBudget = 0 ∨
          instructions - s.lastStartInstructions ≤ s.instructionBudget) →
        BatchingSearcher.selectState B scale s now nowDelta nowStart instructions
          = some (es, s)) ∧
      (s.instructionBudget > 0 →
        instructions - s.lastStartInstructions > s.instructionBudget →
        (BatchingSearcher.selectState B scale s now nowDelta nowStart instructions).map
            (fun r => (r.1, r.2.base)) = B.selectState s.base ∧
        ∀ r, BatchingSearcher.selectState B scale s now nowDelta nowStart instructions
            = some r →
          r.2.lastState = some r.1 ∧ r.2.lastStartTime = nowStart ∧
          r.2.lastStartInstructions = instructions)) := by
  have part1 : ∀ es, s.lastState = some es →
      (s.timeBudget ≤ 0 ∨ now - s.lastStartTime ≤ s.timeBudget) →
      (s.instructionBudget = 0 ∨
        BatchingSearcher.instructionsSince instructions s.lastStartInstructions
          ≤ s.instructionBudget) →
      BatchingSearcher.selectState B scale s now nowDelta nowStart instructions
        = some (es, s) := by
    intro es hes ht hi
    have h1 : ¬ (s.timeBudget > 0 ∧ now - s.lastStartTime > s.timeBudget) := by
      rintro ⟨a, b⟩
      rcases ht with ht | ht
      · exact absurd a (not_lt.2 ht)
      · exact absurd b (not_lt.2 ht)
    have h2 : ¬ (s.instructionBudget > 0 ∧
        BatchingSearcher.instructionsSince instructions s.lastStartInstructions
          > s.instructionBudget) := by
      rintro ⟨a, b⟩; rcases hi with hi | hi <;> omega
    have hm : BatchingSearcher.mustRefresh s now instructions = false := by
      simp only [BatchingSearcher.mustRefresh, hes, Option.isNone_some, Bool.false_or,
        Bool.or_eq_false_iff, Bool.and_eq_false_imp, decide_eq_true_eq, decide_eq_false_iff_not]
      exact ⟨fun a b => h1 ⟨a, b⟩, fun a b => h2 ⟨a, b⟩⟩
    simp [BatchingSearcher.selectState, hm, hes]
  have part2 : (s.lastState = none ∨
      (s.timeBudget > 0 ∧ now - s.lastStartTime > s.timeBudget) ∨
        (s.instructionBudget > 0 ∧
          BatchingSearcher.instructionsSince instructions s.lastStartInstructions
            > s.instructionBudget)) →
      (BatchingSearcher.selectState B scale s now nowDelta nowStart instructions).map
          (fun r => (r.1, r.2.base)) = B.selectState s.base ∧
      ∀ r, BatchingSearcher.selectState B scale s now nowDelta nowStart instructions = some r →
        r.2.lastState = some r.1 ∧ r.2.lastStartTime = nowStart ∧
        r.2.lastStartInstructions = instructions ∧
        r.2.instructionBudget = s.instructionBudget := by
    intro h
    have hm : BatchingSearcher.mustRefresh s now instructions = true := by
      simp only [BatchingSearcher.mustRefresh, Bool.or_eq_true, Bool.and_eq_true,
        decide_eq_true_eq, Option.isNone_iff_eq_none]
      tauto
    constructor
    · simp only [BatchingSearcher.selectState, hm, if_true, Option.map_map]
      cases B.selectState s.base <;> simp
    · intro r hr
      simp only [BatchingSearcher.selectState, hm, if_true] at hr
      cases hb : B.selectState s.base with
      | none => simp [hb] at hr
      | some x =>
        simp only [hb, Option.map_some', Option.some.injEq] at hr
        subst hr
        exact ⟨rfl, rfl, rfl, rfl⟩
  refine ⟨part1, part2, ?_, BatchingSearcher.instructionsSince_eq, ?_⟩
  · intro current added removed s' hu
    unfold BatchingSearcher.update at hu
    cases hb : B.update s.base current added removed with
    | none => simp [hb] at hu
    | some b =>
      simp only [hb, Option.map_some', Option.some.injEq] at hu
      refine ⟨?_, ?_, ?_, ?_, ?_, ?_, ?_⟩
      · intro es hes hmem
        have hs' : s' = { s with base := b, lastState := none } := by
          rw [← hu]; simp [hes, hmem]
        have hl : s'.lastState = none := by rw [hs']
        refine ⟨hl, ?_⟩
        have hm : BatchingSearcher.mustRefresh s' now instructions = true := by
          simp [BatchingSearcher.mustRefresh, hl]
        simp only [BatchingSearcher.selectState, hm, if_true, Option.map_map]
        cases B.selectState s'.base <;> simp
      · intro es hes hmem
        rw [← hu]; simp [hes, hmem]
      all_goals (rw [← hu])
  · intro hle hlt
    have he := BatchingSearcher.instructionsSince_eq instructions s.lastStartInstructions
      hle hlt
    constructor
    · intro es hes ht hi
      exact part1 es hes ht (by rw [he]; exact hi)
    · intro hb hgt
      obtain ⟨q1, q2⟩ := part2 (Or.inr (Or.inr ⟨hb, by rw [he]; exact hgt⟩))
      exact ⟨q1, fun r hr => ⟨(q2 r hr).1, (q2 r hr).2.1, (q2 r hr).2.2.1⟩⟩

/-- The batching scenario of C8 over a DFS base holding state 1, with a budget of 10000
instructions and the snapshot at 7: at 5007 instructions the selection returns the
cached state 1 and changes nothing; at 20007 instructions the budget is exceeded
(20000 > 10000) and the selection is the one of the base, with new snapshots. -/
theorem batching_stickiness_witness :
    BatchingSearcher.selectState (flatBase .dfs fun _ => 0) (fun t => t)
      BatchingSearcher.exampleState 200 200 200 5007
        = some (1, BatchingSearcher.exampleState) ∧
    BatchingSearcher.instructionsSince 20007 7 = 20007 - 7 ∧
    ((BatchingSearcher.selectState (flatBase .dfs fun _ => 0) (fun t => t)
        BatchingSearcher.exampleState 200 200 300 20007).map (fun r => (r.1, r.2.base))
        = (flatBase .dfs fun _ => 0).selectState BatchingSearcher.exampleState.base ∧
      ∀ r, BatchingSearcher.selectState (flatBase .dfs fun _ => 0) (fun t => t)
          BatchingSearcher.exampleState 200 200 300 20007 = some r →
        r.2.lastState = some r.1 ∧ r.2.lastStartTime = 300 ∧
        r.2.lastStartInstructions = 20007) ∧
    (BatchingSearcher.selectState (flatBase .dfs fun _ => 0) (fun t => t)
        BatchingSearcher.exampleState 200 200 300 20007).map
        (fun r => (r.1, r.2.lastStartTime, r.2.lastStartInstructions))
      = some (1, 300, 20007) :=
  ⟨((batching_stickiness (flatBase .dfs fun _ => 0) (fun t => t)
      BatchingSearcher.exampleState 200 200 200 5007).2.2.2.2 (by decide) (by decide)).1 1 rfl
      (Or.inr (by decide)) (Or.inr (by decide)),
    (batching_stickiness (flatBase .dfs fun _ => 0) (fun t => t)
      BatchingSearcher.exampleState 200 200 300 20007).2.2.2.1 20007 7 (by decide) (by decide),
    ((batching_stickiness (flatBase .dfs fun _ => 0) (fun t => t)
      BatchingSearcher.exampleState 200 200 300 20007).2.2.2.2 (by decide) (by decide)).2
      (by decide) (by decide),
    by decide⟩

end BatchingTheorems

section DeepeningBound

open IterativeDeepeningTimeSearcher

theorem IterativeDeepeningTimeSearcher.update_time {β : Type} (B : Base β) (s : State β)
    (now : Int) (current : Option ES) (added removed : List ES) (r : State β × Bool)
    (h : update B s now current added removed = some r) :
    ∃ p, removeAndPause B s now current added removed = some p ∧
      r.2 = (B.empty p.2).1 ∧ r.1.time = if (B.empty p.2).1 then s.time * 2 else s.time := by
  unfold IterativeDeepeningTimeSearcher.update at h
  simp only [Option.bind_eq_some] at h
  obtain ⟨p, hp, h⟩ := h
  refine ⟨p, hp, ?_⟩
  by_cases he : (B.empty p.2).1 = true
  · simp only [he, if_true, Option.map_eq_some'] at h
    obtain ⟨b4, -, rfl⟩ := h
    simp [he]
  · rw [if_neg he] at h
    simp only [Option.some.injEq] at h
    subst h
    simp [he]

theorem IterativeDeepeningTimeSearcher.run_time {β : Type} (B : Base β) (oneSecond : Span)
    (calls : List Call) :
    ∀ (acc r : State β × Nat), run B acc calls = some r →
      acc.1.time = oneSecond * 2 ^ acc.2 → r.1.time = oneSecond * 2 ^ r.2 := by
  induction calls with
  | nil =>
    intro acc r h hacc
    simp only [run, Option.some.injEq] at h
    subst h; exact hacc
  | cons c cs ih =>
    intro acc r h hacc
    cases c with
    | select now =>
      simp only [run, Option.bind_eq_some] at h
      obtain ⟨x, hx, h⟩ := h
      refine ih _ r h ?_
      simp only [selectState, Option.map_eq_some'] at hx
      obtain ⟨y, -, rfl⟩ := hx
      exact hacc
    | update now current added removed =>
      simp only [run, Option.bind_eq_some] at h
      obtain ⟨x, hx, h⟩ := h
      refine ih _ r h ?_
      obtain ⟨p, -, hflag, ht⟩ := update_time B acc.1 now current added removed x hx
      rw [← hflag] at ht
      cases hx2 : x.2 with
      | false => simp [hx2] at ht ⊢; rw [ht, hacc]
      | true => simp [hx2] at ht ⊢; rw [ht, hacc, pow_succ]; ring

/-- C9: the deepening bound starts at one second; `selectState` leaves it alone;
`update` doubles it exactly when the base searcher is empty once the update has been
forwarded and `current` possibly paused, and leaves it alone otherwise; hence after any
sequence of calls with `k` doublings the bound is 1 s × 2^k. -/
theorem deepening_bound_doubles {β : Type} (B : Base β) (oneSecond : Span) (b : β)
    (calls : List IterativeDeepeningTimeSearcher.Call)
    (s : IterativeDeepeningTimeSearcher.State β) (k : Nat)
    (h : IterativeDeepeningTimeSearcher.run B
      (IterativeDeepeningTimeSearcher.init oneSecond b, 0) calls = some (s, k)) :
    (IterativeDeepeningTimeSearcher.init oneSecond b).time = oneSecond ∧
    s.time = oneSecond * 2 ^ k ∧
    (∀ s0 now r, IterativeDeepeningTimeSearcher.selectState B s0 now = some r →
      r.2.time = s0.time) ∧
    (∀ s0 now current added removed r,
      IterativeDeepeningTimeSearcher.update B s0 now current added removed = some r →
      ∃ p, IterativeDeepeningTimeSearcher.removeAndPause B s0 now current added removed
          = some p ∧
        r.2 = (B.empty p.2).1 ∧
        r.1.time = if (B.empty p.2).1 then s0.time * 2 else s0.time) := by
  refine ⟨rfl, ?_, ?_, ?_⟩
  · exact IterativeDeepeningTimeSearcher.run_time B oneSecond calls _ _ h
      (by simp [IterativeDeepeningTimeSearcher.init])
  · intro s0 now r hr
    simp only [IterativeDeepeningTimeSearcher.selectState, Option.map_eq_some'] at hr
    obtain ⟨y, -, rfl⟩ := hr
    rfl
  · intro s0 now current added removed r hr
    exact IterativeDeepeningTimeSearcher.update_time B s0 now current added removed r hr

/-- A run over a DFS base: state 1 is added, selected at time 0 and paused twice, after
2 s and after a further 3 s; the bound is then 4 s. -/
theorem deepening_bound_doubles_witness :
    IterativeDeepeningTimeSearcher.run (flatBase .dfs fun _ => 0)
        (IterativeDeepeningTimeSearcher.init 1000000 ([], 0), 0)
        IterativeDeepeningTimeSearcher.exampleCalls
      = some (IterativeDeepeningTimeSearcher.exampleFinal, 2) ∧
    IterativeDeepeningTimeSearcher.exampleFinal.time = 1000000 * 2 ^ 2 :=
  ⟨rfl, (deepening_bound_doubles (flatBase .dfs fun _ => 0) 1000000 ([], 0)
    IterativeDeepeningTimeSearcher.exampleCalls IterativeDeepeningTimeSearcher.exampleFinal 2
    rfl).2.1⟩

end DeepeningBound

/-! ## Theorems: populations of the flat searchers and of iterative deepening -/

section FlatPopulation

theorem DFSSearcher.dfs_removeOne_eq_erase (l : List ES) (es : ES) (hl : l.Nodup)
    (hne : l ≠ []) : DFSSearcher.removeOne l es = some (l.erase es) := by
  have hemp : l.isEmpty = false := by
    cases l with
    | nil => exact absurd rfl hne
    | cons a t => rfl
  unfold DFSSearcher.removeOne
  rw [hemp]
  simp only [Bool.false_eq_true, if_false]
  split_ifs with h
  · obtain ⟨l', rfl⟩ : ∃ l', l = l' ++ [es] := by
      rcases List.eq_nil_or_concat l with h0 | ⟨l', b, rfl⟩
      · subst h0; simp at h
      · simp at h; subst h; exact ⟨l', by simp⟩
    have hn : es ∉ l' := by
      intro hm
      have := List.disjoint_of_nodup_append hl hm
      simp at this
    rw [List.dropLast_concat, List.erase_append_right _ hn]
    simp
  · rfl

theorem BFSSearcher.bfs_removeOne_eq_erase (l : List ES) (es : ES) (hm : es ∈ l) :
    BFSSearcher.removeOne l es = some (l.erase es) := by
  unfold BFSSearcher.removeOne
  split_ifs with h h2
  · cases l with
    | nil => simp at h
    | cons a t => simp at h; subst h; simp
  · rfl
  · simp at h2; exact absurd hm h2

theorem RandomSearcher.random_removeOne_eq_erase (l : List ES) (es : ES) (hm : es ∈ l) :
    RandomSearcher.removeOne l es = some (l.erase es) := by
  simp [RandomSearcher.removeOne, hm]

/-- Removing a duplicate-free list of members one after the other, with any of the
three removal loops, succeeds and leaves the members that were not removed. -/
theorem FlatKind.remove_loop (k : FlatKind) (removed : List ES) :
    ∀ l : List ES, l.Nodup → removed.Nodup → (∀ x ∈ removed, x ∈ l) →
      ∃ l', k.update l none [] removed = some l' ∧ l'.Nodup ∧
        ∀ x, x ∈ l' ↔ x ∈ l ∧ x ∉ removed := by
  induction removed with
  | nil =>
    intro l hl _ _
    refine ⟨l, ?_, hl, by simp⟩
    cases k <;> simp [FlatKind.update, DFSSearcher.update, BFSSearcher.update,
      BFSSearcher.moveCurrent, RandomSearcher.update]
  | cons es rest ih =>
    intro l hl hr hsub
    have hes : es ∈ l := hsub es (by simp)
    have hr' := List.nodup_cons.1 hr
    have hsub' : ∀ x ∈ rest, x ∈ l.erase es := by
      intro x hx
      have hne : x ≠ es := fun h => hr'.1 (h ▸ hx)
      exact (List.mem_erase_of_ne hne).2 (hsub x (by simp [hx]))
    obtain ⟨l', h1, h2, h3⟩ := ih (l.erase es) (hl.erase es) hr'.2 hsub'
    refine ⟨l', ?_, h2, ?_⟩
    · cases k with
      | dfs =>
        simp only [FlatKind.update, DFSSearcher.update, List.append_nil,
          List.foldlM_cons] at h1 ⊢
        rw [DFSSearcher.dfs_removeOne_eq_erase l es hl (List.ne_nil_of_mem hes)]; exact h1
      | bfs =>
        simp only [FlatKind.update, BFSSearcher.update, BFSSearcher.moveCurrent,
          Option.some_bind, List.append_nil, List.foldlM_cons] at h1 ⊢
        rw [BFSSearcher.bfs_removeOne_eq_erase l es hes]; exact h1
      | random =>
        simp only [FlatKind.update, RandomSearcher.update, List.append_nil,
          List.foldlM_cons] at h1 ⊢
        rw [RandomSearcher.random_removeOne_eq_erase l es hes]; exact h1
    · intro x
      rw [h3 x]
      constructor
      · rintro ⟨hx, hxr⟩
        have hne : x ≠ es := by
          intro h; subst h; exact (List.Nodup.not_mem_erase hl) hx
        exact ⟨List.mem_of_mem_erase hx, by simp [hne, hxr]⟩
      · rintro ⟨hx, hxr⟩
        simp only [List.mem_cons, not_or] at hxr
        exact ⟨(List.mem_erase_of_ne hxr.1).2 hx, hxr.2⟩

theorem FlatKind.update_eq_remove_loop (k : FlatKind) (q added removed : List ES)
    (current : Option ES) (hc : ∀ c, current = some c → c ∈ q) :
    ∃ m, (∀ x, x ∈ m ↔ x ∈ q) ∧ (q.Nodup → m.Nodup) ∧
      k.update q current added removed = k.update (m ++ added) none [] removed := by
  cases k with
  | dfs => exact ⟨q, by simp, id, by simp [FlatKind.update, DFSSearcher.update]⟩
  | random => exact ⟨q, by simp, id, by simp [FlatKind.update, RandomSearcher.update]⟩
  | bfs =>
    cases current with
    | none =>
      exact ⟨q, by simp, id, by simp [FlatKind.update, BFSSearcher.update,
        BFSSearcher.moveCurrent]⟩
    | some c =>
      have hcq := hc c rfl
      by_cases hmv : (!added.isEmpty && !removed.contains c) = true
      · refine ⟨q.erase c ++ [c], ?_, ?_, ?_⟩
        · intro x
          simp only [List.mem_append, List.mem_singleton]
          constructor
          · rintro (h | h)
            · exact List.mem_of_mem_erase h
            · exact h ▸ hcq
          · intro h
            by_cases hx : x = c
            · exact Or.inr hx
            · exact Or.inl ((List.mem_erase_of_ne hx).2 h)
        · intro hq
          rw [List.nodup_append]
          refine ⟨hq.erase c, by simp, ?_⟩
          intro x hx hx'
          simp only [List.mem_singleton] at hx'
          subst hx'
          exact (List.Nodup.not_mem_erase hq) hx
        · have hcq' : q.contains c = true := by simpa using hcq
          simp only [FlatKind.update, BFSSearcher.update, BFSSearcher.moveCurrent, hmv,
            if_true, hcq', Option.some_bind, List.append_nil]
      · refine ⟨q, by simp, id, ?_⟩
        simp only [FlatKind.update, BFSSearcher.update, BFSSearcher.moveCurrent, hmv,
          Option.some_bind, List.append_nil]
        simp

/-- The population of a flat searcher after `update`: the old members and the added
states, without the removed ones; no assertion fails. -/
theorem FlatKind.update_population (k : FlatKind) (q added removed : List ES)
    (current : Option ES) (hq : q.Nodup) (ha : added.Nodup)
    (hnew : ∀ x ∈ added, x ∉ q) (hr : removed.Nodup)
    (hlive : ∀ x ∈ removed, x ∈ q ∨ x ∈ added) (hc : ∀ c, current = some c → c ∈ q) :
    ∃ q', k.update q current added removed = some q' ∧ q'.Nodup ∧
      ∀ x, x ∈ q' ↔ (x ∈ q ∨ x ∈ added) ∧ x ∉ removed := by
  obtain ⟨m, hm, hmn, he⟩ := FlatKind.update_eq_remove_loop k q added removed current hc
  have hnd : (m ++ added).Nodup := by
    rw [List.nodup_append]
    refine ⟨hmn hq, ha, ?_⟩
    intro x hx hx'
    exact hnew x hx' ((hm x).1 hx)
  have hsub : ∀ x ∈ removed, x ∈ m ++ added := by
    intro x hx
    rcases hlive x hx with h | h
    · exact List.mem_append.2 (Or.inl ((hm x).2 h))
    · exact List.mem_append.2 (Or.inr h)
  obtain ⟨l', h1, h2, h3⟩ := FlatKind.remove_loop k removed (m ++ added) hnd hr hsub
  refine ⟨l', he ▸ h1, h2, ?_⟩
  intro x
  rw [h3 x, List.mem_append, hm x]

end FlatPopulation

section DeepeningPopulation

open IterativeDeepeningTimeSearcher

theorem IterativeDeepeningTimeSearcher.mem_setInsert (c x : ES) (l : List ES) :
    x ∈ setInsert c l ↔ x = c ∨ x ∈ l := by
  induction l with
  | nil => simp [setInsert]
  | cons y ys ih =>
    unfold setInsert
    split_ifs with h1 h2
    · simp
    · subst h2; simp
    · simp only [List.mem_cons, ih]; tauto

theorem IterativeDeepeningTimeSearcher.setInsert_sorted (c : ES) (l : List ES)
    (hl : l.Pairwise (fun a b => a < b)) : (setInsert c l).Pairwise (fun a b => a < b) := by
  induction l with
  | nil => simp [setInsert]
  | cons y ys ih =>
    have hy := List.pairwise_cons.1 hl
    unfold setInsert
    split_ifs with h1 h2
    · refine List.pairwise_cons.2 ⟨?_, hl⟩
      intro z hz
      rcases List.mem_cons.1 hz with rfl | hz
      · exact h1
      · exact lt_trans h1 (hy.1 z hz)
    · exact hl
    · refine List.pairwise_cons.2 ⟨?_, ih hy.2⟩
      intro z hz
      rcases (mem_setInsert c z ys).1 hz with rfl | hz
      · exact lt_of_le_of_ne (not_lt.1 h1) (Ne.symm h2)
      · exact hy.1 z hz

theorem IterativeDeepeningTimeSearcher.sorted_nodup (l : List ES)
    (hl : l.Pairwise (fun a b => a < b)) : l.Nodup :=
  hl.imp (fun h => Nat.ne_of_lt h)

/-- The loop over `removedStates`: the paused set loses exactly its removed members and
`alt` loses exactly the removed states that were paused. -/
theorem IterativeDeepeningTimeSearcher.filter_loop (rs : List ES) :
    ∀ (P alt : List ES), P.Pairwise (fun a b => a < b) → alt.Nodup →
      ((rs.foldl filterPaused (P, alt)).1).Pairwise (fun a b => a < b) ∧
      ((rs.foldl filterPaused (P, alt)).2).Nodup ∧
      (∀ x, x ∈ (rs.foldl filterPaused (P, alt)).1 ↔ x ∈ P ∧ x ∉ rs) ∧
      (∀ x, x ∈ (rs.foldl filterPaused (P, alt)).2 ↔ x ∈ alt ∧ ¬ (x ∈ rs ∧ x ∈ P)) := by
  induction rs with
  | nil => intro P alt hP ha; simp [hP, ha]
  | cons es rest ih =>
    intro P alt hP ha
    simp only [List.foldl_cons]
    by_cases hes : es ∈ P
    · have hstep : filterPaused (P, alt) es = (P.erase es, alt.filter fun x => x != es) := by
        simp [filterPaused, hes]
      rw [hstep]
      have hPn := sorted_nodup P hP
      obtain ⟨h1, h2, h3, h4⟩ :=
        ih (P.erase es) (alt.filter fun x => x != es) (hP.sublist (List.erase_sublist es P))
          (ha.filter _)
      refine ⟨h1, h2, ?_, ?_⟩
      · intro x
        rw [h3 x, hPn.mem_erase_iff]
        simp only [List.mem_cons, not_or]; tauto
      · intro x
        rw [h4 x, hPn.mem_erase_iff]
        simp only [List.mem_filter, bne_iff_ne, ne_eq, List.mem_cons]
        constructor
        · rintro ⟨⟨hx, hne⟩, hn⟩
          refine ⟨hx, ?_⟩
          rintro ⟨(h | h), hxP⟩
          · exact hne h
          · exact hn ⟨h, hne, hxP⟩
        · rintro ⟨hx, hn⟩
          have hne : ¬ x = es := fun h => hn ⟨Or.inl h, h ▸ hes⟩
          exact ⟨⟨hx, hne⟩, fun h => hn ⟨Or.inr h.1, h.2.2⟩⟩
    · have hstep : filterPaused (P, alt) es = (P, alt) := by
        simp [filterPaused, hes]
      rw [hstep]
      obtain ⟨h1, h2, h3, h4⟩ := ih P alt hP ha
      refine ⟨h1, h2, ?_, ?_⟩
      · intro x
        rw [h3 x]
        simp only [List.mem_cons, not_or]
        constructor
        · rintro ⟨hx, hn⟩
          exact ⟨hx, fun h => hes (h ▸ hx), hn⟩
        · rintro ⟨hx, -, hn⟩
          exact ⟨hx, hn⟩
      · intro x
        rw [h4 x]
        simp only [List.mem_cons]
        constructor
        · rintro ⟨hx, hn⟩
          refine ⟨hx, ?_⟩
          rintro ⟨(h | h), hxP⟩
          · exact hes (h ▸ hxP)
          · exact hn ⟨h, hxP⟩
        · rintro ⟨hx, hn⟩
          exact ⟨hx, fun h => hn ⟨Or.inr h.1, h.2⟩⟩

theorem IterativeDeepeningTimeSearcher.splitRemoved_spec (P removed : List ES)
    (hP : P.Pairwise (fun a b => a < b)) (hr : removed.Nodup) :
    ((splitRemoved P removed).1).Pairwise (fun a b => a < b) ∧
    ((splitRemoved P removed).2).Nodup ∧
    (∀ x, x ∈ (splitRemoved P removed).1 ↔ x ∈ P ∧ x ∉ removed) ∧
    (∀ x, x ∈ (splitRemoved P removed).2 ↔ x ∈ removed ∧ x ∉ P) := by
  obtain ⟨h1, h2, h3, h4⟩ := filter_loop removed P removed hP hr
  refine ⟨h1, h2, h3, ?_⟩
  intro x
  unfold splitRemoved
  rw [h4 x]
  tauto

end DeepeningPopulation

section DeepeningPopulation2

open IterativeDeepeningTimeSearcher

theorem IterativeDeepeningTimeSearcher.split_eq (P removed : List ES) :
    (if removed.isEmpty then (P, removed) else splitRemoved P removed)
      = splitRemoved P removed := by
  cases removed with
  | nil => simp [splitRemoved]
  | cons a t => simp

/-- The state of the searcher over a flat base when `baseSearcher->empty()` is tested. -/
theorem IterativeDeepeningTimeSearcher.removeAndPause_spec (k : FlatKind) (rng : Nat → Nat)
    (s : State (List ES × Nat)) (now : Int) (current : Option ES) (added removed : List ES)
    (hinv : Consistent s)
    (hadd : added.Nodup ∧ ∀ x ∈ added, x ∉ s.base.1 ∧ x ∉ s.pausedStates)
    (hrem : removed.Nodup ∧ ∀ x ∈ removed, x ∈ s.base.1 ∨ x ∈ s.pausedStates)
    (hcur : ∀ c, current = some c → c ∈ s.base.1) :
    ∃ P2 q1 q2,
      (flatBase k rng).update s.base current added (splitRemoved s.pausedStates removed).2
        = some (q1, s.base.2) ∧
      removeAndPause (flatBase k rng) s now current added removed
        = some (P2, (q2, s.base.2)) ∧
      q2.Nodup ∧ P2.Pairwise (fun a b => a < b) ∧ (∀ x ∈ q2, x ∉ P2) ∧
      (∀ x, x ∈ q2 ∨ x ∈ P2 ↔
        (x ∈ s.base.1 ∨ x ∈ s.pausedStates ∨ x ∈ added) ∧ x ∉ removed) := by
  obtain ⟨hq, hP, hdisj⟩ := hinv
  obtain ⟨s1, s2, s3, s4⟩ := splitRemoved_spec s.pausedStates removed hP hrem.1
  have halt : ∀ x ∈ (splitRemoved s.pausedStates removed).2, x ∈ s.base.1 ∨ x ∈ added := by
    intro x hx
    have := (s4 x).1 hx
    rcases hrem.2 x this.1 with h | h
    · exact Or.inl h
    · exact absurd h this.2
  obtain ⟨q1, u1, u2, u3⟩ := FlatKind.update_population k s.base.1 added
    (splitRemoved s.pausedStates removed).2 current hq hadd.1 (fun x hx => (hadd.2 x hx).1)
    s2 halt hcur
  have hb1 : (flatBase k rng).update s.base current added
      (splitRemoved s.pausedStates removed).2 = some (q1, s.base.2) := by
    simp [flatBase, u1]
  -- membership in the base after the first step
  have hq1 : ∀ x, x ∈ q1 ↔ (x ∈ s.base.1 ∨ x ∈ added) ∧ x ∉ removed := by
    intro x
    rw [u3 x, s4 x]
    constructor
    · rintro ⟨h, hn⟩
      refine ⟨h, fun hr => hn ⟨hr, ?_⟩⟩
      rcases h with h | h
      · exact hdisj x h
      · exact (hadd.2 x h).2
    · rintro ⟨h, hn⟩
      exact ⟨h, fun hr => hn hr.1⟩
  have hdisj1 : ∀ x ∈ q1, x ∉ (splitRemoved s.pausedStates removed).1 := by
    intro x hx hx'
    have h1 := (hq1 x).1 hx
    have h2 := (s3 x).1 hx'
    rcases h1.1 with h | h
    · exact hdisj x h h2.1
    · exact (hadd.2 x h).2 h2.1
  have hunion1 : ∀ x, x ∈ q1 ∨ x ∈ (splitRemoved s.pausedStates removed).1 ↔
      (x ∈ s.base.1 ∨ x ∈ s.pausedStates ∨ x ∈ added) ∧ x ∉ removed := by
    intro x
    rw [hq1 x, s3 x]; tauto
  cases current with
  | none =>
    refine ⟨_, q1, q1, hb1, ?_, u2, s1, hdisj1, hunion1⟩
    unfold removeAndPause
    simp only [split_eq, hb1, Option.some_bind]
  | some c =>
    by_cases hp : (!removed.contains c && decide (now - s.startTime > s.time)) = true
    · have hcr : c ∉ removed := by
        simp only [Bool.and_eq_true, Bool.not_eq_true', decide_eq_true_eq] at hp
        intro h
        have := hp.1
        simp [h] at this
      have hcq1 : c ∈ q1 := (hq1 c).2 ⟨Or.inl (hcur c rfl), hcr⟩
      obtain ⟨q2, v1, v2, v3⟩ := FlatKind.update_population k q1 [] [c] none u2 (by simp)
        (by simp) (by simp) (by simpa using hcq1) (by simp)
      refine ⟨setInsert c (splitRemoved s.pausedStates removed).1, q1, q2, hb1, ?_, v2,
        setInsert_sorted c _ s1, ?_, ?_⟩
      · unfold removeAndPause
        simp only [split_eq, hb1, Option.some_bind, hp, if_true]
        simp [Base.removeState, flatBase, v1]
      · intro x hx hx'
        have h1 := (v3 x).1 hx
        rcases (mem_setInsert c x _).1 hx' with h | h
        · exact h1.2 (by simp [h])
        · rcases h1.1 with h2 | h2
          · exact hdisj1 x h2 h
          · simp at h2
      · intro x
        rw [v3 x, mem_setInsert, ← hunion1 x]
        simp only [List.not_mem_nil, or_false, List.mem_singleton]
        constructor
        · rintro (⟨h, -⟩ | h | h)
          · exact Or.inl h
          · exact Or.inl (h ▸ hcq1)
          · exact Or.inr h
        · rintro (h | h)
          · by_cases hxc : x = c
            · exact Or.inr (Or.inl hxc)
            · exact Or.inl ⟨h, hxc⟩
          · exact Or.inr (Or.inr h)
    · refine ⟨_, q1, q1, hb1, ?_, u2, s1, hdisj1, hunion1⟩
      unfold removeAndPause
      simp only [split_eq, hb1, Option.some_bind, hp]
      simp

end DeepeningPopulation2

section DeepeningPopulation3

open IterativeDeepeningTimeSearcher

theorem FlatKind.selectState_mem (k : FlatKind) (q : List ES) (rnd : Nat) (es : ES)
    (h : k.selectState q rnd = some es) : es ∈ q := by
  cases k with
  | dfs => exact List.mem_of_getLast?_eq_some h
  | bfs => exact List.mem_of_mem_head? h
  | random =>
    simp only [FlatKind.selectState, RandomSearcher.selectState] at h
    split_ifs at h
    exact List.get?_mem h

theorem flatBase_selectState (k : FlatKind) (rng : Nat → Nat) (b : List ES × Nat)
    (r : ES × (List ES × Nat)) (h : (flatBase k rng).selectState b = some r) :
    r.1 ∈ b.1 ∧ r.2.1 = b.1 := by
  cases k with
  | dfs =>
    simp only [flatBase, Option.map_eq_some'] at h
    obtain ⟨es, hes, rfl⟩ := h
    exact ⟨FlatKind.selectState_mem .dfs b.1 0 es hes, rfl⟩
  | bfs =>
    simp only [flatBase, Option.map_eq_some'] at h
    obtain ⟨es, hes, rfl⟩ := h
    exact ⟨FlatKind.selectState_mem .bfs b.1 0 es hes, rfl⟩
  | random =>
    simp only [flatBase, Option.map_eq_some'] at h
    obtain ⟨es, hes, rfl⟩ := h
    exact ⟨FlatKind.selectState_mem .random b.1 _ es hes, rfl⟩

/-- C10: IterativeDeepeningTimeSearcher over a flat base loses no state. The invariant
(base duplicate-free, paused set disjoint from it) holds initially, `selectState`
returns a member of the base and changes neither population, and every `update` with
new added states, live removed states and a `current` taken from the base succeeds and
re-establishes the invariant with base ∪ paused = (old base ∪ old paused ∪ added) minus
removed. The removal list forwarded to the base holds exactly the removed states that
were not paused, the paused ones being erased from the paused set; and when the base is
empty at the test that ends `update`, the base receives the whole paused set and the
paused set becomes empty. -/
theorem deepening_loses_no_state (k : FlatKind) (rng : Nat → Nat)
    (s : IterativeDeepeningTimeSearcher.State (List ES × Nat)) (now : Int)
    (current : Option ES) (added removed : List ES)
    (hinv : IterativeDeepeningTimeSearcher.Consistent s)
    (hadd : added.Nodup ∧ ∀ x ∈ added, x ∉ s.base.1 ∧ x ∉ s.pausedStates)
    (hrem : removed.Nodup ∧ ∀ x ∈ removed, x ∈ s.base.1 ∨ x ∈ s.pausedStates)
    (hcur : ∀ c, current = some c → c ∈ s.base.1) :
    (∀ oneSecond, IterativeDeepeningTimeSearcher.Consistent
      (IterativeDeepeningTimeSearcher.init oneSecond ([], 0))) ∧
    (∀ t r, IterativeDeepeningTimeSearcher.selectState (flatBase k rng) s t = some r →
      r.1 ∈ s.base.1 ∧ r.2.base.1 = s.base.1 ∧ r.2.pausedStates = s.pausedStates) ∧
    ∃ r p b1,
      IterativeDeepeningTimeSearcher.update (flatBase k rng) s now current added removed
        = some r ∧
      IterativeDeepeningTimeSearcher.Consistent r.1 ∧
      (∀ x, x ∈ r.1.base.1 ∨ x ∈ r.1.pausedStates ↔
        (x ∈ s.base.1 ∨ x ∈ s.pausedStates ∨ x ∈ added) ∧ x ∉ removed) ∧
      (flatBase k rng).update s.base current added
        (IterativeDeepeningTimeSearcher.splitRemoved s.pausedStates removed).2 = some b1 ∧
      (∀ x, x ∈ (IterativeDeepeningTimeSearcher.splitRemoved s.pausedStates removed).2 ↔
        x ∈ removed ∧ x ∉ s.pausedStates) ∧
      (∀ x, x ∈ (IterativeDeepeningTimeSearcher.splitRemoved s.pausedStates removed).1 ↔
        x ∈ s.pausedStates ∧ x ∉ removed) ∧
      IterativeDeepeningTimeSearcher.removeAndPause (flatBase k rng) s now current added
        removed = some p ∧
      (p.2.1 = [] → r.2 = true ∧ r.1.base.1 = p.1 ∧ r.1.pausedStates = []) ∧
      (p.2.1 ≠ [] → r.2 = false ∧ r.1.base.1 = p.2.1 ∧ r.1.pausedStates = p.1) := by
  refine ⟨?_, ?_, ?_⟩
  · intro oneSecond
    simp [IterativeDeepeningTimeSearcher.Consistent, init]
  · intro t r hr
    simp only [selectState, Option.map_eq_some'] at hr
    obtain ⟨y, hy, rfl⟩ := hr
    have := flatBase_selectState k rng s.base y hy
    exact ⟨this.1, this.2, rfl⟩
  · obtain ⟨P2, q1, q2, hb1, hp, hq2, hP2, hdisj, hunion⟩ :=
      removeAndPause_spec k rng s now current added removed hinv hadd hrem hcur
    obtain ⟨-, -, s3, s4⟩ := splitRemoved_spec s.pausedStates removed hinv.2.1 hrem.1
    by_cases he : q2 = []
    · subst he
      have hflush : (flatBase k rng).update ([], s.base.2) none P2 [] = some (P2, s.base.2) := by
        cases k <;> simp [flatBase, FlatKind.update, DFSSearcher.update, BFSSearcher.update,
          BFSSearcher.moveCurrent, RandomSearcher.update]
      refine ⟨(⟨(P2, s.base.2), s.time * 2, s.startTime, []⟩, true), (P2, ([], s.base.2)),
        (q1, s.base.2), ?_, ?_, ?_, hb1, s4, s3, hp, ?_, ?_⟩
      · unfold update
        simp only [hp, Option.some_bind]
        simp [flatBase, FlatKind.empty] at hflush ⊢
        simp [hflush]
      · exact ⟨sorted_nodup P2 hP2, List.Pairwise.nil, by simp⟩
      · intro x
        rw [← hunion x]; simp
      · intro _; exact ⟨rfl, rfl, rfl⟩
      · intro h; exact absurd rfl h
    · refine ⟨(⟨(q2, s.base.2), s.time, s.startTime, P2⟩, false), (P2, (q2, s.base.2)),
        (q1, s.base.2), ?_, ?_, ?_, hb1, s4, s3, hp, ?_, ?_⟩
      · unfold update
        simp only [hp, Option.some_bind]
        simp [flatBase, FlatKind.empty, he]
      · exact ⟨hq2, hP2, hdisj⟩
      · intro x
        rw [← hunion x]
      · intro h; exact absurd h he
      · intro _; exact ⟨rfl, rfl, rfl⟩

/-- An update of C10 over a BFS base `[1, 2]` with state 3 paused: state 4 is added,
the paused state 3 is removed, and `current = 1` has run for 2 s. -/
theorem deepening_loses_no_state_witness :
    ∃ r, IterativeDeepeningTimeSearcher.update (flatBase .bfs fun _ => 0)
        IterativeDeepeningTimeSearcher.examplePaused 2000000 (some 1) [4] [3] = some r ∧
      IterativeDeepeningTimeSearcher.Consistent r.1 ∧
      ∀ x, x ∈ r.1.base.1 ∨ x ∈ r.1.pausedStates ↔
        (x ∈ IterativeDeepeningTimeSearcher.examplePaused.base.1 ∨
          x ∈ IterativeDeepeningTimeSearcher.examplePaused.pausedStates ∨ x ∈ [4]) ∧
        x ∉ [3] :=
  match (deepening_loses_no_state .bfs (fun _ => 0)
      IterativeDeepeningTimeSearcher.examplePaused 2000000 (some 1) [4] [3]
      (by decide) (by decide) (by decide) (by decide)).2.2 with
  | ⟨r, _, _, h1, h2, h3, _⟩ => ⟨r, h1, h2, h3⟩

end DeepeningPopulation3

/-! ## Theorems: RandomPathSearcher and the process tree -/

section TreeLemmas

open RandomPathSearcher

theorem RandomPathSearcher.hasBit_setBit (mask tag : Nat) (hm : mask ≠ 0) :
    hasBit mask (setBit mask tag) = true := by
  have h : (tag ||| mask) &&& mask = mask := by
    apply Nat.eq_of_testBit_eq
    intro i
    simp only [Nat.testBit_and, Nat.testBit_or]
    cases tag.testBit i <;> cases mask.testBit i <;> rfl
  simp [hasBit, setBit, h, hm]

theorem RandomPathSearcher.hasBit_clearBit (mask tag : Nat) :
    hasBit mask (clearBit mask tag) = false := by
  have h : (tag ^^^ (tag &&& mask)) &&& mask = 0 := by
    apply Nat.eq_of_testBit_eq
    intro i
    simp only [Nat.testBit_and, Nat.testBit_xor, Nat.zero_testBit]
    cases tag.testBit i <;> cases mask.testBit i <;> rfl
  simp [hasBit, clearBit, h]

theorem RandomPathSearcher.idBitMask_ne_zero (n : Nat) : idBitMask n ≠ 0 := by
  simp [idBitMask, Nat.shiftLeft_eq]

theorem RandomPathSearcher.ownsLeaf_iff (pop : List ES) (p : PTree) :
    ownsLeaf pop p = true ↔ ∃ x ∈ p.leaves, x ∈ pop := by
  simp [ownsLeaf]

theorem RandomPathSearcher.ownsLeaf_congr (pop pop' : List ES) (p : PTree)
    (h : ∀ x ∈ p.leaves, (x ∈ pop ↔ x ∈ pop')) : ownsLeaf pop p = ownsLeaf pop' p := by
  rw [Bool.eq_iff_iff, ownsLeaf_iff, ownsLeaf_iff]
  constructor
  · rintro ⟨x, hx, hp⟩; exact ⟨x, hx, (h x hx).1 hp⟩
  · rintro ⟨x, hx, hp⟩; exact ⟨x, hx, (h x hx).2 hp⟩

theorem RandomPathSearcher.ownsLeaf_node (pop : List ES) (lt rt : Nat) (l r : PTree) :
    ownsLeaf pop (.node lt l rt r) = (ownsLeaf pop l || ownsLeaf pop r) := by
  simp [ownsLeaf, PTree.leaves, List.any_append]

theorem RandomPathSearcher.ownsLeaf_null (pop : List ES) : ownsLeaf pop .null = false := by
  simp [ownsLeaf, PTree.leaves]

theorem RandomPathSearcher.tagsOk_node (mask : Nat) (pop : List ES) (lt rt : Nat)
    (l r : PTree) :
    tagsOk mask pop (.node lt l rt r) = true ↔
      hasBit mask lt = ownsLeaf pop l ∧ hasBit mask rt = ownsLeaf pop r ∧
        tagsOk mask pop l = true ∧ tagsOk mask pop r = true := by
  simp [tagsOk, and_assoc]

theorem RandomPathSearcher.tagsOk_congr (mask : Nat) (pop pop' : List ES) (p : PTree)
    (h : ∀ x ∈ p.leaves, (x ∈ pop ↔ x ∈ pop')) : tagsOk mask pop p = tagsOk mask pop' p := by
  induction p with
  | null => rfl
  | leaf d => rfl
  | node lt l rt r ihl ihr =>
    have hl : ∀ x ∈ l.leaves, (x ∈ pop ↔ x ∈ pop') := fun x hx =>
      h x (by simp [PTree.leaves, hx])
    have hr : ∀ x ∈ r.leaves, (x ∈ pop ↔ x ∈ pop') := fun x hx =>
      h x (by simp [PTree.leaves, hx])
    simp only [tagsOk, ihl hl, ihr hr, ownsLeaf_congr pop pop' l hl, ownsLeaf_congr pop pop' r hr]

theorem RandomPathSearcher.tagInvariant_congr (mask : Nat) (pop pop' : List ES)
    (t : ProcessTree) (h : ∀ x, x ∈ pop ↔ x ∈ pop') :
    tagInvariant mask pop t = tagInvariant mask pop' t := by
  simp only [tagInvariant, tagsOk_congr mask pop pop' t.root (fun x _ => h x),
    ownsLeaf_congr pop pop' t.root (fun x _ => h x)]

theorem RandomPathSearcher.plug_isNull (f : Frame) (p : PTree) : (f.plug p).isNull = false := by
  unfold Frame.plug; split <;> rfl

theorem RandomPathSearcher.ownsLeaf_plug (pop : List ES) (f : Frame) (p : PTree) :
    ownsLeaf pop (f.plug p) = (ownsLeaf pop p || ownsLeaf pop f.sibling) := by
  unfold Frame.plug
  split
  · rw [ownsLeaf_node]
  · rw [ownsLeaf_node, Bool.or_comm]

theorem RandomPathSearcher.tagsOk_plug (mask : Nat) (pop : List ES) (f : Frame) (p : PTree) :
    tagsOk mask pop (f.plug p) = true ↔
      hasBit mask f.tag = ownsLeaf pop p ∧ hasBit mask f.siblingTag = ownsLeaf pop f.sibling ∧
        tagsOk mask pop p = true ∧ tagsOk mask pop f.sibling = true := by
  unfold Frame.plug
  split
  · rw [tagsOk_node]
  · rw [tagsOk_node]; tauto

theorem RandomPathSearcher.leaves_plug_perm (f : Frame) (p : PTree) :
    (f.plug p).leaves.Perm (p.leaves ++ f.sibling.leaves) := by
  unfold Frame.plug
  split
  · simp [PTree.leaves]
  · simp only [PTree.leaves]; exact List.perm_append_comm

theorem RandomPathSearcher.untag_plug (f : Frame) (p : PTree) :
    (f.plug p).untag =
      if f.onLeft then .node 0 p.untag 0 f.sibling.untag
      else .node 0 f.sibling.untag 0 p.untag := by
  unfold Frame.plug
  split <;> simp [PTree.untag]

theorem RandomPathSearcher.untag_rebuild_congr (fs : List Frame) :
    ∀ p q : PTree, p.untag = q.untag → (rebuild p fs).untag = (rebuild q fs).untag := by
  induction fs with
  | nil => intro p q h; exact h
  | cons f fs ih =>
    intro p q h
    simp only [rebuild]
    apply ih
    rw [untag_plug, untag_plug, h]

theorem PTree.leaves_untag (p : PTree) : p.untag.leaves = p.leaves := by
  induction p with
  | null => rfl
  | leaf d => rfl
  | node lt l rt r ihl ihr => simp [PTree.untag, PTree.leaves, ihl, ihr]

theorem PTree.leaves_eq_of_untag_eq (p q : PTree) (h : p.untag = q.untag) :
    p.leaves = q.leaves := by
  rw [← PTree.leaves_untag p, ← PTree.leaves_untag q, h]

theorem RandomPathSearcher.rebuild_append (p : PTree) (fs : List Frame) (f : Frame) :
    rebuild p (fs ++ [f]) = f.plug (rebuild p fs) := by
  induction fs generalizing p with
  | nil => rfl
  | cons g gs ih => exact ih (g.plug p)

theorem RandomPathSearcher.locate_rebuild (es : ES) (t : PTree) :
    ∀ fs, locate es t = some fs → rebuild (.leaf es) fs = t := by
  induction t with
  | null => intro fs h; simp [locate] at h
  | leaf d =>
    intro fs h
    simp only [locate] at h
    split_ifs at h with hd
    simp only [Option.some.injEq] at h
    subst h; subst hd; rfl
  | node lt l rt r ihl ihr =>
    intro fs h
    simp only [locate] at h
    cases hl : locate es l with
    | some gs =>
      simp only [hl, Option.some.injEq] at h
      subst h
      rw [rebuild_append, ihl gs hl]; rfl
    | none =>
      cases hr : locate es r with
      | some gs =>
        simp only [hl, hr, Option.some.injEq] at h
        subst h
        rw [rebuild_append, ihr gs hr]; rfl
      | none => simp [hl, hr] at h

theorem RandomPathSearcher.locate_isSome (es : ES) (t : PTree) (h : es ∈ t.leaves) :
    ∃ fs, locate es t = some fs := by
  induction t with
  | null => simp [PTree.leaves] at h
  | leaf d =>
    simp only [PTree.leaves, List.mem_singleton] at h
    exact ⟨[], by simp [locate, h]⟩
  | node lt l rt r ihl ihr =>
    simp only [PTree.leaves, List.mem_append] at h
    cases hl : locate es l with
    | some gs =>
      exact ⟨gs ++ [{ onLeft := true, tag := lt, siblingTag := rt, sibling := r }],
        by simp [locate, hl]⟩
    | none =>
      rcases h with h | h
      · obtain ⟨gs, hg⟩ := ihl h
        rw [hl] at hg; exact absurd hg (by simp)
      · obtain ⟨gs, hg⟩ := ihr h
        exact ⟨gs ++ [{ onLeft := false, tag := rt, siblingTag := lt, sibling := l }],
          by simp [locate, hl, hg]⟩

theorem RandomPathSearcher.leaves_sublist_rebuild (fs : List Frame) :
    ∀ p : PTree, p.leaves.Sublist (rebuild p fs).leaves := by
  induction fs with
  | nil => intro p; exact List.Sublist.refl _
  | cons f fs ih =>
    intro p
    simp only [rebuild]
    refine List.Sublist.trans ?_ (ih (f.plug p))
    unfold Frame.plug
    split
    · simp [PTree.leaves]
    · simp [PTree.leaves]

theorem RandomPathSearcher.offPath_of_nodup (es : ES) (fs : List Frame) :
    ∀ p : PTree, es ∈ p.leaves → (rebuild p fs).leaves.Nodup → OffPath es fs := by
  induction fs with
  | nil => intro p _ _ f hf; simp at hf
  | cons f fs ih =>
    intro p hes hnd g hg
    simp only [rebuild] at hnd
    have hplug : es ∈ (f.plug p).leaves :=
      (leaves_plug_perm f p).mem_iff.2 (List.mem_append.2 (Or.inl hes))
    rcases List.mem_cons.1 hg with rfl | hg
    · have hn : (g.plug p).leaves.Nodup := hnd.sublist (leaves_sublist_rebuild fs (g.plug p))
      have hn2 : (p.leaves ++ g.sibling.leaves).Nodup :=
        (leaves_plug_perm g p).nodup_iff.1 hn
      exact fun h => List.disjoint_of_nodup_append hn2 hes h
    · exact ih (f.plug p) hplug hnd g hg

end TreeLemmas

section AscentLemmas

open RandomPathSearcher

/-- The invariant of a rebuilt tree splits into the invariant of the subtree and that of
the frames around it. -/
theorem RandomPathSearcher.tagInvariant_rebuild (mask : Nat) (pop : List ES)
    (fs : List Frame) (rootTag : Nat) :
    ∀ p : PTree, tagsOk mask pop p = true → FramesOk mask pop (ownsLeaf pop p) fs rootTag →
      tagInvariant mask pop { rootTag := rootTag, root := rebuild p fs } = true := by
  induction fs with
  | nil =>
    intro p hp hf
    simp only [FramesOk] at hf
    simp [tagInvariant, rebuild, hp, hf]
  | cons f fs ih =>
    intro p hp hf
    obtain ⟨h1, h2, h3, h4⟩ := hf
    simp only [rebuild]
    apply ih
    · exact (tagsOk_plug mask pop f p).2 ⟨h1, h2, hp, h3⟩
    · rw [ownsLeaf_plug]; exact h4

/-- Conversely, the invariant of the whole tree gives that of the frames around a leaf. -/
theorem RandomPathSearcher.framesOk_of_tagInvariant (mask : Nat) (pop : List ES)
    (fs : List Frame) (rootTag : Nat) :
    ∀ p : PTree,
      tagInvariant mask pop { rootTag := rootTag, root := rebuild p fs } = true →
      tagsOk mask pop p = true ∧ FramesOk mask pop (ownsLeaf pop p) fs rootTag := by
  induction fs with
  | nil =>
    intro p h
    simp only [tagInvariant, rebuild, Bool.and_eq_true, beq_iff_eq] at h
    exact ⟨h.2, h.1⟩
  | cons f fs ih =>
    intro p h
    simp only [rebuild] at h
    obtain ⟨h1, h2⟩ := ih (f.plug p) h
    obtain ⟨a, b, c, d⟩ := (tagsOk_plug mask pop f p).1 h1
    rw [ownsLeaf_plug] at h2
    exact ⟨c, a, b, d, h2⟩

/-- Frames that are fine for `pop` below an owning subtree are fine for a population
that differs from `pop` at `es` only, when `es` is not below any sibling. -/
theorem RandomPathSearcher.framesOk_transfer (mask : Nat) (pop pop' : List ES) (es : ES)
    (hpop : ∀ x, x ≠ es → (x ∈ pop ↔ x ∈ pop')) (rootTag : Nat) (fs : List Frame) :
    ∀ own : Bool, own = true → OffPath es fs → FramesOk mask pop own fs rootTag →
      FramesOk mask pop' true fs rootTag := by
  induction fs with
  | nil =>
    intro own ho _ hf
    simp only [FramesOk] at hf ⊢
    rw [hf, ho]
  | cons f fs ih =>
    intro own ho hoff hf
    obtain ⟨h1, h2, h3, h4⟩ := hf
    have hsib : ∀ x ∈ f.sibling.leaves, (x ∈ pop ↔ x ∈ pop') := by
      intro x hx
      apply hpop
      rintro rfl
      exact hoff f (by simp) hx
    have hoff' : OffPath es fs := fun g hg => hoff g (by simp [hg])
    refine ⟨by rw [h1, ho], ?_, ?_, ?_⟩
    · rw [h2, ownsLeaf_congr pop pop' _ hsib]
    · rw [← tagsOk_congr mask pop pop' _ hsib]; exact h3
    · have := ih (own || ownsLeaf pop f.sibling) (by simp [ho]) hoff' h4
      simpa using this

theorem RandomPathSearcher.sibling_transfer (mask : Nat) (pop pop' : List ES) (es : ES)
    (hpop : ∀ x, x ≠ es → (x ∈ pop ↔ x ∈ pop')) (f : Frame) (hoff : es ∉ f.sibling.leaves)
    (h2 : hasBit mask f.siblingTag = ownsLeaf pop f.sibling)
    (h3 : tagsOk mask pop f.sibling = true) :
    hasBit mask f.siblingTag = ownsLeaf pop' f.sibling ∧
      tagsOk mask pop' f.sibling = true := by
  have hsib : ∀ x ∈ f.sibling.leaves, (x ∈ pop ↔ x ∈ pop') := by
    intro x hx
    apply hpop
    rintro rfl
    exact hoff hx
  exact ⟨by rw [h2, ownsLeaf_congr pop pop' _ hsib],
    by rw [← tagsOk_congr mask pop pop' _ hsib]; exact h3⟩

/-- The ascent for an added state re-establishes the invariant for the grown
population. -/
theorem RandomPathSearcher.addAscend_invariant (mask : Nat) (hm : mask ≠ 0)
    (pop pop' : List ES) (es : ES) (hpop : ∀ x, x ≠ es → (x ∈ pop ↔ x ∈ pop'))
    (rootTag : Nat) (fs : List Frame) :
    ∀ (p : PTree) (own : Bool), p.isNull = false → tagsOk mask pop' p = true →
      ownsLeaf pop' p = true → OffPath es fs → FramesOk mask pop own fs rootTag →
      tagInvariant mask pop' (addAscend mask p fs rootTag) = true := by
  induction fs with
  | nil =>
    intro p own hnull hp hown _ hf
    simp only [addAscend, isOurNodeValid, hnull, Bool.not_false, Bool.and_true]
    by_cases hb : hasBit mask rootTag = true
    · simp [hb, tagInvariant, hown, hp]
    · simp [hb, tagInvariant, hown, hp, hasBit_setBit mask rootTag hm]
  | cons f fs ih =>
    intro p own hnull hp hown hoff hf
    have hoff' : OffPath es fs := fun g hg => hoff g (by simp [hg])
    simp only [addAscend, isOurNodeValid, hnull, Bool.not_false, Bool.and_true]
    by_cases hb : hasBit mask f.tag = true
    · simp only [hb, if_true]
      apply tagInvariant_rebuild mask pop' (f :: fs) rootTag p hp
      rw [hown]
      exact framesOk_transfer mask pop pop' es hpop rootTag (f :: fs) own
        (by rw [← hf.1]; exact hb) hoff hf
    · simp only [hb]
      obtain ⟨h1, h2, h3, h4⟩ := hf
      obtain ⟨t2, t3⟩ := sibling_transfer mask pop pop' es hpop f (hoff f (by simp)) h2 h3
      apply ih _ (own || ownsLeaf pop f.sibling) (plug_isNull _ p) ?_ ?_ hoff' h4
      · rw [tagsOk_plug]
        exact ⟨by simp [hasBit_setBit mask f.tag hm, hown], t2, hp, t3⟩
      · rw [ownsLeaf_plug]; simp [hown]

theorem RandomPathSearcher.addAscend_untag (mask : Nat) (rootTag : Nat) (fs : List Frame) :
    ∀ p : PTree, (addAscend mask p fs rootTag).root.untag = (rebuild p fs).untag := by
  induction fs with
  | nil =>
    intro p
    simp only [addAscend, rebuild]
    split <;> rfl
  | cons f fs ih =>
    intro p
    simp only [addAscend]
    split
    · rfl
    · rw [ih]
      simp only [rebuild]
      apply untag_rebuild_congr
      rw [untag_plug, untag_plug]

/-- A subtree whose children are both invalid owns no leaf of the population. -/
theorem RandomPathSearcher.ownsLeaf_of_childrenInvalid (mask : Nat) (pop : List ES)
    (p : PTree) (hp : tagsOk mask pop p = true) (hleaf : ∀ d, p = .leaf d → d ∉ pop)
    (hc : childrenInvalid mask p = true) : ownsLeaf pop p = false := by
  cases p with
  | null => exact ownsLeaf_null pop
  | leaf d => simpa [ownsLeaf, PTree.leaves] using hleaf d rfl
  | node lt l rt r =>
    obtain ⟨h1, h2, -, -⟩ := (tagsOk_node mask pop lt rt l r).1 hp
    simp only [childrenInvalid, isOurNodeValid, Bool.and_eq_true, Bool.not_eq_true',
      Bool.and_eq_false_imp, Bool.not_eq_false] at hc
    rw [ownsLeaf_node]
    have hl : ownsLeaf pop l = false := by
      by_contra hne
      have hne' : ownsLeaf pop l = true := by simpa using hne
      have hn := hc.1 (h1.trans hne')
      cases l with
      | null => rw [ownsLeaf_null] at hne'; exact absurd hne' (by simp)
      | leaf d => simp [PTree.isNull] at hn
      | node a b c d => simp [PTree.isNull] at hn
    have hr : ownsLeaf pop r = false := by
      by_contra hne
      have hne' : ownsLeaf pop r = true := by simpa using hne
      have hn := hc.2 (h2.trans hne')
      cases r with
      | null => rw [ownsLeaf_null] at hne'; exact absurd hne' (by simp)
      | leaf d => simp [PTree.isNull] at hn
      | node a b c d => simp [PTree.isNull] at hn
    simp [hl, hr]

/-- A non-null subtree with a valid child owns a leaf of the population. -/
theorem RandomPathSearcher.ownsLeaf_of_child_valid (mask : Nat) (pop : List ES)
    (p : PTree) (hp : tagsOk mask pop p = true) (hnull : p.isNull = false)
    (hc : childrenInvalid mask p = false) : ownsLeaf pop p = true := by
  cases p with
  | null => simp [PTree.isNull] at hnull
  | leaf d => simp [childrenInvalid] at hc
  | node lt l rt r =>
    obtain ⟨h1, h2, -, -⟩ := (tagsOk_node mask pop lt rt l r).1 hp
    rw [ownsLeaf_node]
    simp only [childrenInvalid, isOurNodeValid, Bool.and_eq_false_imp, Bool.not_eq_true',
      Bool.and_eq_false_imp, Bool.not_eq_false', Bool.and_eq_true, Bool.not_eq_true,
      Bool.not_eq_false] at hc
    by_cases hl : hasBit mask lt = true
    · rw [← h1, hl]; rfl
    · have hl' : hasBit mask lt = false := by simpa using hl
      have := hc (fun h => absurd h (by simp [hl']))
      rw [← h2, this.1]; simp

/-- The ascent for a removed state passes its assertion and re-establishes the
invariant for the shrunk population. -/
theorem RandomPathSearcher.removeAscend_invariant (mask : Nat)
    (pop pop' : List ES) (es : ES) (hpop : ∀ x, x ≠ es → (x ∈ pop ↔ x ∈ pop'))
    (rootTag : Nat) (fs : List Frame) :
    ∀ p : PTree, p.isNull = false → tagsOk mask pop' p = true →
      (∀ d, p = .leaf d → d ∉ pop') → OffPath es fs → FramesOk mask pop true fs rootTag →
      ∃ t, removeAscend mask p fs rootTag = some t ∧ tagInvariant mask pop' t = true ∧
        t.root.untag = (rebuild p fs).untag := by
  induction fs with
  | nil =>
    intro p hnull hp hleaf _ hf
    simp only [FramesOk] at hf
    simp only [removeAscend, isOurNodeValid, hnull, hf, Bool.not_false, Bool.and_true, if_true]
    by_cases hc : childrenInvalid mask p = true
    · have hown := ownsLeaf_of_childrenInvalid mask pop' p hp hleaf hc
      refine ⟨{ rootTag := clearBit mask rootTag, root := p }, by simp only [hc, if_true],
        ?_, rfl⟩
      simp [tagInvariant, hasBit_clearBit, hown, hp]
    · have hc' : childrenInvalid mask p = false := by simpa using hc
      have hown := ownsLeaf_of_child_valid mask pop' p hp hnull hc'
      refine ⟨{ rootTag := rootTag, root := p }, by simp only [hc]; rfl, ?_, rfl⟩
      simp [tagInvariant, hf, hown, hp]
  | cons f fs ih =>
    intro p hnull hp hleaf hoff hf
    have hoff' : OffPath es fs := fun g hg => hoff g (by simp [hg])
    obtain ⟨h1, h2, h3, h4⟩ := hf
    obtain ⟨t2, t3⟩ := sibling_transfer mask pop pop' es hpop f (hoff f (by simp)) h2 h3
    simp only [removeAscend, isOurNodeValid, hnull, h1, Bool.not_false, Bool.and_true, if_true]
    by_cases hc : childrenInvalid mask p = true
    · have hown := ownsLeaf_of_childrenInvalid mask pop' p hp hleaf hc
      simp only [hc, if_true]
      have hplug : tagsOk mask pop'
          (Frame.plug { f with tag := clearBit mask f.tag } p) = true := by
        rw [tagsOk_plug]
        exact ⟨by simp [hasBit_clearBit, hown], t2, hp, t3⟩
      obtain ⟨t, ht1, ht2, ht3⟩ := ih _ (plug_isNull _ p) hplug
        (by
          intro d hd
          unfold Frame.plug at hd
          split at hd <;> simp at hd)
        hoff' (by simpa using h4)
      refine ⟨t, ht1, ht2, ?_⟩
      rw [ht3]
      simp only [rebuild]
      apply untag_rebuild_congr
      rw [untag_plug, untag_plug]
    · have hc' : childrenInvalid mask p = false := by simpa using hc
      have hown := ownsLeaf_of_child_valid mask pop' p hp hnull hc'
      refine ⟨{ rootTag := rootTag, root := rebuild p (f :: fs) }, by simp only [hc]; rfl,
        ?_, rfl⟩
      apply tagInvariant_rebuild mask pop' (f :: fs) rootTag p hp
      rw [hown]
      exact framesOk_transfer mask pop pop' es hpop rootTag (f :: fs) true rfl hoff
        ⟨h1, h2, h3, h4⟩

end AscentLemmas

section UpdateInvariant

open RandomPathSearcher

theorem RandomPathSearcher.addState_invariant (mask : Nat) (hm : mask ≠ 0) (t : ProcessTree)
    (pop pop' : List ES) (es : ES) (hwf : t.root.leaves.Nodup)
    (hinv : tagInvariant mask pop t = true) (hes : es ∈ t.root.leaves)
    (hpop : ∀ x, x ∈ pop' ↔ x ∈ pop ∨ x = es) :
    ∃ t', addState mask t es = some t' ∧ t'.root.untag = t.root.untag ∧
      tagInvariant mask pop' t' = true := by
  obtain ⟨fs, hfs⟩ := locate_isSome es t.root hes
  have hreb := locate_rebuild es t.root fs hfs
  have hinv' : tagInvariant mask pop { rootTag := t.rootTag, root := rebuild (.leaf es) fs }
      = true := by rw [hreb]; exact hinv
  obtain ⟨-, hframes⟩ := framesOk_of_tagInvariant mask pop fs t.rootTag (.leaf es) hinv'
  have hoff : OffPath es fs :=
    offPath_of_nodup es fs (.leaf es) (by simp [PTree.leaves]) (by rw [hreb]; exact hwf)
  refine ⟨addAscend mask (.leaf es) fs t.rootTag, by simp [addState, hfs], ?_, ?_⟩
  · rw [addAscend_untag, hreb]
  · apply addAscend_invariant mask hm pop pop' es ?_ t.rootTag fs (.leaf es) _ rfl rfl ?_ hoff
      hframes
    · intro x hx
      rw [hpop x]; simp [hx]
    · simp [ownsLeaf, PTree.leaves, hpop]

theorem RandomPathSearcher.removeState_invariant (mask : Nat) (t : ProcessTree)
    (pop pop' : List ES) (es : ES) (hwf : t.root.leaves.Nodup)
    (hinv : tagInvariant mask pop t = true) (hes : es ∈ t.root.leaves) (hmem : es ∈ pop)
    (hpop : ∀ x, x ∈ pop' ↔ x ∈ pop ∧ x ≠ es) :
    ∃ t', removeState mask t es = some t' ∧ t'.root.untag = t.root.untag ∧
      tagInvariant mask pop' t' = true := by
  obtain ⟨fs, hfs⟩ := locate_isSome es t.root hes
  have hreb := locate_rebuild es t.root fs hfs
  have hinv' : tagInvariant mask pop { rootTag := t.rootTag, root := rebuild (.leaf es) fs }
      = true := by rw [hreb]; exact hinv
  obtain ⟨-, hframes⟩ := framesOk_of_tagInvariant mask pop fs t.rootTag (.leaf es) hinv'
  have hown : ownsLeaf pop (.leaf es) = true := by simp [ownsLeaf, PTree.leaves, hmem]
  rw [hown] at hframes
  have hoff : OffPath es fs :=
    offPath_of_nodup es fs (.leaf es) (by simp [PTree.leaves]) (by rw [hreb]; exact hwf)
  obtain ⟨t', h1, h2, h3⟩ := removeAscend_invariant mask pop pop' es
    (by intro x hx; rw [hpop x]; simp [hx]) t.rootTag fs (.leaf es) rfl rfl
    (by
      intro d hd
      simp only [PTree.leaf.injEq] at hd
      subst hd
      rw [hpop]; simp)
    hoff hframes
  exact ⟨t', by simp [removeState, hfs, h1], by rw [h3, hreb], h2⟩

theorem RandomPathSearcher.add_loop_invariant (mask : Nat) (hm : mask ≠ 0)
    (added : List ES) :
    ∀ (t : ProcessTree) (pop : List ES), t.root.leaves.Nodup →
      tagInvariant mask pop t = true → (∀ x ∈ added, x ∈ t.root.leaves) →
      ∃ t', added.foldlM (addState mask) t = some t' ∧ t'.root.untag = t.root.untag ∧
        ∀ pop', (∀ x, x ∈ pop' ↔ x ∈ pop ∨ x ∈ added) → tagInvariant mask pop' t' = true := by
  induction added with
  | nil =>
    intro t pop _ hinv _
    refine ⟨t, rfl, rfl, ?_⟩
    intro pop' hp
    rw [← tagInvariant_congr mask pop pop' t (fun x => by rw [hp x]; simp)]
    exact hinv
  | cons es rest ih =>
    intro t pop hwf hinv hsub
    obtain ⟨t1, h1, h2, h3⟩ := addState_invariant mask hm t pop (es :: pop) es hwf hinv
      (hsub es (by simp)) (by intro x; simp; tauto)
    have hl : t1.root.leaves = t.root.leaves := PTree.leaves_eq_of_untag_eq _ _ h2
    obtain ⟨t2, g1, g2, g3⟩ := ih t1 (es :: pop) (by rw [hl]; exact hwf) h3
      (by intro x hx; rw [hl]; exact hsub x (by simp [hx]))
    refine ⟨t2, by simp [List.foldlM_cons, h1, g1], by rw [g2, h2], ?_⟩
    intro pop' hp
    apply g3
    intro x
    rw [hp x]; simp; tauto

theorem RandomPathSearcher.remove_loop_invariant (mask : Nat) (removed : List ES) :
    ∀ (t : ProcessTree) (pop : List ES), t.root.leaves.Nodup →
      tagInvariant mask pop t = true → removed.Nodup →
      (∀ x ∈ removed, x ∈ t.root.leaves ∧ x ∈ pop) →
      ∃ t', removed.foldlM (removeState mask) t = some t' ∧ t'.root.untag = t.root.untag ∧
        ∀ pop', (∀ x, x ∈ pop' ↔ x ∈ pop ∧ x ∉ removed) → tagInvariant mask pop' t' = true := by
  induction removed with
  | nil =>
    intro t pop _ hinv _ _
    refine ⟨t, rfl, rfl, ?_⟩
    intro pop' hp
    rw [← tagInvariant_congr mask pop pop' t (fun x => by rw [hp x]; simp)]
    exact hinv
  | cons es rest ih =>
    intro t pop hwf hinv hnd hsub
    have hnd' := List.nodup_cons.1 hnd
    obtain ⟨t1, h1, h2, h3⟩ := removeState_invariant mask t pop (pop.filter fun x => x != es) es
      hwf hinv (hsub es (by simp)).1 (hsub es (by simp)).2 (by intro x; simp)
    have hl : t1.root.leaves = t.root.leaves := PTree.leaves_eq_of_untag_eq _ _ h2
    obtain ⟨t2, g1, g2, g3⟩ := ih t1 (pop.filter fun x => x != es) (by rw [hl]; exact hwf) h3
      hnd'.2
      (by
        intro x hx
        have := hsub x (by simp [hx])
        have hne : x ≠ es := fun h => hnd'.1 (h ▸ hx)
        rw [hl]
        exact ⟨this.1, by simp [this.2, hne]⟩)
    refine ⟨t2, by simp [List.foldlM_cons, h1, g1], by rw [g2, h2], ?_⟩
    intro pop' hp
    apply g3
    intro x
    rw [hp x]; simp; tauto

/-- C2: the tag-bit invariant of RandomPathSearcher is preserved by `update`. On a
process tree whose leaves carry distinct states, if every child slot and the root slot
carry the searcher's bit exactly when the subtree below owns a leaf of the population,
then `update` with added leaves and with distinct removed leaves that are members
(of the old population or of the added states) fails no assertion, changes no node or
link of the tree, sets `size` to `size + |added| - |removed|`, and the same equivalence
holds for the new population (old + added - removed). -/
theorem random_path_update_keeps_tag_invariant (n : Nat) (size : Int) (t : ProcessTree)
    (pop added removed : List ES) (current : Option ES)
    (hwf : t.root.leaves.Nodup)
    (hinv : RandomPathSearcher.tagInvariant (RandomPathSearcher.idBitMask n) pop t = true)
    (hadd : ∀ x ∈ added, x ∈ t.root.leaves)
    (hrem : removed.Nodup ∧ ∀ x ∈ removed, x ∈ t.root.leaves ∧ (x ∈ pop ∨ x ∈ added)) :
    ∃ t', RandomPathSearcher.update (RandomPathSearcher.idBitMask n) (size, t) current
          added removed = some (size + added.length - removed.length, t') ∧
      t'.root.untag = t.root.untag ∧
      RandomPathSearcher.tagInvariant (RandomPathSearcher.idBitMask n)
        (RandomPathSearcher.newPopulation pop added removed) t' = true := by
  obtain ⟨t1, h1, h2, h3⟩ := add_loop_invariant (idBitMask n) (idBitMask_ne_zero n) added t pop
    hwf hinv hadd
  have hl : t1.root.leaves = t.root.leaves := PTree.leaves_eq_of_untag_eq _ _ h2
  obtain ⟨t2, g1, g2, g3⟩ := remove_loop_invariant (idBitMask n) removed t1 (pop ++ added)
    (by rw [hl]; exact hwf) (h3 (pop ++ added) (by intro x; simp)) hrem.1
    (by
      intro x hx
      rw [hl]
      exact ⟨(hrem.2 x hx).1, by simpa using (hrem.2 x hx).2⟩)
  refine ⟨t2, by simp [update, h1, g1], by rw [g2, h2], ?_⟩
  apply g3
  intro x
  simp only [newPopulation, List.mem_filter, List.mem_append, Bool.not_eq_true',
    List.contains_eq_any_beq, List.any_eq_false, beq_iff_eq]
  constructor
  · rintro ⟨h, hn⟩
    exact ⟨h, fun hx => hn x hx rfl⟩
  · rintro ⟨h, hn⟩
    exact ⟨h, fun y hy hxy => hn (hxy ▸ hy)⟩

/-- The tree of three leaves 1, 2, 3 with no bit set; states 2, 1, 3 are added and
state 2 is removed again. -/
theorem random_path_update_keeps_tag_invariant_witness :
    ∃ t', RandomPathSearcher.update (RandomPathSearcher.idBitMask 0)
          (0, RandomPathSearcher.exampleTree) none [2, 1, 3] [2] = some (0 + 3 - 1, t') ∧
      t'.root.untag = RandomPathSearcher.exampleTree.root.untag ∧
      RandomPathSearcher.tagInvariant (RandomPathSearcher.idBitMask 0)
        (RandomPathSearcher.newPopulation [] [2, 1, 3] [2]) t' = true :=
  random_path_update_keeps_tag_invariant 0 0 RandomPathSearcher.exampleTree [] [2, 1, 3] [2]
    none (by decide) (by decide) (by decide) (by decide)

end UpdateInvariant

section SelectMember

open RandomPathSearcher

theorem RandomPathSearcher.valid_eq_owns (mask : Nat) (pop : List ES) (tag : Nat) (p : PTree)
    (h : hasBit mask tag = ownsLeaf pop p) : isOurNodeValid mask tag p = ownsLeaf pop p := by
  cases p with
  | null => simp [isOurNodeValid, PTree.isNull, ownsLeaf_null]
  | leaf d => simp [isOurNodeValid, PTree.isNull, h]
  | node a b c d => simp [isOurNodeValid, PTree.isNull, h]

theorem RandomPathSearcher.descend_member (mask : Nat) (rng : Nat → Nat) (pop : List ES)
    (p : PTree) :
    tagsOk mask pop p = true → ownsLeaf pop p = true →
      ∀ flips bits used, ∃ es used', descend mask rng p flips bits used = some (es, used') ∧
        es ∈ p.leaves ∧ es ∈ pop := by
  induction p with
  | null => intro _ h; rw [ownsLeaf_null] at h; exact absurd h (by simp)
  | leaf d =>
    intro _ h flips bits used
    refine ⟨d, used, rfl, by simp [PTree.leaves], ?_⟩
    simpa [ownsLeaf, PTree.leaves] using h
  | node lt l rt r ihl ihr =>
    intro hp hown flips bits used
    obtain ⟨h1, h2, h3, h4⟩ := (tagsOk_node mask pop lt rt l r).1 hp
    rw [ownsLeaf_node] at hown
    have vl := valid_eq_owns mask pop lt l h1
    have vr := valid_eq_owns mask pop rt r h2
    have inl : ∀ f b u, ownsLeaf pop l = true →
        ∃ es used', descend mask rng l f b u = some (es, used') ∧
          es ∈ (PTree.node lt l rt r).leaves ∧ es ∈ pop := by
      intro f b u ho
      obtain ⟨es, u', e1, e2, e3⟩ := ihl h3 ho f b u
      exact ⟨es, u', e1, by simp [PTree.leaves, e2], e3⟩
    have inr : ∀ f b u, ownsLeaf pop r = true →
        ∃ es used', descend mask rng r f b u = some (es, used') ∧
          es ∈ (PTree.node lt l rt r).leaves ∧ es ∈ pop := by
      intro f b u ho
      obtain ⟨es, u', e1, e2, e3⟩ := ihr h4 ho f b u
      exact ⟨es, u', e1, by simp [PTree.leaves, e2], e3⟩
    simp only [descend, vl, vr]
    cases hl : ownsLeaf pop l <;> cases hr : ownsLeaf pop r
    · simp [hl, hr] at hown
    · simpa using inr flips bits used hr
    · simpa using inl flips bits used hl
    · simp only [Bool.not_true, Bool.false_eq_true, if_false]
      split_ifs <;> first | exact inl _ _ _ hl | exact inr _ _ _ hr

/-- C3: `RandomPathSearcher::selectState` is safe and returns a member. Under the
tag-bit invariant for the population `pop`, when the root slot carries the searcher's
bit, for every stream of random words the walk fails no assertion, ends at a leaf of
the tree and returns a state of `pop`. -/
theorem random_path_select_returns_member (n : Nat) (rng : Nat → Nat) (t : ProcessTree)
    (pop : List ES) (used : Nat)
    (hinv : RandomPathSearcher.tagInvariant (RandomPathSearcher.idBitMask n) pop t = true)
    (hroot : RandomPathSearcher.hasBit (RandomPathSearcher.idBitMask n) t.rootTag = true) :
    ∃ es used', RandomPathSearcher.selectState (RandomPathSearcher.idBitMask n) rng t used
        = some (es, used') ∧ es ∈ t.root.leaves ∧ es ∈ pop := by
  simp only [tagInvariant, Bool.and_eq_true, beq_iff_eq] at hinv
  obtain ⟨es, u', h1, h2, h3⟩ := descend_member (idBitMask n) rng pop t.root hinv.2
    (by rw [← hinv.1]; exact hroot) 0 0 used
  exact ⟨es, u', by simp [selectState, hroot, h1], h2, h3⟩

/-- A walk on the three-leaf tree owned entirely by searcher 0. -/
theorem random_path_select_returns_member_witness :
    ∃ es used', RandomPathSearcher.selectState (RandomPathSearcher.idBitMask 0)
        (fun _ => 0) RandomPathSearcher.exampleOwned 0 = some (es, used') ∧
      es ∈ RandomPathSearcher.exampleOwned.root.leaves ∧ es ∈ [1, 2, 3] :=
  random_path_select_returns_member 0 (fun _ => 0) RandomPathSearcher.exampleOwned [1, 2, 3] 0
    (by decide) (by decide)

end SelectMember

section CoinFlips

open RandomPathSearcher

theorem RandomPathSearcher.packWord_testBit (f : Nat → Bool) :
    ∀ (w i : Nat), i < w → (packWord f w).testBit i = f (w - 1 - i) := by
  intro w
  induction w with
  | zero => intro i hi; omega
  | succ w ih =>
    intro i hi
    have hdiv : (2 * packWord f w + (if f w then 1 else 0)) / 2 = packWord f w := by
      split <;> omega
    cases i with
    | zero =>
      simp only [packWord, Nat.testBit_zero]
      cases hf : f w
      · simp [hf]
      · simp [hf]; omega
    | succ i =>
      simp only [packWord, Nat.testBit_succ, hdiv]
      rw [ih i (by omega)]
      congr 1
      omega

theorem RandomPathSearcher.and_shift_ne_zero (x k : Nat) :
    (x &&& (1 <<< k) != 0) = x.testBit k := by
  have h : x &&& 2 ^ k = if x.testBit k then 2 ^ k else 0 := by
    apply Nat.eq_of_testBit_eq
    intro i
    rw [Nat.testBit_and, Nat.testBit_two_pow]
    by_cases hk : k = i
    · subst hk
      cases hx : x.testBit k <;> simp [hx, Nat.testBit_two_pow]
    · cases hx : x.testBit k <;> simp [hx, hk, Nat.testBit_two_pow]
  rw [Nat.one_shiftLeft, h]
  cases hx : x.testBit k
  · simp
  · simp [Nat.pos_pow_of_pos]

theorem RandomPathSearcher.flipAt_drop (bs : List Bool) :
    ∀ pos : Nat, (bs.drop pos = [] → flipAt bs pos = false ∧ bs.drop (pos + 1) = []) ∧
      (∀ b rest, bs.drop pos = b :: rest → flipAt bs pos = b ∧ bs.drop (pos + 1) = rest) := by
  induction bs with
  | nil =>
    intro pos
    refine ⟨fun _ => ⟨by simp [flipAt], by simp⟩, ?_⟩
    intro b rest h
    simp at h
  | cons a as ih =>
    intro pos
    cases pos with
    | zero =>
      refine ⟨fun h => by simp at h, ?_⟩
      intro b rest h
      simp only [List.drop_zero, List.cons.injEq] at h
      exact ⟨by simp [flipAt, h.1], by simp [h.2]⟩
    | succ pos =>
      simp only [List.drop_succ_cons, flipAt]
      exact ih pos

/-- The bit that the walk tests next is the coin flip at position `pos`. -/
theorem RandomPathSearcher.next_flip (bs : List Bool) (flips bits used pos : Nat)
    (h : InStep bs flips bits used pos) :
    ((if bits = 0 then wordsOfFlips bs used % 2 ^ 32 else flips) &&&
        (1 <<< ((if bits = 0 then 32 else bits) - 1)) != 0) = flipAt bs pos ∧
    InStep bs (if bits = 0 then wordsOfFlips bs used % 2 ^ 32 else flips)
      ((if bits = 0 then 32 else bits) - 1) (if bits = 0 then used + 1 else used) (pos + 1) := by
  obtain ⟨h1, h2, h3⟩ := h
  by_cases hb : bits = 0
  · subst hb
    simp only [if_true]
    refine ⟨?_, by omega, by omega, fun _ => by simp⟩
    rw [and_shift_ne_zero, Nat.testBit_mod_two_pow]
    simp only [show (32 - 1 < 32) from by omega, decide_True, Bool.true_and]
    rw [wordsOfFlips, packWord_testBit _ 32 31 (by omega)]
    congr 1
    omega
  · simp only [hb, if_false]
    have hpos : 0 < bits := Nat.pos_of_ne_zero hb
    refine ⟨?_, by omega, by omega, fun _ => h3 hpos⟩
    rw [and_shift_ne_zero, h3 hpos, Nat.testBit_mod_two_pow]
    simp only [show (bits - 1 < 32) from by omega, decide_True, Bool.true_and]
    rw [wordsOfFlips, packWord_testBit _ 32 (bits - 1) (by omega)]
    congr 1
    omega

/-- The walk over the words of the generator is the walk over the coin flips. -/
theorem RandomPathSearcher.descend_eq_walkFlips (mask : Nat) (bs : List Bool) (p : PTree) :
    ∀ flips bits used pos, InStep bs flips bits used pos →
      (descend mask (wordsOfFlips bs) p flips bits used).map Prod.fst
        = walkFlips mask p (bs.drop pos) := by
  induction p with
  | null => intro _ _ _ _ _; rfl
  | leaf d => intro _ _ _ _ _; rfl
  | node lt l rt r ihl ihr =>
    intro flips bits used pos h
    simp only [descend, walkFlips]
    by_cases vl : isOurNodeValid mask lt l = true
    · by_cases vr : isOurNodeValid mask rt r = true
      · simp only [vl, vr, Bool.not_true, Bool.false_eq_true, if_false]
        obtain ⟨hbit, hstep⟩ := next_flip bs flips bits used pos h
        rw [hbit]
        obtain ⟨hnil, hcons⟩ := flipAt_drop bs pos
        cases hd : bs.drop pos with
        | nil =>
          obtain ⟨e1, e2⟩ := hnil hd
          simp only [e1, Bool.false_eq_true, if_false]
          rw [ihr _ _ _ _ hstep, e2]
        | cons b rest =>
          obtain ⟨e1, e2⟩ := hcons b rest hd
          simp only [e1]
          cases b
          · simp only [Bool.false_eq_true, if_false]
            rw [ihr _ _ _ _ hstep, e2]
          · simp only [if_true]
            rw [ihl _ _ _ _ hstep, e2]
      · simp only [Bool.not_eq_true] at vr
        simp only [vl, vr, Bool.not_true, Bool.false_eq_true, if_false, Bool.not_false,
          if_true]
        exact ihl _ _ _ _ h
    · simp only [Bool.not_eq_true] at vl
      simp only [vl, Bool.not_false, if_true]
      by_cases vr : isOurNodeValid mask rt r = true
      · simp only [vr, if_true]
        exact ihr _ _ _ _ h
      · simp [vr]

theorem RandomPathSearcher.selectState_eq_walkFlips (mask : Nat) (bs : List Bool)
    (t : ProcessTree) (hroot : hasBit mask t.rootTag = true) :
    (selectState mask (wordsOfFlips bs) t 0).map Prod.fst = walkFlips mask t.root bs := by
  simp only [selectState, hroot, if_true]
  have := descend_eq_walkFlips mask bs t.root 0 0 0 0 ⟨by omega, by omega, fun h => by omega⟩
  simpa using this

end CoinFlips

section Counting

open RandomPathSearcher

theorem RandomPathSearcher.allFlips_length (n : Nat) : (allFlips n).length = 2 ^ n := by
  induction n with
  | zero => rfl
  | succ n ih => simp [allFlips, ih, pow_succ]; omega

theorem RandomPathSearcher.countP_allFlips_succ (q : List Bool → Bool) (n : Nat) :
    (allFlips (n + 1)).countP q =
      (allFlips n).countP (fun bs => q (true :: bs)) +
        (allFlips n).countP (fun bs => q (false :: bs)) := by
  simp only [allFlips, List.countP_append, List.countP_map]
  rfl

theorem RandomPathSearcher.walkFlips_mem (mask : Nat) (p : PTree) :
    ∀ (bs : List Bool) (es : ES), walkFlips mask p bs = some es → es ∈ p.leaves := by
  induction p with
  | null => intro bs es h; simp [walkFlips] at h
  | leaf d =>
    intro bs es h
    simp only [walkFlips, Option.some.injEq] at h
    simp [PTree.leaves, h]
  | node lt l rt r ihl ihr =>
    intro bs es h
    simp only [walkFlips] at h
    simp only [PTree.leaves, List.mem_append]
    split_ifs at h
    · exact Or.inr (ihr _ _ h)
    · exact Or.inl (ihl _ _ h)
    · cases bs with
      | nil => exact Or.inr (ihr _ _ h)
      | cons b rest =>
        cases b
        · exact Or.inr (ihr _ _ h)
        · exact Or.inl (ihl _ _ h)

theorem RandomPathSearcher.count_eq_zero (mask : Nat) (p : PTree) (es : ES) (n : Nat)
    (h : es ∉ p.leaves) :
    (allFlips n).countP (fun bs => walkFlips mask p bs == some es) = 0 := by
  rw [List.countP_eq_zero]
  intro bs _ hb
  simp only [beq_iff_eq] at hb
  exact h (walkFlips_mem mask p bs es hb)

/-- Among the sequences of `n` coin flips, `n` at least the height of the subtree, those
that lead the walk to an owned leaf are `2 ^ (n - forks)`, `forks` being the number of
coin flips on the way to that leaf. -/
theorem RandomPathSearcher.count_walkFlips (mask : Nat) (pop : List ES) (es : ES)
    (hes : es ∈ pop) (p : PTree) :
    tagsOk mask pop p = true → es ∈ p.leaves → p.leaves.Nodup →
      ∀ n, p.height ≤ n →
        (allFlips n).countP (fun bs => walkFlips mask p bs == some es)
            = 2 ^ (n - forksTo mask es p) ∧
          forksTo mask es p ≤ p.height := by
  induction p with
  | null => intro _ h; simp [PTree.leaves] at h
  | leaf d =>
    intro _ h _ n _
    simp only [PTree.leaves, List.mem_singleton] at h
    subst h
    refine ⟨?_, by simp [forksTo]⟩
    simp only [walkFlips, beq_self_eq_true, forksTo, Nat.sub_zero]
    rw [List.countP_true, allFlips_length]
  | node lt l rt r ihl ihr =>
    intro hp hmem hnd n hn
    obtain ⟨h1, h2, h3, h4⟩ := (tagsOk_node mask pop lt rt l r).1 hp
    have vl := valid_eq_owns mask pop lt l h1
    have vr := valid_eq_owns mask pop rt r h2
    simp only [PTree.leaves] at hnd hmem
    have hndl : l.leaves.Nodup := (List.nodup_append.1 hnd).1
    have hndr : r.leaves.Nodup := (List.nodup_append.1 hnd).2.1
    simp only [PTree.height] at hn
    have hhl : l.height ≤ n - 1 := by omega
    have hhr : r.height ≤ n - 1 := by omega
    rcases List.mem_append.1 hmem with hl | hr
    · -- the leaf is on the left
      have hnr : es ∉ r.leaves := fun h => List.disjoint_of_nodup_append hnd hl h
      have ol : ownsLeaf pop l = true := (ownsLeaf_iff pop l).2 ⟨es, hl, hes⟩
      rw [ol] at vl
      have hf : forksTo mask es (.node lt l rt r)
          = (if isOurNodeValid mask rt r then 1 else 0) + forksTo mask es l := by
        simp [forksTo, vl, hl]
      by_cases hvr : isOurNodeValid mask rt r = true
      · obtain ⟨m, rfl⟩ : ∃ m, n = m + 1 := ⟨n - 1, by omega⟩
        obtain ⟨c1, c2⟩ := ihl h3 hl hndl m (by omega)
        refine ⟨?_, by rw [hf]; simp only [hvr, if_true, PTree.height]; omega⟩
        rw [hf, countP_allFlips_succ]
        simp only [walkFlips, vl, hvr, Bool.not_true, Bool.false_eq_true, if_false, if_true]
        rw [c1, count_eq_zero mask r es m hnr, Nat.add_zero]
        congr 1
        omega
      · simp only [Bool.not_eq_true] at hvr
        obtain ⟨c1, c2⟩ := ihl h3 hl hndl n (by omega)
        refine ⟨?_, by rw [hf]; simp only [hvr, PTree.height]; simp; omega⟩
        rw [hf]
        simp only [walkFlips, vl, hvr, Bool.not_true, Bool.false_eq_true, if_false,
          Bool.not_false, if_true, Nat.zero_add]
        exact c1
    · -- the leaf is on the right
      have hnl : es ∉ l.leaves := fun h => List.disjoint_of_nodup_append hnd h hr
      have or' : ownsLeaf pop r = true := (ownsLeaf_iff pop r).2 ⟨es, hr, hes⟩
      rw [or'] at vr
      have hf : forksTo mask es (.node lt l rt r)
          = (if isOurNodeValid mask lt l then 1 else 0) + forksTo mask es r := by
        simp [forksTo, vr, hnl]
      by_cases hvl : isOurNodeValid mask lt l = true
      · obtain ⟨m, rfl⟩ : ∃ m, n = m + 1 := ⟨n - 1, by omega⟩
        obtain ⟨c1, c2⟩ := ihr h4 hr hndr m (by omega)
        refine ⟨?_, by rw [hf]; simp only [hvl, if_true, PTree.height]; omega⟩
        rw [hf, countP_allFlips_succ]
        simp only [walkFlips, vr, hvl, Bool.not_true, Bool.false_eq_true, if_false, if_true]
        rw [c1, count_eq_zero mask l es m hnl, Nat.zero_add]
        congr 1
        omega
      · simp only [Bool.not_eq_true] at hvl
        obtain ⟨c1, c2⟩ := ihr h4 hr hndr n (by omega)
        refine ⟨?_, by rw [hf]; simp only [hvl, PTree.height]; simp; omega⟩
        rw [hf]
        simp only [walkFlips, vr, hvl, Bool.not_false, if_true, Nat.zero_add]
        simp only [Bool.false_eq_true, if_false, Nat.zero_add]
        exact c1

end Counting

section SelectProbability

open RandomPathSearcher

/-- C4 as stated fails: in the tree with leaf 1 at depth 1 and leaves 2, 3 at depth 2,
all three owned and the invariant in force, `selectState` returns state 1 on two of the
four equally likely outcomes of two coin flips, that is with probability 1/2, not
1/3 = 1/(number of owned leaves). -/
theorem random_path_select_not_uniform :
    RandomPathSearcher.tagInvariant (RandomPathSearcher.idBitMask 0) [1, 2, 3]
      RandomPathSearcher.exampleOwned = true ∧
    RandomPathSearcher.ownedLeaves [1, 2, 3] RandomPathSearcher.exampleOwned = 3 ∧
    RandomPathSearcher.favourable (RandomPathSearcher.idBitMask 0)
      RandomPathSearcher.exampleOwned 1 2 = 2 ∧
    RandomPathSearcher.selectProbability (RandomPathSearcher.idBitMask 0)
      RandomPathSearcher.exampleOwned 1 2 = 1 / 2 ∧
    RandomPathSearcher.selectProbability (RandomPathSearcher.idBitMask 0)
      RandomPathSearcher.exampleOwned 1 2 ≠
        1 / (RandomPathSearcher.ownedLeaves [1, 2, 3] RandomPathSearcher.exampleOwned : ℚ) := by
  have h1 : favourable (idBitMask 0) exampleOwned 1 2 = 2 := by decide
  have h2 : ownedLeaves [1, 2, 3] exampleOwned = 3 := by decide
  refine ⟨by decide, h2, h1, ?_, ?_⟩
  · rw [selectProbability, h1]; norm_num
  · rw [selectProbability, h1, h2]; norm_num

/-- C4 (amended): under the tag-bit invariant on a tree whose leaves carry distinct
states, when the bits that `selectState` consumes are independent fair coin flips
(`flips` of them, at least the height of the tree), an owned leaf `es` is returned with
probability `1 / 2 ^ k`, where `k` is the number of nodes on the way from the root to
`es` at which both children are valid. -/
theorem random_path_select_probability (n : Nat) (t : ProcessTree) (pop : List ES)
    (es : ES) (flips : Nat) (hwf : t.root.leaves.Nodup)
    (hinv : RandomPathSearcher.tagInvariant (RandomPathSearcher.idBitMask n) pop t = true)
    (hleaf : es ∈ t.root.leaves) (hpop : es ∈ pop) (hflips : t.root.height ≤ flips) :
    RandomPathSearcher.favourable (RandomPathSearcher.idBitMask n) t es flips
      = 2 ^ (flips - RandomPathSearcher.forksTo (RandomPathSearcher.idBitMask n) es t.root) ∧
    RandomPathSearcher.forksTo (RandomPathSearcher.idBitMask n) es t.root ≤ flips ∧
    RandomPathSearcher.selectProbability (RandomPathSearcher.idBitMask n) t es flips
      = 1 / 2 ^ RandomPathSearcher.forksTo (RandomPathSearcher.idBitMask n) es t.root := by
  simp only [tagInvariant, Bool.and_eq_true, beq_iff_eq] at hinv
  have hroot : hasBit (idBitMask n) t.rootTag = true := by
    rw [hinv.1]; exact (ownsLeaf_iff pop t.root).2 ⟨es, hleaf, hpop⟩
  obtain ⟨c1, c2⟩ := count_walkFlips (idBitMask n) pop es hpop t.root hinv.2 hleaf hwf flips
    hflips
  have hfav : favourable (idBitMask n) t es flips
      = 2 ^ (flips - forksTo (idBitMask n) es t.root) := by
    rw [favourable, ← List.countP_eq_length_filter, ← c1]
    congr 1
    funext bs
    rw [selectState_eq_walkFlips (idBitMask n) bs t hroot]
  have hle : forksTo (idBitMask n) es t.root ≤ flips := le_trans c2 hflips
  refine ⟨hfav, hle, ?_⟩
  rw [selectProbability, hfav]
  have hsplit : (2 : ℚ) ^ flips
      = 2 ^ (flips - forksTo (idBitMask n) es t.root) * 2 ^ forksTo (idBitMask n) es t.root := by
    rw [← pow_add]
    congr 1
    omega
  rw [hsplit]
  push_cast
  field_simp

/-- In the three-leaf tree, with five coin flips: state 3 sits behind two forks and is
returned with probability 1/4. -/
theorem random_path_select_probability_witness :
    RandomPathSearcher.selectProbability (RandomPathSearcher.idBitMask 0)
      RandomPathSearcher.exampleOwned 3 5
      = 1 / 2 ^ RandomPathSearcher.forksTo (RandomPathSearcher.idBitMask 0) 3
          RandomPathSearcher.exampleOwned.root :=
  (random_path_select_probability 0 RandomPathSearcher.exampleOwned [1, 2, 3] 3 5
    (by decide) (by decide) (by decide) (by decide) (by decide)).2.2

end SelectProbability

section DeletionAndMerging

open RandomPathSearcher MergingSearcher

theorem RandomPathSearcher.selectForDelitionLoop_eq (states : List ES) :
    ∀ (size : Int) (ret : List ES), 1 ≤ size →
      selectForDelitionLoop states size ret = ret ++ states.take (size - 1).toNat := by
  induction states with
  | nil => intro size ret _; simp [selectForDelitionLoop]
  | cons es rest ih =>
    intro size ret h
    unfold selectForDelitionLoop
    by_cases h1 : size - 1 < 1
    · have : (size - 1).toNat = 0 := by omega
      simp [h1, this]
    · rw [if_neg h1, ih (size - 1) (ret ++ [es]) (by omega)]
      have : (size - 1).toNat = (size - 1 - 1).toNat + 1 := by omega
      rw [this, List.take_succ_cons, List.append_assoc]
      rfl

theorem RandomPathSearcher.selectForDelition_eq_take (states : List ES) (n : Nat)
    (h : 1 ≤ n) : selectForDelition states n = states.take (n - 1) := by
  rw [selectForDelition, selectForDelitionLoop_eq states n [] (by omega)]
  have : ((n : Int) - 1).toNat = n - 1 := by omega
  rw [this]; rfl

/-- C20: for every `n >= 1`, `RandomPathSearcher::selectForDelition(n)` returns the first
`n - 1` states of `executor.states`: the loop decrements `size` before it tests
`size < 1`. On a state set with at least `n` states the result therefore has `n - 1`
elements and is not the list of the first `n` states. -/
theorem select_for_deletion_one_short (states : List ES) (n : Nat) (hn : 1 ≤ n) :
    RandomPathSearcher.selectForDelition states n = states.take (n - 1) ∧
    (n ≤ states.length →
      (RandomPathSearcher.selectForDelition states n).length = n - 1 ∧
      RandomPathSearcher.selectForDelition states n ≠ states.take n) := by
  have h := selectForDelition_eq_take states n hn
  refine ⟨h, fun hlen => ?_⟩
  have hl : (RandomPathSearcher.selectForDelition states n).length = n - 1 := by
    rw [h, List.length_take]
    omega
  refine ⟨hl, fun he => ?_⟩
  rw [he, List.length_take] at hl
  omega

/-- The failing input of C20: on the state set `{1, 2, 3}`, `selectForDelition(2)`
returns the single state 1. -/
theorem select_for_deletion_one_short_witness :
    RandomPathSearcher.selectForDelition [1, 2, 3] 2 = [1] ∧
    (RandomPathSearcher.selectForDelition [1, 2, 3] 2).length = 1 ∧
    RandomPathSearcher.selectForDelition [1, 2, 3] 2 ≠ [1, 2] :=
  ⟨by decide,
    ((select_for_deletion_one_short [1, 2, 3] 2 (by decide)).2 (by decide)).1,
    ((select_for_deletion_one_short [1, 2, 3] 2 (by decide)).2 (by decide)).2⟩

theorem MergingSearcher.scan_spec (groups : List MergeGroup) :
    ∀ (i : Nat) (released : List Nat),
      (∀ pre g post es, groups = pre ++ g :: post → g.hasMergedStates = true →
        g.prioritizeState = some es → (∀ h ∈ pre, yields h = false) →
        scan groups i released = (some es, released ++ expiredFrom i pre)) ∧
      ((∀ h ∈ groups, yields h = false) →
        scan groups i released = (none, released ++ expiredFrom i groups)) := by
  induction groups with
  | nil =>
    intro i released
    refine ⟨?_, fun _ => by simp [scan, expiredFrom]⟩
    intro pre g post es h
    simp at h
  | cons a as ih =>
    intro i released
    constructor
    · intro pre g post es hsplit hg hes hpre
      cases pre with
      | nil =>
        simp only [List.nil_append, List.cons.injEq] at hsplit
        obtain ⟨rfl, -⟩ := hsplit
        simp [scan, hg, hes, expiredFrom]
      | cons p ps =>
        simp only [List.cons_append, List.cons.injEq] at hsplit
        obtain ⟨rfl, hrest⟩ := hsplit
        have hp : yields a = false := hpre a (by simp)
        have hps : ∀ h ∈ ps, yields h = false := fun h hh => hpre h (by simp [hh])
        unfold scan
        by_cases hm : a.hasMergedStates = true
        · have hnone : a.prioritizeState = none := by
            cases hpr : a.prioritizeState with
            | none => rfl
            | some x => simp [yields, hm, hpr] at hp
          simp only [hm, Bool.not_true, Bool.false_eq_true, if_false, hnone]
          rw [(ih (i + 1) (released ++ [i])).1 ps g post es hrest hg hes hps]
          simp [expiredFrom, expired, hm, hnone]
        · simp only [Bool.not_eq_true] at hm
          simp only [hm, Bool.not_false, if_true]
          rw [(ih (i + 1) released).1 ps g post es hrest hg hes hps]
          simp [expiredFrom, expired, hm]
    · intro hall
      have hp : yields a = false := hall a (by simp)
      have hps : ∀ h ∈ as, yields h = false := fun h hh => hall h (by simp [hh])
      unfold scan
      by_cases hm : a.hasMergedStates = true
      · have hnone : a.prioritizeState = none := by
          cases hpr : a.prioritizeState with
          | none => rfl
          | some x => simp [yields, hm, hpr] at hp
        simp only [hm, Bool.not_true, Bool.false_eq_true, if_false, hnone]
        rw [(ih (i + 1) (released ++ [i])).2 hps]
        simp [expiredFrom, expired, hm, hnone]
      · simp only [Bool.not_eq_true] at hm
        simp only [hm, Bool.not_false, if_true]
        rw [(ih (i + 1) released).2 hps]
        simp [expiredFrom, expired, hm]

theorem MergingSearcher.mem_expiredFrom (groups : List MergeGroup) :
    ∀ i j : Nat, j ∈ expiredFrom i groups ↔
      ∃ g, i ≤ j ∧ groups.get? (j - i) = some g ∧ expired g = true := by
  induction groups with
  | nil => intro i j; simp [expiredFrom]
  | cons a as ih =>
    intro i j
    simp only [expiredFrom, List.mem_append, ih (i + 1) j]
    constructor
    · rintro (h | ⟨g, h1, h2, h3⟩)
      · by_cases he : expired a = true
        · simp only [he, if_true, List.mem_singleton] at h
          subst h
          exact ⟨a, le_refl _, by simp, he⟩
        · simp [he] at h
      · refine ⟨g, by omega, ?_, h3⟩
        have : j - i = (j - (i + 1)) + 1 := by omega
        rw [this]; simpa using h2
    · rintro ⟨g, h1, h2, h3⟩
      by_cases hji : j = i
      · subst hji
        simp only [Nat.sub_self, List.get?_cons_zero, Option.some.injEq] at h2
        subst h2
        left; simp [h3]
      · right
        refine ⟨g, by omega, ?_, h3⟩
        have : j - i = (j - (i + 1)) + 1 := by omega
        rw [this] at h2; simpa using h2

end DeletionAndMerging

section MergingOrder

open MergingSearcher

/-- C19: `MergingSearcher::selectState` over a non-empty base. If some group has merged
states and a prioritised state, the state of the first such group is returned, the base
is not asked to select, and `releaseStates` is called exactly on the groups before it
that have merged states but no prioritised state, in order. If no group yields a state,
`releaseStates` is called on all groups with merged states and no prioritised state and
the selection of the base is returned. Groups without merged states and groups after
the returning one are never released. -/
theorem merging_select_order {β : Type} (B : Base β) (b : β)
    (groups : List MergingSearcher.MergeGroup) (hbase : (B.empty b).1 = false) :
    (∀ pre g post es, groups = pre ++ g :: post → g.hasMergedStates = true →
      g.prioritizeState = some es → (∀ h ∈ pre, MergingSearcher.yields h = false) →
      MergingSearcher.selectState B b groups
        = some (es, (B.empty b).2, MergingSearcher.expiredFrom 0 pre) ∧
      ∀ j, j ∈ MergingSearcher.expiredFrom 0 pre ↔
        j < pre.length ∧ ∃ h, groups.get? j = some h ∧ MergingSearcher.expired h = true) ∧
    ((∀ h ∈ groups, MergingSearcher.yields h = false) →
      MergingSearcher.selectState B b groups
        = (B.selectState (B.empty b).2).map
            (fun r => (r.1, r.2, MergingSearcher.expiredFrom 0 groups)) ∧
      ∀ j, j ∈ MergingSearcher.expiredFrom 0 groups ↔
        ∃ h, groups.get? j = some h ∧ MergingSearcher.expired h = true) := by
  constructor
  · intro pre g post es hsplit hg hes hpre
    have hs := (scan_spec groups 0 []).1 pre g post es hsplit hg hes hpre
    refine ⟨by simp [MergingSearcher.selectState, hbase, hs], ?_⟩
    intro j
    rw [mem_expiredFrom pre 0 j]
    simp only [Nat.zero_le, true_and, Nat.sub_zero]
    constructor
    · rintro ⟨h, h1, h2⟩
      have hlt : j < pre.length := by
        by_contra hge
        rw [List.get?_eq_none.2 (by omega)] at h1
        exact absurd h1 (by simp)
      refine ⟨hlt, h, ?_, h2⟩
      rw [hsplit, List.get?_append hlt]; exact h1
    · rintro ⟨hlt, h, h1, h2⟩
      refine ⟨h, ?_, h2⟩
      rw [hsplit, List.get?_append hlt] at h1; exact h1
  · intro hall
    have hs := (scan_spec groups 0 []).2 hall
    refine ⟨by simp [MergingSearcher.selectState, hbase, hs], ?_⟩
    intro j
    rw [mem_expiredFrom groups 0 j]
    simp

/-- Over a DFS base holding state 9 and the groups (expired, no merged states, yields
7): state 7 is returned, the base is untouched and only group 0 is released. -/
theorem merging_select_order_witness :
    MergingSearcher.selectState (flatBase .dfs fun _ => 0) ([9], 0)
      MergingSearcher.exampleGroups = some (7, ([9], 0), [0]) :=
  ((merging_select_order (flatBase .dfs fun _ => 0) ([9], 0) MergingSearcher.exampleGroups
    (by decide)).1 [⟨true, none⟩, ⟨false, some 5⟩] ⟨true, some 7⟩ [] 7 (by decide) (by decide)
    (by decide) (by decide)).1

end MergingOrder

section PendingPartition

open PendingSearcher

theorem flatBase_update (k : FlatKind) (rng : Nat → Nat) (b : List ES × Nat)
    (current : Option ES) (added removed : List ES) :
    (flatBase k rng).update b current added removed
      = (k.update b.1 current added removed).map fun st => (st, b.2) := rfl

/-- C11: the partition invariant of `PendingSearcher::update` over flat bases. Empty
bases satisfy the invariant. If on entry the bases hold no state twice and share none,
every state of the pending base is pending, every state of the normal base other than
`current` is not, `current` is null or in the normal base, the added states are new
and the removed states live, then `update` fails no assertion and afterwards a state
is in the pending base iff it is live and pending, and in the normal base iff it is
live and not pending; a pending `current` has left the normal base and, unless it was
removed, is in the pending base. The invariant then holds again for every later value
of the flags that differs from this one at the next `current` only. -/
theorem pending_update_partition (kN kP : FlatKind) (rng : Nat → Nat)
    (isPending : ES → Bool) (s : PendingSearcher.State (List ES × Nat) (List ES × Nat))
    (current : Option ES) (added removed : List ES)
    (hinv : PendingSearcher.Routed isPending current s)
    (hcur : ∀ c, current = some c → c ∈ s.normal.1)
    (hadd : added.Nodup ∧ ∀ x ∈ added, x ∉ s.normal.1 ∧ x ∉ s.pending.1)
    (hrem : removed.Nodup ∧ ∀ x ∈ removed, x ∈ s.normal.1 ∨ x ∈ s.pending.1) :
    (∀ (t : Span) (f : ES → Bool) (c : Option ES), PendingSearcher.Routed f c
      { normal := ([], 0), pending := ([], 0), maxReviveTime := t }) ∧
    ∃ s', PendingSearcher.update (flatBase kN rng) (flatBase kP rng) isPending s current
        added removed = some s' ∧
      (∀ x, x ∈ s'.pending.1 ↔
        ((x ∈ s.normal.1 ∨ x ∈ s.pending.1 ∨ x ∈ added) ∧ x ∉ removed) ∧
          isPending x = true) ∧
      (∀ x, x ∈ s'.normal.1 ↔
        ((x ∈ s.normal.1 ∨ x ∈ s.pending.1 ∨ x ∈ added) ∧ x ∉ removed) ∧
          isPending x = false) ∧
      (∀ c, current = some c → isPending c = true →
        c ∉ s'.normal.1 ∧ (c ∉ removed → c ∈ s'.pending.1)) ∧
      (∀ (f : ES → Bool) (c : Option ES), (∀ x, some x ≠ c → f x = isPending x) →
        (∀ y, c = some y → y ∈ s'.normal.1) → PendingSearcher.Routed f c s') := by
  obtain ⟨hN, hP, hdisj, hflagN, hflagP⟩ := hinv
  constructor
  · intro t f c
    simp [PendingSearcher.Routed]
  -- the list `moved`: the pending current
  have hmoved : ∀ x, x ∈ (current.toList).filter (fun es => isPending es) ↔
      current = some x ∧ isPending x = true := by
    intro x
    cases current with
    | none => simp
    | some c =>
      simp only [Option.toList_some, List.mem_filter, List.mem_singleton, Option.some.injEq]
      constructor
      · rintro ⟨rfl, h⟩; exact ⟨rfl, h⟩
      · rintro ⟨rfl, h⟩; exact ⟨rfl, h⟩
  have hmovedNodup : ((current.toList).filter (fun es => isPending es)).Nodup := by
    cases current with
    | none => simp
    | some c =>
      apply List.Nodup.filter
      simp
  -- the update of the normal base
  obtain ⟨n, hn1, hn2, hn3⟩ := FlatKind.update_population kN s.normal.1
    (added.filter fun es => !isPending es)
    (removed.filter (fun es => !isPending es) ++ (current.toList).filter fun es => isPending es)
    current hN (hadd.1.filter _)
    (by intro x hx; exact (hadd.2 x (List.mem_of_mem_filter hx)).1)
    (by
      rw [List.nodup_append]
      refine ⟨hrem.1.filter _, hmovedNodup, ?_⟩
      intro x hx hx'
      have h1 := (List.mem_filter.1 hx).2
      have h2 := ((hmoved x).1 hx').2
      simp [h2] at h1)
    (by
      intro x hx
      rcases List.mem_append.1 hx with hx | hx
      · have h1 := List.mem_filter.1 hx
        rcases hrem.2 x h1.1 with h | h
        · exact Or.inl h
        · have := hflagP x h
          simp [this] at h1
      · exact Or.inl (hcur x ((hmoved x).1 hx).1))
    hcur
  -- the update of the pending base
  obtain ⟨p, hp1, hp2, hp3⟩ := FlatKind.update_population kP s.pending.1
    (added.filter (fun es => isPending es) ++ (current.toList).filter fun es => isPending es)
    (removed.filter fun es => isPending es) none hP
    (by
      rw [List.nodup_append]
      refine ⟨hadd.1.filter _, hmovedNodup, ?_⟩
      intro x hx hx'
      exact (hadd.2 x (List.mem_of_mem_filter hx)).1 (hcur x ((hmoved x).1 hx').1))
    (by
      intro x hx
      rcases List.mem_append.1 hx with hx | hx
      · exact (hadd.2 x (List.mem_of_mem_filter hx)).2
      · exact hdisj x (hcur x ((hmoved x).1 hx).1))
    (hrem.1.filter _)
    (by
      intro x hx
      have h1 := List.mem_filter.1 hx
      rcases hrem.2 x h1.1 with h | h
      · right
        apply List.mem_append.2
        right
        rw [hmoved x]
        refine ⟨?_, h1.2⟩
        by_contra hne
        have := hflagN x h (fun e => hne e.symm)
        rw [this] at h1
        exact absurd h1.2 (by simp)
      · exact Or.inl h)
    (by simp)
  have hpend : ∀ x, x ∈ p ↔
      ((x ∈ s.normal.1 ∨ x ∈ s.pending.1 ∨ x ∈ added) ∧ x ∉ removed) ∧
        isPending x = true := by
    intro x
    show x ∈ p ↔ _
    rw [hp3 x]
    simp only [List.mem_append, List.mem_filter, hmoved x]
    constructor
    · rintro ⟨h, hnr⟩
      rcases h with h | ⟨h, hpx⟩ | ⟨hc, hpx⟩
      · have hpx := hflagP x h
        exact ⟨⟨Or.inr (Or.inl h), fun hr => hnr ⟨hr, hpx⟩⟩, hpx⟩
      · exact ⟨⟨Or.inr (Or.inr h), fun hr => hnr ⟨hr, hpx⟩⟩, hpx⟩
      · exact ⟨⟨Or.inl (hcur x hc), fun hr => hnr ⟨hr, hpx⟩⟩, hpx⟩
    · rintro ⟨⟨h, hnr⟩, hpx⟩
      refine ⟨?_, fun hr => hnr hr.1⟩
      rcases h with h | h | h
      · right; right
        refine ⟨?_, hpx⟩
        by_contra hne
        have := hflagN x h (fun e => hne e.symm)
        rw [this] at hpx
        exact absurd hpx (by simp)
      · exact Or.inl h
      · exact Or.inr (Or.inl ⟨h, hpx⟩)
  have hnorm : ∀ x, x ∈ n ↔
      ((x ∈ s.normal.1 ∨ x ∈ s.pending.1 ∨ x ∈ added) ∧ x ∉ removed) ∧
        isPending x = false := by
    intro x
    show x ∈ n ↔ _
    rw [hn3 x]
    simp only [List.mem_append, List.mem_filter, hmoved x, Bool.not_eq_true']
    constructor
    · rintro ⟨h, hnr⟩
      have hnp : isPending x = false := by
        rcases h with h | h
        · by_contra hne
          have hpx : isPending x = true := by simpa using hne
          have hc : current = some x := by
            by_contra hcne
            have := hflagN x h (fun e => hcne e.symm)
            rw [this] at hpx
            exact absurd hpx (by simp)
          exact hnr (Or.inr ⟨hc, hpx⟩)
        · exact h.2
      refine ⟨⟨?_, fun hr => hnr (Or.inl ⟨hr, hnp⟩)⟩, hnp⟩
      rcases h with h | h
      · exact Or.inl h
      · exact Or.inr (Or.inr h.1)
    · rintro ⟨⟨h, hnr⟩, hnp⟩
      refine ⟨?_, ?_⟩
      · rcases h with h | h | h
        · exact Or.inl h
        · have := hflagP x h
          rw [this] at hnp
          exact absurd hnp (by simp)
        · exact Or.inr ⟨h, hnp⟩
      · rintro (hr | hr)
        · exact hnr hr.1
        · rw [hr.2] at hnp
          exact absurd hnp (by simp)
  refine ⟨{ s with normal := (n, s.normal.2), pending := (p, s.pending.2) }, ?_, hpend, hnorm,
    ?_, ?_⟩
  · simp only [PendingSearcher.update, flatBase_update, hn1, hp1, Option.map_some',
      Option.some_bind]
  · intro c hc hpc
    constructor
    · show c ∉ n
      rw [hn3 c]
      intro h
      exact h.2 (List.mem_append.2 (Or.inr ((hmoved c).2 ⟨hc, hpc⟩)))
    · intro hcr
      show c ∈ p
      rw [hp3 c]
      exact ⟨Or.inr (List.mem_append.2 (Or.inr ((hmoved c).2 ⟨hc, hpc⟩))),
        fun h => hcr (List.mem_of_mem_filter h)⟩
  · intro f c hf hc
    refine ⟨hn2, hp2, ?_, ?_, ?_⟩
    · intro x hx hx'
      have h1 := ((hnorm x).1 hx).2
      have h2 := ((hpend x).1 hx').2
      rw [h1] at h2
      exact absurd h2 (by simp)
    · intro x hx hne
      rw [hf x hne]
      exact ((hnorm x).1 hx).2
    · intro x hx
      have hxp : x ∈ p := hx
      have hxn : x ∉ n := by
        intro hxn
        have h1 := ((hnorm x).1 hxn).2
        have h2 := ((hpend x).1 hxp).2
        rw [h1] at h2
        exact absurd h2 (by simp)
      rw [hf x (fun e => hxn (hc x e.symm))]
      exact ((hpend x).1 hxp).2

/-- An update of C11: over the BFS normal base `[1, 2]` and the DFS pending base `[3]`,
`current = 1` has become pending, the pending state 4 and the normal state 5 are
added, and state 3 is removed. -/
theorem pending_update_partition_witness :
    ∃ s', PendingSearcher.update (flatBase .bfs fun _ => 0) (flatBase .dfs fun _ => 0)
        (fun x => decide (x = 1 ∨ x = 3 ∨ x = 4)) PendingSearcher.exampleState (some 1)
        [4, 5] [3] = some s' ∧
      PendingSearcher.Routed (fun x => decide (x = 1 ∨ x = 3 ∨ x = 4)) none s' :=
  match (pending_update_partition .bfs .dfs (fun _ => 0)
      (fun x => decide (x = 1 ∨ x = 3 ∨ x = 4)) PendingSearcher.exampleState (some 1)
      [4, 5] [3] (by decide) (by decide) (by decide) (by decide)).2 with
  | ⟨s', h1, _, _, _, h5⟩ => ⟨s', h1, h5 _ none (fun _ _ => rfl) (fun _ h => by simp at h)⟩

end PendingPartition

section RevivalLemmas

open PendingSearcher

theorem flatBase_empty (k : FlatKind) (rng : Nat → Nat) (b : List ES × Nat) :
    (flatBase k rng).empty b = (b.1.isEmpty, b) := rfl

theorem flatBase_selectState_isSome (k : FlatKind) (rng : Nat → Nat) (b : List ES × Nat)
    (h : b.1 ≠ []) : ∃ r, (flatBase k rng).selectState b = some r := by
  obtain ⟨l, n⟩ := b
  simp only at h
  cases k with
  | dfs =>
    obtain ⟨x, hx⟩ : ∃ x, l.getLast? = some x := ⟨l.getLast h, List.getLast?_eq_getLast _ h⟩
    exact ⟨(x, (l, n)), by simp [flatBase, FlatKind.selectState, DFSSearcher.selectState, hx]⟩
  | bfs =>
    cases l with
    | nil => exact absurd rfl h
    | cons a t =>
      exact ⟨(a, (a :: t, n)), by simp [flatBase, FlatKind.selectState, BFSSearcher.selectState]⟩
  | random =>
    have hlen : 0 < l.length := List.length_pos.2 h
    have hlt : rng n % l.length < l.length := Nat.mod_lt _ hlen
    exact ⟨(l.get ⟨rng n % l.length, hlt⟩, (l, n + 1)), by
      simp [flatBase, RandomSearcher.selectState, List.getElem?_eq_getElem hlt, h]⟩

theorem flatBase_remove (k : FlatKind) (rng : Nat → Nat) (b : List ES × Nat) (es : ES)
    (hm : es ∈ b.1) (hn : b.1.Nodup) :
    (flatBase k rng).update b none [] [es] = some (b.1.erase es, b.2) := by
  cases k with
  | dfs =>
    simp [flatBase, FlatKind.update, DFSSearcher.update,
      DFSSearcher.dfs_removeOne_eq_erase b.1 es hn (List.ne_nil_of_mem hm)]
  | bfs =>
    simp [flatBase, FlatKind.update, BFSSearcher.update, BFSSearcher.moveCurrent,
      BFSSearcher.bfs_removeOne_eq_erase b.1 es hm]
  | random =>
    simp [flatBase, FlatKind.update, RandomSearcher.update,
      RandomSearcher.random_removeOne_eq_erase b.1 es hm]

theorem flatBase_add (k : FlatKind) (rng : Nat → Nat) (b : List ES × Nat) (es : ES) :
    (flatBase k rng).update b none [es] [] = some (b.1 ++ [es], b.2) := by
  cases k <;>
    simp [flatBase, FlatKind.update, DFSSearcher.update, BFSSearcher.update,
      BFSSearcher.moveCurrent, RandomSearcher.update]

theorem Engine.constraintOf_clear_ne (e : Engine) (es x : ES) (h : x ≠ es) :
    (e.clearConstraint es).constraintOf x = e.constraintOf x := by
  unfold Engine.constraintOf Engine.clearConstraint
  simp only
  induction e.pendingConstraint with
  | nil => rfl
  | cons p ps ih =>
    obtain ⟨a, v⟩ := p
    by_cases hp : a = es
    · subst hp
      have hx : (x == a) = false := by simpa using h
      simp only [List.filter, bne_self_eq_false, List.lookup, hx]
      exact ih
    · have hne : (a != es) = true := by simpa using hp
      simp only [List.filter, hne, List.lookup]
      cases hx : (x == a)
      · exact ih
      · rfl

theorem Engine.constraintOf_clear_self (e : Engine) (es : ES) :
    (e.clearConstraint es).constraintOf es = none := by
  unfold Engine.constraintOf Engine.clearConstraint
  simp only
  induction e.pendingConstraint with
  | nil => rfl
  | cons p ps ih =>
    obtain ⟨a, v⟩ := p
    by_cases hp : a = es
    · subst hp
      simp only [List.filter, bne_self_eq_false]
      exact ih
    · have hne : (a != es) = true := by simpa using hp
      have hx : (es == a) = false := by simpa using Ne.symm hp
      simp only [List.filter, hne, List.lookup, hx]
      exact ih

end RevivalLemmas

section RevivalLoop

open PendingSearcher

theorem PendingSearcher.reviveLoop_exit (kN kP : FlatKind) (rng : Nat → Nat)
    (solver : Solver) (fuel : Nat) (s : State (List ES × Nat) (List ES × Nat)) (e : Engine)
    (h : s.normal.1 ≠ []) :
    reviveLoop (flatBase kN rng) (flatBase kP rng) solver (fuel + 1) s e
      = some (false, s, e.setTimeout 0) := by
  have hne : s.normal.1.isEmpty = false := by
    cases hl : s.normal.1 with
    | nil => exact absurd hl h
    | cons a t => rfl
  simp [reviveLoop, flatBase_empty, hne]

theorem PendingSearcher.reviveLoop_done (kN kP : FlatKind) (rng : Nat → Nat)
    (solver : Solver) (fuel : Nat) (s : State (List ES × Nat) (List ES × Nat)) (e : Engine)
    (hn : s.normal.1 = []) (hp : s.pending.1 = []) :
    reviveLoop (flatBase kN rng) (flatBase kP rng) solver (fuel + 1) s e
      = some (true, s, e) := by
  simp [reviveLoop, flatBase_empty, hn, hp]

theorem PendingSearcher.reviveLoop_step (kN kP : FlatKind) (rng : Nat → Nat)
    (solver : Solver) (fuel : Nat) (s : State (List ES × Nat) (List ES × Nat)) (e : Engine)
    (sel : ES × (List ES × Nat)) (expr : Nat)
    (hn : s.normal.1 = []) (hp : s.pending.1 ≠ [])
    (hsel : (flatBase kP rng).selectState s.pending = some sel)
    (hexpr : e.constraintOf sel.1 = some expr) (hw : solver.width expr ≠ 0) :
    reviveLoop (flatBase kN rng) (flatBase kP rng) solver (fuel + 1) s e
      = if (solver.mayBeTrue sel.1 expr).1 && (solver.mayBeTrue sel.1 expr).2 then
          (revive (flatBase kN rng) (flatBase kP rng) { s with pending := sel.2 }
            (queried solver e sel.1 expr) sel.1 expr).bind
              fun r => reviveLoop (flatBase kN rng) (flatBase kP rng) solver fuel r.1 r.2
        else
          (kill (flatBase kP rng) { s with pending := sel.2 }
            (queried solver e sel.1 expr) sel.1).bind
              fun r => reviveLoop (flatBase kN rng) (flatBase kP rng) solver fuel r.1 r.2 := by
  have hne : s.pending.1.isEmpty = false := by
    cases hl : s.pending.1 with
    | nil => exact absurd hl hp
    | cons a t => rfl
  simp only [reviveLoop, flatBase_empty, hn, List.isEmpty_nil, if_true, hne,
    Bool.false_eq_true, if_false, hsel, Option.some_bind, hexpr, hw, queried]

theorem PendingSearcher.revive_flat (kN kP : FlatKind) (rng : Nat → Nat)
    (s : State (List ES × Nat) (List ES × Nat)) (e : Engine) (es : ES) (expr : Nat)
    (hm : es ∈ s.pending.1) (hnd : s.pending.1.Nodup) :
    revive (flatBase kN rng) (flatBase kP rng) s e es expr
      = some ({ s with normal := (s.normal.1 ++ [es], s.normal.2),
                       pending := (s.pending.1.erase es, s.pending.2) },
          revived e es expr) := by
  simp [revive, flatBase_add, flatBase_remove kP rng s.pending es hm hnd]

theorem PendingSearcher.kill_flat (kP : FlatKind) (rng : Nat → Nat)
    (s : State (List ES × Nat) (List ES × Nat)) (e : Engine) (es : ES)
    (hm : es ∈ s.pending.1) (hnd : s.pending.1.Nodup) (hst : es ∈ e.states) :
    kill (flatBase kP rng) s e es
      = some ({ s with pending := (s.pending.1.erase es, s.pending.2) },
          destroyed e es) := by
  simp [kill, flatBase_remove kP rng s.pending es hm hnd, hst]

end RevivalLoop

section RevivalOutcome

open PendingSearcher

theorem PendingSearcher.reviveLoop_outcome (kN kP : FlatKind) (rng : Nat → Nat)
    (solver : Solver) :
    ∀ (fuel : Nat) (s : State (List ES × Nat) (List ES × Nat)) (e : Engine),
      Revivable solver s e → s.pending.1.length < fuel →
      ∃ r new, reviveLoop (flatBase kN rng) (flatBase kP rng) solver fuel s e = some r ∧
        Outcome solver s e r new := by
  intro fuel
  induction fuel with
  | zero => intro s e _ h; omega
  | succ fuel ih =>
    intro s e hrev hlen
    obtain ⟨hnd, hwf⟩ := hrev
    by_cases hn : s.normal.1 = []
    · by_cases hp : s.pending.1 = []
      · refine ⟨(true, s, e), [], reviveLoop_done kN kP rng solver fuel s e hn hp, ?_⟩
        simp [Outcome, hn, hp]
      · obtain ⟨sel, hsel⟩ := flatBase_selectState_isSome kP rng s.pending hp
        obtain ⟨hmem, hsame⟩ := flatBase_selectState kP rng s.pending sel hsel
        obtain ⟨hst, expr, hexpr, hw⟩ := hwf sel.1 hmem
        have hstep := reviveLoop_step kN kP rng solver fuel s e sel expr hn hp hsel hexpr hw
        have hmem2 : sel.1 ∈ ({ s with pending := sel.2 } :
            State (List ES × Nat) (List ES × Nat)).pending.1 := by
          show sel.1 ∈ sel.2.1
          rw [hsame]; exact hmem
        have hnd2 : ({ s with pending := sel.2 } :
            State (List ES × Nat) (List ES × Nat)).pending.1.Nodup := by
          show sel.2.1.Nodup
          rw [hsame]; exact hnd
        have hlenpos : 0 < s.pending.1.length := List.length_pos.2 hp
        have hlen_erase : (s.pending.1.erase sel.1).length + 1 = s.pending.1.length := by
          rw [List.length_erase_of_mem hmem]; omega
        have hnotin : sel.1 ∉ s.pending.1.erase sel.1 := List.Nodup.not_mem_erase hnd
        by_cases hacc : ((solver.mayBeTrue sel.1 expr).1 && (solver.mayBeTrue sel.1 expr).2)
            = true
        · -- the constraint is accepted: the state is revived and the loop ends
          obtain ⟨f, rfl⟩ : ∃ f, fuel = f + 1 := ⟨fuel - 1, by omega⟩
          rw [if_pos hacc, revive_flat kN kP rng _ _ sel.1 expr hmem2 hnd2, Option.some_bind]
            at hstep
          rw [reviveLoop_exit kN kP rng solver f _ _ (by simp)] at hstep
          have h1 : (solver.mayBeTrue sel.1 expr).1 = true := by
            simp only [Bool.and_eq_true] at hacc; exact hacc.1
          have h2 : (solver.mayBeTrue sel.1 expr).2 = true := by
            simp only [Bool.and_eq_true] at hacc; exact hacc.2
          refine ⟨_, [Event.mayBeTrue sel.1 expr e.solverTimeout e.ignoreSolverFailures
              true true, Event.addConstraint sel.1 expr, Event.addToNormal sel.1,
              Event.removeFromPending sel.1, Event.setTimeout 0], hstep, ?_⟩
          refine ⟨?_, ?_, ?_, ?_, ?_, ?_, ?_, ?_, ?_, ?_, ?_, ?_⟩
          · simp [revived, queried, Engine.record, Engine.setTimeout, Engine.clearConstraint,
              h1, h2]
          · simp
          · simp
          · intro x hx; rw [hn] at hx; simp at hx
          · intro x hx
            have hx' : x ∈ sel.2.1.erase sel.1 := hx
            rw [hsame] at hx'
            exact List.mem_of_mem_erase hx'
          · intro ev hev x hx
            simp only [List.mem_cons, List.mem_singleton, List.not_mem_nil, or_false] at hev
            rcases hev with rfl | rfl | rfl | rfl | rfl <;>
              simp only [Event.subject, Option.some.injEq] at hx <;>
              first
                | exact hx ▸ hmem
                | exact absurd hx (by simp)
          · intro x hx
            simp at hx
          · intro x expr' t i hx
            simp only [List.mem_cons, Event.mayBeTrue.injEq, List.mem_singleton,
              List.not_mem_nil, or_false] at hx
            rcases hx with ⟨rfl, rfl, -, -⟩ | hx | hx | hx | hx
            · refine ⟨by simp, ?_, by simp, by simp, ?_, hexpr⟩
              · show sel.1 ∉ sel.2.1.erase sel.1
                rw [hsame]; exact hnotin
              · show (Engine.constraintOf _ sel.1).isSome = false
                have := Engine.constraintOf_clear_self e sel.1
                simp only [Engine.constraintOf] at this ⊢
                simp [revived, queried, Engine.record, Engine.setTimeout, this]
            all_goals exact absurd hx (by simp)
          · intro x hx
            simp at hx
          · show e.pendingRevives + 1 + e.pendingKills + (sel.2.1.erase sel.1).length = _
            rw [hsame]
            omega
          · simp [revived, queried, Engine.record, Engine.setTimeout, Engine.clearConstraint]
          · simp [revived, queried, Engine.record, Engine.setTimeout, Engine.clearConstraint]
        · -- the constraint is rejected: the state is destroyed and the loop goes on
          have hrej : ((solver.mayBeTrue sel.1 expr).1 && (solver.mayBeTrue sel.1 expr).2)
              = false := by simpa using hacc
          rw [if_neg hacc, kill_flat kP rng _ _ sel.1 hmem2 hnd2
            (by simpa [queried, Engine.record, Engine.clearConstraint] using hst),
            Option.some_bind] at hstep
          have hcof : ∀ x, x ≠ sel.1 →
              (destroyed (queried solver e sel.1 expr) sel.1).constraintOf x
                = e.constraintOf x := by
            intro x hx
            have := Engine.constraintOf_clear_ne e sel.1 x hx
            simp only [Engine.constraintOf] at this ⊢
            simpa [destroyed, queried, Engine.record] using this
          obtain ⟨r, new', hr, hout⟩ := ih
            ({ s with pending := (sel.2.1.erase sel.1, sel.2.2) })
            (destroyed (queried solver e sel.1 expr) sel.1)
            (by
              refine ⟨?_, ?_⟩
              · show (sel.2.1.erase sel.1).Nodup
                rw [hsame]; exact hnd.erase _
              · intro x hx
                have hx' : x ∈ s.pending.1.erase sel.1 := by
                  have : x ∈ sel.2.1.erase sel.1 := hx
                  rwa [hsame] at this
                have hxne : x ≠ sel.1 := fun h => hnotin (h ▸ hx')
                obtain ⟨hxs, expr', he', hw'⟩ := hwf x (List.mem_of_mem_erase hx')
                refine ⟨?_, expr', ?_, hw'⟩
                · show x ∈ (queried solver e sel.1 expr).states.erase sel.1
                  exact (List.mem_erase_of_ne hxne).2
                    (by simpa [queried, Engine.record, Engine.clearConstraint] using hxs)
                · rw [hcof x hxne]; exact he')
            (by
              show (sel.2.1.erase sel.1).length < fuel
              rw [hsame]; omega)
          rw [hr] at hstep
          obtain ⟨o1, o2, o3, o4, o5, o6, o7, o8, o9, o10, o11, o12⟩ := hout
          have hsub : ∀ x, x ∈ ({ s with pending := (sel.2.1.erase sel.1, sel.2.2) } :
              State (List ES × Nat) (List ES × Nat)).pending.1 →
              x ∈ s.pending.1 ∧ x ≠ sel.1 := by
            intro x hx
            have hx' : x ∈ s.pending.1.erase sel.1 := by
              have : x ∈ sel.2.1.erase sel.1 := hx
              rwa [hsame] at this
            exact ⟨List.mem_of_mem_erase hx', fun h => hnotin (h ▸ hx')⟩
          refine ⟨r, [Event.mayBeTrue sel.1 expr e.solverTimeout e.ignoreSolverFailures
              (solver.mayBeTrue sel.1 expr).1 (solver.mayBeTrue sel.1 expr).2] ++
              destroySteps sel.1 ++ new', hstep, ?_⟩
          refine ⟨?_, o2, o3, ?_, ?_, ?_, ?_, ?_, ?_, ?_, ?_, ?_⟩
          · rw [o1]
            simp [destroyed, queried, Engine.record, Engine.clearConstraint, destroySteps]
          · intro x hx; exact o4 x hx
          · intro x hx; exact (hsub x (o5 x hx)).1
          · intro ev hev x hx
            simp only [List.mem_append, List.mem_singleton, destroySteps, List.mem_cons,
              List.not_mem_nil, or_false] at hev
            rcases hev with (rfl | rfl | rfl | rfl | rfl) | hev
            · simp only [Event.subject, Option.some.injEq] at hx; exact hx ▸ hmem
            · simp only [Event.subject, Option.some.injEq] at hx; exact hx ▸ hmem
            · simp only [Event.subject, Option.some.injEq] at hx; exact hx ▸ hmem
            · simp only [Event.subject, Option.some.injEq] at hx; exact hx ▸ hmem
            · simp only [Event.subject, Option.some.injEq] at hx; exact hx ▸ hmem
            · exact (hsub x (o6 ev hev x hx)).1
          · intro x hx
            simp only [List.mem_append, List.mem_singleton, destroySteps, List.mem_cons,
              List.not_mem_nil, or_false] at hx
            rcases hx with (hx | hx | hx | hx | hx) | hx
            · exact absurd hx (by simp)
            · exact absurd hx (by simp)
            · exact absurd hx (by simp)
            · exact absurd hx (by simp)
            · simp only [Event.release.injEq] at hx
              subst hx
              exact ⟨expr, hexpr, by simp, hrej⟩
            · obtain ⟨expr', q1, q2, q3⟩ := o7 x hx
              have hxne := (hsub x (o6 _ hx x rfl)).2
              rw [hcof x hxne] at q1
              refine ⟨expr', q1, ?_, q3⟩
              apply List.mem_append_right
              simpa [destroyed, queried, Engine.record, Engine.clearConstraint] using q2
          · intro x expr' t i hx
            simp only [List.mem_append, List.mem_singleton, destroySteps, List.mem_cons,
              List.not_mem_nil, or_false] at hx
            rcases hx with (hx | hx | hx | hx | hx) | hx
            · simp only [Event.mayBeTrue.injEq] at hx
              obtain ⟨-, -, -, -, h1, h2⟩ := hx
              rw [← h1, ← h2] at hrej
              exact absurd hrej (by simp)
            · exact absurd hx (by simp)
            · exact absurd hx (by simp)
            · exact absurd hx (by simp)
            · exact absurd hx (by simp)
            · obtain ⟨q1, q2, q3, q4, q5, q6⟩ := o8 x expr' t i hx
              have hxne := (hsub x (o6 _ hx x rfl)).2
              rw [hcof x hxne] at q6
              refine ⟨q1, q2, ?_, List.mem_append_right _ q4, q5, q6⟩
              simp only [List.mem_append, List.mem_singleton, destroySteps, List.mem_cons,
                List.not_mem_nil, or_false, Event.release.injEq, not_or]
              exact ⟨⟨by simp, by simp, by simp, by simp, hxne⟩, q3⟩
          · intro x hx
            simp only [List.mem_append, List.mem_singleton, destroySteps, List.mem_cons,
              List.not_mem_nil, or_false] at hx
            rcases hx with (hx | hx | hx | hx | hx) | hx
            · exact absurd hx (by simp)
            · exact absurd hx (by simp)
            · exact absurd hx (by simp)
            · exact absurd hx (by simp)
            · simp only [Event.release.injEq] at hx
              subst hx
              exact ⟨[Event.mayBeTrue sel.1 expr e.solverTimeout e.ignoreSolverFailures
                (solver.mayBeTrue sel.1 expr).1 (solver.mayBeTrue sel.1 expr).2], new', rfl⟩
            · obtain ⟨a, b, hab⟩ := o9 x hx
              exact ⟨[Event.mayBeTrue sel.1 expr e.solverTimeout e.ignoreSolverFailures
                (solver.mayBeTrue sel.1 expr).1 (solver.mayBeTrue sel.1 expr).2] ++
                destroySteps sel.1 ++ a, b, by rw [← hab]; simp⟩
          · rw [o10]
            show e.pendingRevives + (e.pendingKills + 1) + (sel.2.1.erase sel.1).length = _
            rw [hsame]
            omega
          · exact o11
          · refine le_trans ?_ o12
            simp [destroyed, queried, Engine.record, Engine.clearConstraint]
    · refine ⟨(false, s, e.setTimeout 0), [Event.setTimeout 0],
        reviveLoop_exit kN kP rng solver fuel s e hn, ?_⟩
      refine ⟨by simp [Engine.setTimeout], by simp [hn], fun _ => hn, fun x hx => hx,
        fun x hx => hx, ?_, by simp, by simp, by simp, by simp [Engine.setTimeout],
        by simp [Engine.setTimeout], by simp [Engine.setTimeout]⟩
      intro ev hev x hx
      simp only [List.mem_singleton] at hev
      subst hev
      simp [Event.subject] at hx

end RevivalOutcome

section RevivalContract

open PendingSearcher

theorem PendingSearcher.example_revivable :
    Revivable exampleSolver exampleStarved exampleEngine := by
  refine ⟨by decide, ?_⟩
  intro x hx
  have hx' : x = 3 ∨ x = 4 := by simpa [exampleStarved] using hx
  rcases hx' with rfl | rfl
  · exact ⟨by decide, 30, rfl, by decide⟩
  · exact ⟨by decide, 40, rfl, by decide⟩

/-- The result of `empty` over flat bases, described through the calls `new` that it has
appended to the trace (the first of them, if the loop is entered, sets the timeout). -/
theorem PendingSearcher.empty_outcome (kN kP : FlatKind) (rng : Nat → Nat)
    (solver : Solver) (fuel : Nat) (s : State (List ES × Nat) (List ES × Nat)) (e : Engine)
    (hrev : Revivable solver s e) (hfuel : s.pending.1.length < fuel) :
    ∃ r new, empty (flatBase kN rng) (flatBase kP rng) solver fuel s e = some r ∧
      Outcome solver s (if s.normal.1 = [] then e.setTimeout s.maxReviveTime else e) r new := by
  by_cases hn : s.normal.1 = []
  · obtain ⟨r, new, h1, h2⟩ := reviveLoop_outcome kN kP rng solver fuel s
      (e.setTimeout s.maxReviveTime) hrev hfuel
    refine ⟨r, new, ?_, by rw [if_pos hn]; exact h2⟩
    simp only [empty, flatBase_empty, hn, List.isEmpty_nil, if_true]
    exact h1
  · have hne : s.normal.1.isEmpty = false := by
      cases hl : s.normal.1 with
      | nil => exact absurd hl hn
      | cons a t => rfl
    refine ⟨(false, s, e), [], by simp [empty, flatBase_empty, hne], ?_⟩
    rw [if_neg hn]
    simp [Outcome, hn]

/-- C12: the revival contract of `PendingSearcher::empty` over flat bases, with the
solver as an oracle and enough fuel for the loop. `empty` returns; it returns true iff
on return both bases are empty; when it returns false the normal base is not empty and
its `selectState` succeeds. If the normal base is empty and the pending base holds the
single state `x` whose pending constraint the solver accepts, `empty` returns false and
on return `x` is in the normal base, not in the pending base, its pending flag is
cleared, and the constraint has been added to `x` through `addConstraint`. -/
theorem pending_empty_revival_contract (kN kP : FlatKind) (rng : Nat → Nat)
    (solver : Solver) (fuel : Nat)
    (s : PendingSearcher.State (List ES × Nat) (List ES × Nat)) (e : Engine)
    (hrev : PendingSearcher.Revivable solver s e) (hfuel : s.pending.1.length < fuel) :
    ∃ r, PendingSearcher.empty (flatBase kN rng) (flatBase kP rng) solver fuel s e = some r ∧
      (r.1 = true ↔ r.2.1.normal.1 = [] ∧ r.2.1.pending.1 = []) ∧
      (r.1 = false → r.2.1.normal.1 ≠ [] ∧
        ∃ sel, PendingSearcher.selectState (flatBase kN rng) r.2.1 = some sel ∧
          sel.1 ∈ r.2.1.normal.1) ∧
      (∀ x expr, s.normal.1 = [] → s.pending.1 = [x] → e.constraintOf x = some expr →
        solver.mayBeTrue x expr = (true, true) →
        r.1 = false ∧ x ∈ r.2.1.normal.1 ∧ x ∉ r.2.1.pending.1 ∧
          r.2.2.isPending x = false ∧ Event.addConstraint x expr ∈ r.2.2.trace ∧
          r.2.2.pendingRevives = e.pendingRevives + 1) := by
  obtain ⟨r, new, hr, hout⟩ := empty_outcome kN kP rng solver fuel s e hrev hfuel
  obtain ⟨o1, o2, o3, -⟩ := hout
  refine ⟨r, hr, o2, ?_, ?_⟩
  · intro hf
    refine ⟨o3 hf, ?_⟩
    obtain ⟨sel, hsel⟩ := flatBase_selectState_isSome kN rng r.2.1.normal (o3 hf)
    refine ⟨(sel.1, { r.2.1 with normal := sel.2 }), by simp [PendingSearcher.selectState, hsel],
      (flatBase_selectState kN rng r.2.1.normal sel hsel).1⟩
  · intro x expr hn hp hexpr hacc
    -- the single iteration of the loop, computed
    obtain ⟨f, rfl⟩ : ∃ f, fuel = f + 2 := ⟨fuel - 2, by rw [hp] at hfuel; simp at hfuel; omega⟩
    obtain ⟨sel, hsel⟩ := flatBase_selectState_isSome kP rng s.pending (by rw [hp]; simp)
    obtain ⟨hmem, hsame⟩ := flatBase_selectState kP rng s.pending sel hsel
    have hx : sel.1 = x := by rw [hp] at hmem; simpa using hmem
    obtain ⟨-, expr', hexpr', hw⟩ := hrev.2 x (by rw [hp]; simp)
    have hee : expr' = expr := by
      rw [hexpr] at hexpr'; exact (Option.some.inj hexpr').symm
    subst hee
    have hstep := reviveLoop_step kN kP rng solver (f + 1) s (e.setTimeout s.maxReviveTime)
      sel expr' hn (by rw [hp]; simp) hsel (by rw [hx]; exact hexpr) hw
    rw [hx, hacc] at hstep
    simp only [Bool.and_self, if_true] at hstep
    rw [revive_flat kN kP rng _ _ x expr' (by show x ∈ sel.2.1; rw [hsame, hp]; simp)
      (by show sel.2.1.Nodup; rw [hsame]; exact hrev.1), Option.some_bind,
      reviveLoop_exit kN kP rng solver f _ _ (by simp)] at hstep
    have hr' : PendingSearcher.empty (flatBase kN rng) (flatBase kP rng) solver (f + 2) s e
        = reviveLoop (flatBase kN rng) (flatBase kP rng) solver (f + 2) s
            (e.setTimeout s.maxReviveTime) := by
      simp [PendingSearcher.empty, flatBase_empty, hn]
    rw [hr', hstep] at hr
    have hr2 := (Option.some.inj hr).symm
    subst hr2
    refine ⟨rfl, by simp, ?_, ?_, ?_, ?_⟩
    · show x ∉ sel.2.1.erase x
      rw [hsame, hp]; simp
    · show (Engine.constraintOf _ x).isSome = false
      have := Engine.constraintOf_clear_self e x
      simp only [Engine.constraintOf] at this ⊢
      simp [revived, queried, Engine.record, Engine.setTimeout, Engine.clearConstraint, this]
      intro a b _ h1 h2
      exact h1 h2.symm
    · simp [revived, queried, Engine.record, Engine.setTimeout, Engine.clearConstraint]
    · simp [revived, queried, Engine.record, Engine.setTimeout, Engine.clearConstraint]

/-- The revival scenario of C12 with a kill before it: the pending base holds 3 and 4;
state 4 is selected first and rejected, state 3 is accepted, and `empty` returns false. -/
theorem pending_empty_revival_contract_witness :
    ∃ r, PendingSearcher.empty (flatBase .bfs fun _ => 0) (flatBase .dfs fun _ => 0)
        PendingSearcher.exampleSolver 3 PendingSearcher.exampleStarved
        PendingSearcher.exampleEngine = some r ∧
      (r.1 = true ↔ r.2.1.normal.1 = [] ∧ r.2.1.pending.1 = []) :=
  match pending_empty_revival_contract .bfs .dfs (fun _ => 0) PendingSearcher.exampleSolver 3
      PendingSearcher.exampleStarved PendingSearcher.exampleEngine
      PendingSearcher.example_revivable (by decide) with
  | ⟨r, h1, h2, _⟩ => ⟨r, h1, h2⟩

/-- C13: `PendingSearcher::empty` over flat bases destroys only failed pending states.
With `new` the calls that `empty` appends to the trace: every released state was in the
pending base, was queried (under the revive timeout), and its query did not return
status and result both true; every state whose query returned true and true is on
return in the normal base, not in the pending base, and is not released; each released
state went through the calls remove-from-pending-base, remove-tree-node,
erase-from-state-set, release, consecutively and in this order; and the number of
pending states before the call is revives + kills + pending states remaining. -/
theorem pending_empty_destroys_failed_only (kN kP : FlatKind) (rng : Nat → Nat)
    (solver : Solver) (fuel : Nat)
    (s : PendingSearcher.State (List ES × Nat) (List ES × Nat)) (e : Engine)
    (hrev : PendingSearcher.Revivable solver s e) (hfuel : s.pending.1.length < fuel) :
    ∃ r new, PendingSearcher.empty (flatBase kN rng) (flatBase kP rng) solver fuel s e
        = some r ∧
      (r.2.2.trace = e.trace ++ new ∨
        r.2.2.trace = e.trace ++ Event.setTimeout s.maxReviveTime :: new) ∧
      (∀ x, Event.release x ∈ new →
        x ∈ s.pending.1 ∧ ∃ expr, e.constraintOf x = some expr ∧
          Event.mayBeTrue x expr s.maxReviveTime e.ignoreSolverFailures
            (solver.mayBeTrue x expr).1 (solver.mayBeTrue x expr).2 ∈ new ∧
          ((solver.mayBeTrue x expr).1 && (solver.mayBeTrue x expr).2) = false) ∧
      (∀ x expr t i, Event.mayBeTrue x expr t i true true ∈ new →
        x ∈ r.2.1.normal.1 ∧ x ∉ r.2.1.pending.1 ∧ Event.release x ∉ new) ∧
      (∀ x, Event.release x ∈ new → PendingSearcher.destroySteps x <:+: new) ∧
      s.pending.1.length
        = (r.2.2.pendingRevives - e.pendingRevives) + (r.2.2.pendingKills - e.pendingKills)
          + r.2.1.pending.1.length := by
  obtain ⟨r, new, hr, hout⟩ := empty_outcome kN kP rng solver fuel s e hrev hfuel
  obtain ⟨o1, o2, o3, o4, o5, o6, o7, o8, o9, o10, o11, o12⟩ := hout
  refine ⟨r, new, hr, ?_, ?_, ?_, o9, ?_⟩
  · by_cases hn : s.normal.1 = []
    · right
      rw [o1, if_pos hn]
      simp [Engine.setTimeout]
    · left
      rw [o1, if_neg hn]
  · intro x hx
    refine ⟨o6 _ hx x rfl, ?_⟩
    obtain ⟨expr, q1, q2, q3⟩ := o7 x hx
    by_cases hn : s.normal.1 = []
    · simp only [if_pos hn] at q1 q2
      exact ⟨expr, q1, q2, q3⟩
    · -- the loop is not entered: nothing is released
      exfalso
      have hne : s.normal.1.isEmpty = false := by
        cases hl : s.normal.1 with
        | nil => exact absurd hl hn
        | cons a t => rfl
      have hr' : PendingSearcher.empty (flatBase kN rng) (flatBase kP rng) solver fuel s e
          = some (false, s, e) := by simp [PendingSearcher.empty, flatBase_empty, hne]
      rw [hr'] at hr
      have hr2 := (Option.some.inj hr).symm
      subst hr2
      rw [if_neg hn] at o1
      have : new = [] := by simpa using o1
      rw [this] at hx
      simp at hx
  · intro x expr t i hx
    obtain ⟨q1, q2, q3, -⟩ := o8 x expr t i hx
    exact ⟨q1, q2, q3⟩
  · have e1 : (if s.normal.1 = [] then e.setTimeout s.maxReviveTime else e).pendingRevives
        = e.pendingRevives := by split <;> rfl
    have e2 : (if s.normal.1 = [] then e.setTimeout s.maxReviveTime else e).pendingKills
        = e.pendingKills := by split <;> rfl
    rw [e1] at o10 o11
    rw [e2] at o10 o12
    omega

/-- The run of C13 on the example: state 4 is rejected and destroyed, state 3 revived. -/
theorem pending_empty_destroys_failed_only_witness :
    ∃ r new, PendingSearcher.empty (flatBase .bfs fun _ => 0) (flatBase .dfs fun _ => 0)
        PendingSearcher.exampleSolver 3 PendingSearcher.exampleStarved
        PendingSearcher.exampleEngine = some r ∧
      (∀ x, Event.release x ∈ new → PendingSearcher.destroySteps x <:+: new) ∧
      PendingSearcher.exampleStarved.pending.1.length
        = (r.2.2.pendingRevives - PendingSearcher.exampleEngine.pendingRevives)
          + (r.2.2.pendingKills - PendingSearcher.exampleEngine.pendingKills)
          + r.2.1.pending.1.length :=
  match pending_empty_destroys_failed_only .bfs .dfs (fun _ => 0)
      PendingSearcher.exampleSolver 3 PendingSearcher.exampleStarved
      PendingSearcher.exampleEngine PendingSearcher.example_revivable (by decide) with
  | ⟨r, new, h1, _, _, _, h5, h6⟩ => ⟨r, new, h1, h5, h6⟩

end RevivalContract

section ZestiDistances

open ZESTIPendingSearcher

theorem ZESTIPendingSearcher.toInt_of_fits (x : Int) (h1 : -2147483648 ≤ x)
    (h2 : x < 2147483648) : toInt x = x := by
  unfold toInt
  rw [Int.emod_eq_of_lt (by omega) (by omega)]
  omega

theorem ZESTIPendingSearcher.smallestDistance_loop (depth : Nat) (ds : List Int) :
    ∀ init : Int,
      ds.foldl (fun sd sDepth =>
          if 0 ≤ diff sDepth depth ∧ diff sDepth depth < sd then diff sDepth depth else sd) init
          ≤ init ∧
      (ds.foldl (fun sd sDepth =>
          if 0 ≤ diff sDepth depth ∧ diff sDepth depth < sd then diff sDepth depth else sd) init
          = init ∨
        ∃ d ∈ ds, 0 ≤ diff d depth ∧ diff d depth =
          ds.foldl (fun sd sDepth =>
            if 0 ≤ diff sDepth depth ∧ diff sDepth depth < sd then diff sDepth depth else sd)
            init) ∧
      ∀ d ∈ ds, 0 ≤ diff d depth →
        ds.foldl (fun sd sDepth =>
          if 0 ≤ diff sDepth depth ∧ diff sDepth depth < sd then diff sDepth depth else sd) init
          ≤ diff d depth := by
  induction ds with
  | nil => intro init; simp
  | cons a t ih =>
    intro init
    simp only [List.foldl_cons]
    obtain ⟨h1, h2, h3⟩ := ih (if 0 ≤ diff a depth ∧ diff a depth < init then diff a depth else init)
    by_cases hc : 0 ≤ diff a depth ∧ diff a depth < init
    · simp only [if_pos hc] at h1 h2 h3 ⊢
      refine ⟨by omega, Or.inr ?_, ?_⟩
      · rcases h2 with h2 | ⟨d, hd, hd0, hd1⟩
        · exact ⟨a, by simp, hc.1, h2.symm⟩
        · exact ⟨d, by simp [hd], hd0, hd1⟩
      · intro d hd hd0
        rcases List.mem_cons.1 hd with rfl | hd
        · exact h1
        · exact h3 d hd hd0
    · simp only [if_neg hc] at h1 h2 h3 ⊢
      refine ⟨h1, ?_, ?_⟩
      · rcases h2 with h2 | ⟨d, hd, hd0, hd1⟩
        · exact Or.inl h2
        · exact Or.inr ⟨d, by simp [hd], hd0, hd1⟩
      · intro d hd hd0
        rcases List.mem_cons.1 hd with rfl | hd
        · have : init ≤ diff d depth := by
            by_contra hlt
            exact hc ⟨hd0, by omega⟩
          omega
        · exact h3 d hd hd0

theorem ZESTIPendingSearcher.distanceOf_table (env : Env) (p : ES) (ps : List ES) :
    ∀ m : List (ES × Int),
      distanceOf (distanceTable env m ps) p
        = if p ∈ ps then smallestDistance env.senstiveDepths (env.depth p) else distanceOf m p := by
  induction ps with
  | nil => intro m; simp [distanceTable]
  | cons a t ih =>
    intro m
    have ih' := ih ((a, smallestDistance env.senstiveDepths (env.depth a)) :: m)
    simp only [distanceTable, List.foldl_cons] at ih' ⊢
    rw [ih']
    by_cases hpt : p ∈ t
    · simp [hpt]
    · by_cases hpa : p = a
      · subst hpa
        simp [hpt, distanceOf, List.lookup]
      · have hne : (p == a) = false := by simpa using hpa
        simp [hpt, hpa, distanceOf, List.lookup, hne]

/-- After `computeDistances` the distance of a pending state is the value of the inner
loop for its depth. -/
theorem ZESTIPendingSearcher.computeDistances_distance (env : Env) (s : State) (p : ES)
    (hp : p ∈ s.pendingStates) :
    distanceOf (computeDistances env s).smallestSensitiveDistance p
      = smallestDistance env.senstiveDepths (env.depth p) := by
  show distanceOf (distanceTable env s.smallestSensitiveDistance s.pendingStates) p = _
  rw [distanceOf_table, if_pos hp]

/-- C14, counterexample: with the sensitive depth 1000000 and a pending state of
depth 0, `computeDistances` stores 999999, although the sensitive depth is not below
the depth of the state and the difference is 1000000. -/
theorem zesti_distance_capped_at_sentinel :
    distanceOf (computeDistances exampleFar examplePending).smallestSensitiveDistance 1 = 999999 ∧
      (1000000 : Int) ∈ exampleFar.senstiveDepths ∧
      (exampleFar.depth 1 : Int) ≤ 1000000 ∧
      (1000000 : Int) - exampleFar.depth 1 = 1000000 := by
  decide

/-- C14, amended: after `computeDistances`, for every pending state `p`, the stored
distance is the minimum of 999999 and of the differences `d - p.depth` (as `int`) that
are not negative, over the sensitive depths `d`: it is at most 999999 and at most each
such difference, it is one of them unless it is 999999, and it is 999999 iff no
sensitive depth has a difference in the range 0 to 999998. The difference as `int` is
the exact one whenever that fits in 32 bits. -/
theorem zesti_distance_capped_minimum (env : ZESTIPendingSearcher.Env)
    (s : ZESTIPendingSearcher.State) (p : ES) (hp : p ∈ s.pendingStates) :
    (distanceOf (computeDistances env s).smallestSensitiveDistance p = 999999 ↔
      ∀ d ∈ env.senstiveDepths,
        ¬(0 ≤ diff d (env.depth p) ∧ diff d (env.depth p) < 999999)) ∧
    (distanceOf (computeDistances env s).smallestSensitiveDistance p ≠ 999999 →
      ∃ d ∈ env.senstiveDepths, 0 ≤ diff d (env.depth p) ∧
        diff d (env.depth p) = distanceOf (computeDistances env s).smallestSensitiveDistance p) ∧
    distanceOf (computeDistances env s).smallestSensitiveDistance p ≤ 999999 ∧
    (∀ d ∈ env.senstiveDepths, 0 ≤ diff d (env.depth p) →
      distanceOf (computeDistances env s).smallestSensitiveDistance p ≤ diff d (env.depth p)) ∧
    (∀ d ∈ env.senstiveDepths, -2147483648 ≤ d - env.depth p → d - env.depth p < 2147483648 →
      diff d (env.depth p) = d - env.depth p) := by
  rw [computeDistances_distance env s p hp]
  obtain ⟨h1, h2, h3⟩ := smallestDistance_loop (env.depth p) env.senstiveDepths 999999
  have hv : smallestDistance env.senstiveDepths (env.depth p)
      = env.senstiveDepths.foldl (fun sd sDepth =>
          if 0 ≤ diff sDepth (env.depth p) ∧ diff sDepth (env.depth p) < sd
          then diff sDepth (env.depth p) else sd) 999999 := rfl
  rw [← hv] at h1 h2 h3
  refine ⟨⟨?_, ?_⟩, ?_, h1, h3, ?_⟩
  · intro he d hd hc
    have := h3 d hd hc.1
    omega
  · intro hall
    rcases h2 with h2 | ⟨d, hd, hd0, hd1⟩
    · exact h2
    · by_contra hne
      exact hall d hd ⟨hd0, by omega⟩
  · intro hne
    rcases h2 with h2 | ⟨d, hd, hd0, hd1⟩
    · exact absurd h2 hne
    · exact ⟨d, hd, hd0, hd1⟩
  · intro d _ h1 h2
    exact toInt_of_fits _ h1 h2

/-- The distance of scenario 6: sensitive depth 10, pending state of depth 7, distance
3, the exact difference. -/
theorem zesti_distance_capped_minimum_witness :
    (1 : ES) ∈ examplePending.pendingStates ∧
      distanceOf (computeDistances exampleEnv examplePending).smallestSensitiveDistance 1 = 3 ∧
      (distanceOf (computeDistances exampleEnv examplePending).smallestSensitiveDistance 1
          ≠ 999999 →
        ∃ d ∈ exampleEnv.senstiveDepths, 0 ≤ diff d (exampleEnv.depth 1) ∧
          diff d (exampleEnv.depth 1)
            = distanceOf (computeDistances exampleEnv examplePending).smallestSensitiveDistance
                1) :=
  ⟨by decide, by decide,
    (zesti_distance_capped_minimum exampleEnv examplePending 1 (by decide)).2.1⟩

/-- C15, counterexample: two pending states at the same distance 3, of depths 7 and
17. The comparator puts the state of depth 7 first, so after `computeDistances` the
back element is the state of depth 17, not the one of lowest depth. -/
theorem zesti_back_is_deepest_of_ties :
    (computeDistances exampleTies exampleTiesPending).pendingStates = [1, 2] ∧
      (computeDistances exampleTies exampleTiesPending).pendingStates.getLast? = some 2 ∧
      distanceOf (computeDistances exampleTies exampleTiesPending).smallestSensitiveDistance 1
        = 3 ∧
      distanceOf (computeDistances exampleTies exampleTiesPending).smallestSensitiveDistance 2
        = 3 ∧
      exampleTies.depth 1 = 7 ∧ exampleTies.depth 2 = 17 ∧
      before exampleTies
        (computeDistances exampleTies exampleTiesPending).smallestSensitiveDistance 1 2 = true ∧
      ¬SortedBy
        (before exampleTies
          (computeDistances exampleTies exampleTiesPending).smallestSensitiveDistance)
        [2, 1] [2, 1] := by
  decide

/-- C15, amended: after `computeDistances` sorts a non-empty `pendingStates`, in any
order that `std::sort` may leave, the back element has the smallest sensitive distance
of all pending states and, among the pending states sharing that distance, the
greatest depth. -/
theorem zesti_back_closest_deepest (env : ZESTIPendingSearcher.Env)
    (s : ZESTIPendingSearcher.State)
    (hsort : SortedBy (before env (computeDistances env s).smallestSensitiveDistance)
      s.pendingStates (computeDistances env s).pendingStates)
    (hne : s.pendingStates ≠ []) :
    ∃ x, (computeDistances env s).pendingStates.getLast? = some x ∧ x ∈ s.pendingStates ∧
      ∀ y ∈ s.pendingStates,
        distanceOf (computeDistances env s).smallestSensitiveDistance x
          ≤ distanceOf (computeDistances env s).smallestSensitiveDistance y ∧
        (distanceOf (computeDistances env s).smallestSensitiveDistance y
            = distanceOf (computeDistances env s).smallestSensitiveDistance x →
          env.depth y ≤ env.depth x) := by
  obtain ⟨hperm, hpair⟩ := hsort
  generalize (computeDistances env s).pendingStates = out at hperm hpair
  generalize (computeDistances env s).smallestSensitiveDistance = m at hpair ⊢
  have hout : out ≠ [] := by
    intro h0
    rw [h0] at hperm
    exact hne (List.Perm.nil_eq hperm).symm
  rcases List.eq_nil_or_concat out with h0 | ⟨l, x, hlx⟩
  · exact absurd h0 hout
  rw [List.concat_eq_append] at hlx
  subst hlx
  refine ⟨x, by simp, (hperm.mem_iff).1 (by simp), ?_⟩
  intro y hy
  have hy' : y ∈ l ++ [x] := (hperm.mem_iff).2 hy
  rcases List.mem_append.1 hy' with hyl | hyx
  · have hb : before env m x y = false := by
      have := (List.pairwise_append.1 hpair).2.2 y hyl x (by simp)
      exact this
    unfold before at hb
    by_cases he : distanceOf m x = distanceOf m y
    · rw [if_pos he] at hb
      have : ¬ env.depth x < env.depth y := by simpa using hb
      exact ⟨by omega, fun _ => by omega⟩
    · rw [if_neg he] at hb
      have : ¬ distanceOf m x > distanceOf m y := by simpa using hb
      exact ⟨by omega, fun h => absurd h.symm he⟩
  · have : y = x := by simpa using hyx
    subst this
    exact ⟨le_refl _, fun _ => le_refl _⟩

/-- The sort of the two states at distance 3. -/
theorem zesti_back_closest_deepest_witness :
    ∃ x, (computeDistances exampleTies exampleTiesPending).pendingStates.getLast? = some x ∧
      x ∈ exampleTiesPending.pendingStates ∧
      ∀ y ∈ exampleTiesPending.pendingStates,
        distanceOf (computeDistances exampleTies exampleTiesPending).smallestSensitiveDistance x
          ≤ distanceOf (computeDistances exampleTies exampleTiesPending).smallestSensitiveDistance
              y ∧
        (distanceOf (computeDistances exampleTies exampleTiesPending).smallestSensitiveDistance y
            = distanceOf
                (computeDistances exampleTies exampleTiesPending).smallestSensitiveDistance x →
          exampleTies.depth y ≤ exampleTies.depth x) :=
  zesti_back_closest_deepest exampleTies exampleTiesPending (by decide) (by decide)

end ZestiDistances

section ZestiRevival

open ZESTIPendingSearcher

/-- One iteration of the loop of `empty` on a state that is not revived. -/
theorem ZESTIPendingSearcher.reviveLoop_kill (env : Env) (fuel : Nat) (s : State) (e : Engine)
    (base : List ES) (q : ES) (hn : s.normalStates = []) (hp : s.pendingStates = base ++ [q])
    (hq : distanceOf s.smallestSensitiveDistance q = 999999 ∨ env.attemptToRevive q = false) :
    reviveLoop env (fuel + 1) s e
      = reviveLoop env fuel { s with pendingStates := base }
          (terminated e q (distanceOf s.smallestSensitiveDistance q != 999999)) := by
  have h1 : (s.normalStates.isEmpty && !s.pendingStates.isEmpty) = true := by simp [hn, hp]
  have h2 : s.pendingStates.getLast? = some q := by simp [hp]
  have h3 : s.pendingStates.dropLast = base := by simp [hp]
  rw [reviveLoop]
  simp only [h1, h2, h3, if_true]
  by_cases hd : distanceOf s.smallestSensitiveDistance q = 999999
  · simp [hd]
  · have ha : env.attemptToRevive q = false := hq.resolve_left hd
    have hd' : (distanceOf s.smallestSensitiveDistance q != 999999) = true := by simpa using hd
    simp [hd', ha]

/-- The iterations of the loop of `empty` on the states `post` at the back of
`pendingStates`, none of which is revived. -/
theorem ZESTIPendingSearcher.reviveLoop_kills (env : Env) (fuel : Nat) (base post : List ES) :
    ∀ (s : State) (e : Engine), s.normalStates = [] → s.pendingStates = base ++ post →
      (∀ q ∈ post, distanceOf s.smallestSensitiveDistance q = 999999 ∨
        env.attemptToRevive q = false) →
      reviveLoop env (fuel + post.length) s e
        = reviveLoop env fuel { s with pendingStates := base }
            (post.foldr
              (fun q e1 => terminated e1 q (distanceOf s.smallestSensitiveDistance q != 999999))
              e) := by
  induction post using List.reverseRecOn with
  | nil =>
    intro s e _ hp _
    have : s = { s with pendingStates := base } := by
      cases s
      simp at hp
      simp [hp]
    simp only [List.length_nil, Nat.add_zero, List.foldr_nil]
    rw [← this]
  | append_singleton l q ih =>
    intro s e hn hp hfail
    have hstep := reviveLoop_kill env (fuel + l.length) s e (base ++ l) q hn
      (by rw [hp, List.append_assoc]) (hfail q (by simp))
    rw [List.length_append, List.length_singleton, ← Nat.add_assoc, hstep]
    rw [ih { s with pendingStates := base ++ l } _ hn rfl
      (fun x hx => hfail x (by simp [hx]))]
    simp [List.foldr_append]

/-- The iteration of the loop of `empty` that revives the back element `p`, followed by
the exit of the loop. -/
theorem ZESTIPendingSearcher.reviveLoop_revive (env : Env) (fuel : Nat) (s : State) (e : Engine)
    (pre : List ES) (p : ES) (hm : 0 < env.zestiBound)
    (hn : s.normalStates = []) (hp : s.pendingStates = pre ++ [p])
    (hd : distanceOf s.smallestSensitiveDistance p ≠ 999999)
    (h0 : 0 ≤ distanceOf s.smallestSensitiveDistance p)
    (ha : env.attemptToRevive p = true)
    (hfits : (env.depth p : Int)
      + max 1 (env.zestiBound * distanceOf s.smallestSensitiveDistance p) < 2147483648) :
    reviveLoop env (fuel + 2) s e
      = some
          ({ s with
             normalSearcher := s.normalSearcher ++ [p],
             normalStates := [p],
             pendingStates := pre,
             currentBaseDepth := env.depth p,
             bound := max 1 (env.zestiBound * distanceOf s.smallestSensitiveDistance p) },
            revived e p) := by
  have hprod : 0 ≤ env.zestiBound * distanceOf s.smallestSensitiveDistance p :=
    mul_nonneg (le_of_lt hm) h0
  generalize hP : env.zestiBound * distanceOf s.smallestSensitiveDistance p = P at hfits hprod
  have hdepth : toInt (env.depth p) = env.depth p :=
    toInt_of_fits _ (by omega) (by omega)
  have hbound : (if toInt P = 0 then 1 else toInt P) = max 1 P := by
    rw [toInt_of_fits P (by omega) (by omega)]
    split_ifs with h
    · omega
    · omega
  have hnp : (revived e p).isPending p = false := by
    have := Engine.constraintOf_clear_self e p
    simp only [Engine.constraintOf] at this
    simp [revived, Engine.isPending, Engine.constraintOf, Engine.record, Engine.clearConstraint,
      this]
    intro a b _ h1 h2
    exact h1 h2.symm
  have hin : ∀ st : State, st.currentBaseDepth = env.depth p → st.bound = max 1 P →
      outOfBound env st p = false := by
    intro st hc hb
    simp only [outOfBound, hc, hb, hdepth]
    rw [toInt_of_fits _ (by omega) (by omega)]
    simp
  have h1 : (s.normalStates.isEmpty && !s.pendingStates.isEmpty) = true := by simp [hn, hp]
  have h2 : s.pendingStates.getLast? = some p := by simp [hp]
  have h3 : s.pendingStates.dropLast = pre := by simp [hp]
  have hd' : (distanceOf s.smallestSensitiveDistance p != 999999) = true := by simpa using hd
  rw [reviveLoop]
  simp only [h1, h2, h3, hd', ha, if_true]
  have hupd : update env (revived e p).isPending
      (window env { s with pendingStates := pre } p) none [p] []
      = some { s with
               normalSearcher := s.normalSearcher ++ [p],
               normalStates := [p],
               pendingStates := pre,
               currentBaseDepth := env.depth p,
               bound := max 1 (env.zestiBound * distanceOf s.smallestSensitiveDistance p) } := by
    simp [update, hnp, hin, DFSSearcher.update, eraseAll, window, hn, hP, hbound, hdepth,
      DFSSearcher.removeOne]
  rw [hupd, Option.some_bind, reviveLoop]
  simp [hP]

end ZestiRevival

section ZestiWindow

open ZESTIPendingSearcher

/-- C16, counterexample: with the multiplier −1, sensitive depths {10} and a pending
state of depth 7 whose revival succeeds, `empty` leaves `bound = -3`, not
`max(1, -1 x 3) = 1`; the revived state is out of its own window, so it is queued in
`toDelete`, it is not in the normal population, and `empty` returns true. -/
theorem zesti_negative_multiplier_window :
    (empty exampleNegative 2 examplePending exampleEngine).map
        (fun r => (r.1, r.2.1.currentBaseDepth, r.2.1.bound, r.2.1.normalStates,
          r.2.1.normalSearcher, r.2.1.toDelete, r.2.2.trace))
      = some (true, 7, -3, [], [], [1], [Event.attemptToRevive 1 true]) ∧
    exampleNegative.zestiBound = -1 ∧
    distanceOf (prepare exampleNegative examplePending).smallestSensitiveDistance 1 = 3 ∧
    max 1 (exampleNegative.zestiBound * 3) = 1 := by
  refine ⟨rfl, by decide, by decide, by decide⟩

/-- C16, amended: the window set by a revival in `ZESTIPendingSearcher::empty`. With
the multiplier 0, `empty` returns true and makes no call on the engine. With a
positive multiplier: when the normal states are empty, the pending states after the
opening are `pre`, `p`, `post`, no state of `post` is revived (its distance is 999999
or the attempt fails), `p` has a distance other than 999999 and its revival succeeds,
and `p.depth + max(1, multiplier x dist)` fits an `int`, then `empty` returns false
and on return `currentBaseDepth = p.depth`, `bound = max(1, multiplier x dist)`, `p` is
the one normal state and is in the DFS searcher, the pending states are `pre`, and the
engine has terminated the states of `post`, from the back, and revived `p`. -/
theorem zesti_revival_window (env : ZESTIPendingSearcher.Env) (fuel : Nat)
    (s : ZESTIPendingSearcher.State) (e : Engine) :
    (env.zestiBound = 0 → empty env fuel s e = some (true, prepare env s, e)) ∧
    ∀ (p : ES) (pre post : List ES), 0 < env.zestiBound →
      (prepare env s).normalStates = [] →
      (prepare env s).pendingStates = pre ++ p :: post →
      (∀ q ∈ post, distanceOf (prepare env s).smallestSensitiveDistance q = 999999 ∨
        env.attemptToRevive q = false) →
      distanceOf (prepare env s).smallestSensitiveDistance p ≠ 999999 →
      0 ≤ distanceOf (prepare env s).smallestSensitiveDistance p →
      env.attemptToRevive p = true →
      (env.depth p : Int)
        + max 1 (env.zestiBound * distanceOf (prepare env s).smallestSensitiveDistance p)
        < 2147483648 →
      post.length + 2 ≤ fuel →
      ∃ s1 e1, empty env fuel s e = some (false, s1, e1) ∧
        s1.currentBaseDepth = env.depth p ∧
        s1.bound
          = max 1 (env.zestiBound * distanceOf (prepare env s).smallestSensitiveDistance p) ∧
        s1.normalStates = [p] ∧
        s1.normalSearcher = (prepare env s).normalSearcher ++ [p] ∧
        s1.pendingStates = pre ∧
        s1.toDelete = (prepare env s).toDelete ∧
        e1 = revived
          (post.foldr
            (fun q e2 => terminated e2 q
              (distanceOf (prepare env s).smallestSensitiveDistance q != 999999))
            e)
          p := by
  refine ⟨fun h0 => by simp [empty, h0], ?_⟩
  intro p pre post hm hn hp hpost hd h0 ha hfits hfuel
  obtain ⟨k, rfl⟩ : ∃ k, fuel = (k + 2) + post.length := ⟨fuel - 2 - post.length, by omega⟩
  have hne : env.zestiBound ≠ 0 := by omega
  have hkills := reviveLoop_kills env (k + 2) (pre ++ [p]) post (prepare env s) e hn
    (by rw [hp]; simp) hpost
  have hrev := reviveLoop_revive env k { prepare env s with pendingStates := pre ++ [p] }
    (post.foldr
      (fun q e2 => terminated e2 q
        (distanceOf (prepare env s).smallestSensitiveDistance q != 999999)) e)
    pre p hm hn rfl hd h0 ha hfits
  rw [hrev] at hkills
  refine ⟨{ prepare env s with
            normalSearcher := (prepare env s).normalSearcher ++ [p],
            normalStates := [p],
            pendingStates := pre,
            currentBaseDepth := env.depth p,
            bound :=
              max 1 (env.zestiBound * distanceOf (prepare env s).smallestSensitiveDistance p) },
    _, ?_, rfl, rfl, rfl, rfl, rfl, rfl, rfl⟩
  simp only [empty, if_neg hne, hkills, Option.map_some']
  simp [FlatKind.empty]

/-- Scenario 6 of the spec: sensitive depths {10}, a pending state of depth 7 and the
multiplier 2 give the distance 3, `currentBaseDepth = 7` and `bound = 6`. -/
theorem zesti_revival_window_witness :
    (empty exampleSimple 2 examplePending exampleEngine
      = some (true, prepare exampleSimple examplePending, exampleEngine)) ∧
    ∃ s1 e1, empty exampleEnv 2 examplePending exampleEngine = some (false, s1, e1) ∧
      s1.currentBaseDepth = 7 ∧ s1.bound = 6 ∧ s1.normalStates = [1] ∧
      s1.normalSearcher = [1] ∧ s1.pendingStates = [] ∧ s1.toDelete = [] ∧
      e1 = revived exampleEngine 1 :=
  ⟨(zesti_revival_window exampleSimple 2 examplePending exampleEngine).1 (by decide),
    (zesti_revival_window exampleEnv 2 examplePending exampleEngine).2 1 [] [] (by decide)
      (by decide) (by decide) (by simp) (by decide) (by decide) (by decide) (by decide)
      (by decide)⟩

end ZestiWindow

section ZestiAdmission

open ZESTIPendingSearcher

theorem ZESTIPendingSearcher.mem_eraseAll (removed : List ES) :
    ∀ (l : List ES) (x : ES), x ∈ l → x ∉ removed → x ∈ eraseAll l removed := by
  induction removed with
  | nil => intro l x h _; exact h
  | cons r t ih =>
    intro l x h hx
    have hne : x ≠ r := fun h0 => hx (by simp [h0])
    exact ih (l.erase r) x ((List.mem_erase_of_ne hne).2 h) (fun h0 => hx (by simp [h0]))

/-- One removal from a non-empty DFS vector returns, removes nothing but `es`, and adds
nothing. -/
theorem DFSSearcher.removeOne_some (l : List ES) (es : ES) (hne : l ≠ []) :
    ∃ l1, DFSSearcher.removeOne l es = some l1 ∧
      (∀ x, x ≠ es → x ∈ l → x ∈ l1) ∧ ∀ x ∈ l1, x ∈ l := by
  have hemp : l.isEmpty = false := by
    cases l with
    | nil => exact absurd rfl hne
    | cons a t => rfl
  unfold DFSSearcher.removeOne
  rw [hemp]
  simp only [Bool.false_eq_true, if_false]
  split_ifs with hl
  · refine ⟨_, rfl, ?_, fun x hx => List.mem_of_mem_dropLast hx⟩
    intro x hx hmem
    rcases List.eq_nil_or_concat l with h0 | ⟨l1, b, hb⟩
    · exact absurd h0 hne
    · rw [List.concat_eq_append] at hb
      subst hb
      have hbe : b = es := by simpa using hl
      subst hbe
      rw [List.dropLast_concat]
      rcases List.mem_append.1 hmem with h1 | h1
      · exact h1
      · exact absurd (by simpa using h1) hx
  · exact ⟨_, rfl, fun x hx hmem => (List.mem_erase_of_ne hx).2 hmem,
      fun x hx => List.mem_of_mem_erase hx⟩

/-- A member of the DFS vector that is not removed keeps the vector non-empty: the
removal loop returns and the member stays. -/
theorem DFSSearcher.mem_update (removed : List ES) :
    ∀ (l : List ES) (x : ES), x ∈ l → x ∉ removed →
      ∃ l1, removed.foldlM DFSSearcher.removeOne l = some l1 ∧ x ∈ l1 := by
  induction removed with
  | nil => intro l x h _; exact ⟨l, rfl, h⟩
  | cons r t ih =>
    intro l x h hx
    have hne : x ≠ r := fun h0 => hx (by simp [h0])
    obtain ⟨l2, h2, h3, -⟩ := DFSSearcher.removeOne_some l r (List.ne_nil_of_mem h)
    obtain ⟨l1, h4, h5⟩ := ih l2 x (h3 x hne h) (fun h0 => hx (by simp [h0]))
    exact ⟨l1, by simp only [List.foldlM_cons, h2, Option.bind_eq_bind, Option.some_bind]; exact h4, h5⟩

/-- The result of `update` when its assertion holds and the removal loop of the DFS
searcher returns. -/
theorem ZESTIPendingSearcher.update_some (env : Env) (isPending : ES → Bool) (s : State)
    (current : Option ES) (addedStates removedStates searcher : List ES)
    (hassert : s.hasSelectedState = true →
      (∀ x ∈ addedStates, isPending x = false) ∧ ∀ c, current = some c → isPending c = false)
    (hdfs : List.foldlM DFSSearcher.removeOne
      (s.normalSearcher ++ addedStates.filter fun es => !isPending es && !outOfBound env s es)
      ((removedStates.filter fun es => !isPending es) ++ current.toList.filter isPending)
      = some searcher) :
    update env isPending s current addedStates removedStates
      = some
        { s with
          normalSearcher := searcher,
          normalStates :=
            eraseAll
              (s.normalStates
                ++ addedStates.filter fun es => !isPending es && !outOfBound env s es)
              ((removedStates.filter fun es => !isPending es)
                ++ current.toList.filter isPending),
          pendingStates :=
            eraseAll
              (s.pendingStates
                ++ (addedStates.filter isPending ++ current.toList.filter isPending))
              (removedStates.filter isPending),
          toDelete :=
            s.toDelete ++ (addedStates.filter fun es => !isPending es && outOfBound env s es)
              ++ (current.toList.filter fun c => !isPending c && outOfBound env s c).filter
                  fun c => !removedStates.contains c } := by
  have hsome : (s.hasSelectedState &&
      !((addedStates.filter isPending) ++ (current.toList.filter isPending)).isEmpty) = false := by
    cases hsel : s.hasSelectedState with
    | false => rfl
    | true =>
      obtain ⟨h1, h2⟩ := hassert hsel
      have e1 : addedStates.filter isPending = [] := by
        rw [List.filter_eq_nil_iff]
        intro x hx
        simp [h1 x hx]
      have e2 : current.toList.filter isPending = [] := by
        rw [List.filter_eq_nil_iff]
        intro x hx
        have : current = some x := by simpa [Option.mem_toList] using hx
        simp [h2 x this]
      simp [e1, e2]
  have hdfs' : DFSSearcher.update s.normalSearcher
      (if (current.toList.filter fun c => !isPending c && outOfBound env s c).isEmpty
        then current else none)
      (addedStates.filter fun es => !isPending es && !outOfBound env s es)
      ((removedStates.filter fun es => !isPending es) ++ current.toList.filter isPending)
      = some searcher := hdfs
  simp only [update, hsome, Bool.false_eq_true, if_false, hdfs', Option.map_some']

/-- What a returned `update` has computed. -/
theorem ZESTIPendingSearcher.update_inv (env : Env) (isPending : ES → Bool) (s s1 : State)
    (current : Option ES) (addedStates removedStates : List ES)
    (h : update env isPending s current addedStates removedStates = some s1) :
    List.foldlM DFSSearcher.removeOne
      (s.normalSearcher ++ addedStates.filter fun es => !isPending es && !outOfBound env s es)
      ((removedStates.filter fun es => !isPending es) ++ current.toList.filter isPending)
      = some s1.normalSearcher ∧
    s1.normalStates
      = eraseAll
          (s.normalStates ++ addedStates.filter fun es => !isPending es && !outOfBound env s es)
          ((removedStates.filter fun es => !isPending es) ++ current.toList.filter isPending) ∧
    s1.pendingStates
      = eraseAll
          (s.pendingStates
            ++ (addedStates.filter isPending ++ current.toList.filter isPending))
          (removedStates.filter isPending) := by
  unfold update at h
  simp only at h
  by_cases hc : (s.hasSelectedState &&
      !((addedStates.filter isPending) ++ (current.toList.filter isPending)).isEmpty) = true
  · rw [if_pos hc] at h
    exact absurd h (by simp)
  rw [if_neg hc, Option.map_eq_some'] at h
  obtain ⟨searcher, hs, h1⟩ := h
  subst h1
  exact ⟨hs, rfl, rfl⟩

theorem ZESTIPendingSearcher.eraseAll_nodup (removed : List ES) :
    ∀ l : List ES, l.Nodup → (eraseAll l removed).Nodup := by
  induction removed with
  | nil => intro l h; exact h
  | cons r t ih => intro l h; exact ih (l.erase r) (h.erase r)

/-- C18, the divergence: for every update in which `current` is a non-pending member of
the normal population, is out of bound (`currentBaseDepth >= 0` and `current.depth >
currentBaseDepth + bound`) and is not among the removed states, `update` returns with
`current` in `toDelete` and still in `normalStates` and in the DFS searcher: nothing
removes it from the population. -/
theorem zesti_out_of_bound_current_stays (env : ZESTIPendingSearcher.Env)
    (isPending : ES → Bool) (s : ZESTIPendingSearcher.State) (c : ES)
    (addedStates removedStates : List ES)
    (hassert : s.hasSelectedState = true → ∀ x ∈ addedStates, isPending x = false)
    (hnp : isPending c = false) (hout : outOfBound env s c = true)
    (hrem : c ∉ removedStates) (hN : c ∈ s.normalStates) (hS : c ∈ s.normalSearcher) :
    ∃ s1, update env isPending s (some c) addedStates removedStates = some s1 ∧
      c ∈ s1.toDelete ∧ c ∈ s1.normalStates ∧ c ∈ s1.normalSearcher := by
  have hmoved : (some c).toList.filter isPending = [] := by
    simp [Option.toList, hnp]
  have hnr : c ∉ (removedStates.filter fun es => !isPending es)
      ++ (some c).toList.filter isPending := by
    rw [hmoved, List.append_nil]
    exact fun h => hrem (List.mem_filter.1 h).1
  obtain ⟨searcher, hd, hc⟩ := DFSSearcher.mem_update
    ((removedStates.filter fun es => !isPending es) ++ (some c).toList.filter isPending)
    (s.normalSearcher ++ addedStates.filter fun es => !isPending es && !outOfBound env s es)
    c (List.mem_append_left _ hS) hnr
  refine ⟨_, update_some env isPending s (some c) addedStates removedStates searcher
    (fun hsel => ⟨hassert hsel, fun x hx => by
      have : c = x := by simpa using hx
      rw [← this]; exact hnp⟩) hd, ?_, ?_, hc⟩
  · show c ∈ s.toDelete ++ _ ++ _
    refine List.mem_append_right _ ?_
    simp [Option.toList, hnp, hout, hrem]
  · show c ∈ eraseAll _ _
    exact mem_eraseAll _ _ _ (List.mem_append_left _ hN) hnr

/-- The failing input of C18: window base 7, bound 6, and the population is the one
state 2, of depth 14, not pending. After `update(current = 2, {}, {})` the state is in
`toDelete` and still in the population; the following `selectState` calls
`terminateState` on it and returns it. -/
theorem zesti_out_of_bound_current_stays_witness :
    (exampleEnv.depth 2 = 14 ∧ exampleDeep.currentBaseDepth = 7 ∧ exampleDeep.bound = 6) ∧
    (update exampleEnv (fun _ => false) exampleDeep (some 2) [] []).map
        (fun r => (r.normalSearcher, r.normalStates, r.toDelete))
      = some ([2], [2], [2]) ∧
    ((update exampleEnv (fun _ => false) exampleDeep (some 2) [] []).bind
        fun r => (selectState exampleEnv r exampleEngine).map
          fun x => (x.1, x.2.1.normalSearcher, x.2.2.trace))
      = some (2, [2], [Event.terminateState 2]) ∧
    ∃ s1, update exampleEnv (fun _ => false) exampleDeep (some 2) [] [] = some s1 ∧
      2 ∈ s1.toDelete ∧ 2 ∈ s1.normalStates ∧ 2 ∈ s1.normalSearcher :=
  ⟨by decide, by decide, by decide,
    zesti_out_of_bound_current_stays exampleEnv (fun _ => false) exampleDeep 2 [] []
      (fun _ _ _ => rfl) rfl (by decide) (by decide) (by decide) (by decide)⟩

end ZestiAdmission

section WeightedTheorems

open WeightedRandomSearcher

/-- C21, counterexample: with `md2u = 5`, `getWeight` under `MinDistToUncovered` is
1/25, not `1/max(5, 10000)^2 = 1/10000^2`. -/
theorem min_dist_weight_uses_small_distance :
    exampleNear.md2u = 5 ∧
    getWeight .MinDistToUncovered exampleNear = 1 / 25 ∧
    getWeight .MinDistToUncovered exampleNear ≠ 1 / ((max 5 10000 : Nat) : ℚ) ^ 2 := by
  refine ⟨rfl, ?_, ?_⟩ <;> norm_num [getWeight, invMD2U, exampleNear]

/-- C21, amended: under `MinDistToUncovered`, `getWeight` is `1/d^2` with `d = md2u` when
`md2u` is not 0 and `d = 10000` when it is 0 (in exact arithmetic). It equals
`1/max(md2u, 10000)^2` exactly when `md2u` is 0 or at least 10000. -/
theorem min_dist_weight_formula (r : WeightedRandomSearcher.Reading) :
    getWeight .MinDistToUncovered r
      = 1 / ((if r.md2u = 0 then 10000 else r.md2u : Nat) : ℚ) ^ 2 ∧
    (getWeight .MinDistToUncovered r = 1 / ((max r.md2u 10000 : Nat) : ℚ) ^ 2 ↔
      r.md2u = 0 ∨ 10000 ≤ r.md2u) := by
  have h1 : getWeight .MinDistToUncovered r
      = 1 / ((if r.md2u = 0 then 10000 else r.md2u : Nat) : ℚ) ^ 2 := by
    simp only [getWeight, invMD2U]
    by_cases h : r.md2u = 0
    · simp [h]; ring
    · simp [h]; ring
  refine ⟨h1, ?_⟩
  rw [h1]
  by_cases h : r.md2u = 0
  · simp [h]
  · simp only [if_neg h]
    have hpos : (0 : ℚ) < (r.md2u : ℚ) := by exact_mod_cast Nat.pos_of_ne_zero h
    have hmax : (0 : ℚ) < ((max r.md2u 10000 : Nat) : ℚ) := by
      exact_mod_cast lt_of_lt_of_le (by norm_num) (le_max_right r.md2u 10000)
    constructor
    · intro he
      right
      have he2 : ((r.md2u : ℚ)) ^ 2 = (((max r.md2u 10000 : Nat) : ℚ)) ^ 2 := by
        have := congrArg (fun x : ℚ => 1 / x) he
        simpa using this
      have he3 : (r.md2u : ℚ) = ((max r.md2u 10000 : Nat) : ℚ) := by
        have he5 : (r.md2u : ℚ) * (r.md2u : ℚ)
            = ((max r.md2u 10000 : Nat) : ℚ) * ((max r.md2u 10000 : Nat) : ℚ) := by
          rw [← sq, ← sq]; exact he2
        rcases mul_self_eq_mul_self_iff.1 he5 with h2 | h2
        · exact h2
        · linarith
      have he4 : r.md2u = max r.md2u 10000 := by exact_mod_cast he3
      omega
    · rintro (h0 | h0)
      · exact absurd h0 h
      · rw [max_eq_left h0]

end WeightedTheorems

section CurrentRemoved

open WeightedRandomSearcher

/-- C22: `current` in `removed` is treated purely as removed. For `BFSSearcher` and for
`WeightedRandomSearcher` with every weight type, every population and all added and
removed lists with `current` a member of `removed`, `update(current, added, removed)`
gives the same searcher state (or the same failed assertion) as
`update(null, added, removed)`: `current` is neither moved to the tail nor re-weighted. -/
theorem current_in_removed_is_only_removed (q : List ES) (type : WeightType)
    (reading : ES → Reading) (s : WeightedRandomSearcher.State) (c : ES)
    (addedStates removedStates : List ES) (hc : c ∈ removedStates) :
    BFSSearcher.update q (some c) addedStates removedStates
      = BFSSearcher.update q none addedStates removedStates ∧
    BFSSearcher.moveCurrent q (some c) addedStates removedStates = some q ∧
    WeightedRandomSearcher.update type reading s (some c) addedStates removedStates
      = WeightedRandomSearcher.update type reading s none addedStates removedStates := by
  have hcont : removedStates.contains c = true := by simpa using hc
  have hmove : BFSSearcher.moveCurrent q (some c) addedStates removedStates = some q := by
    simp [BFSSearcher.moveCurrent, hc]
  refine ⟨?_, hmove, ?_⟩
  · simp only [BFSSearcher.update, hmove]
    rfl
  · simp only [WeightedRandomSearcher.update, hcont]
    simp

/-- An update of C22: state 1 is `current` and is removed while state 3 is added. -/
theorem current_in_removed_is_only_removed_witness :
    BFSSearcher.update [1, 2] (some 1) [3] [1] = BFSSearcher.update [1, 2] none [3] [1] ∧
    BFSSearcher.update [1, 2] (some 1) [3] [1] = some [2, 3] ∧
    WeightedRandomSearcher.update .MinDistToUncovered (fun _ => exampleNear) exampleState
        (some 1) [3] [1]
      = WeightedRandomSearcher.update .MinDistToUncovered (fun _ => exampleNear) exampleState
          none [3] [1] :=
  ⟨(current_in_removed_is_only_removed [1, 2] .MinDistToUncovered (fun _ => exampleNear)
      exampleState 1 [3] [1] (by decide)).1,
    by decide,
    (current_in_removed_is_only_removed [1, 2] .MinDistToUncovered (fun _ => exampleNear)
      exampleState 1 [3] [1] (by decide)).2.2⟩

end CurrentRemoved

section QueueTransformation

theorem BFSSearcher.removeOne_eq_eraseFirst :
    BFSSearcher.removeOne = BFSSearcher.eraseFirst := by
  funext l es
  unfold BFSSearcher.eraseFirst
  by_cases h : es ∈ l
  · rw [if_pos h, BFSSearcher.bfs_removeOne_eq_erase l es h]
  · rw [if_neg h]
    unfold BFSSearcher.removeOne
    have h1 : l.head? ≠ some es := by
      intro hh
      cases l with
      | nil => simp at hh
      | cons a t => simp at hh; subst hh; simp at h
    simp [h1, h]

/-- C23: the queue transformation of `BFSSearcher::update`. With a non-null `current`
that occurs in the queue `q`, a non-empty `added` and `current` not in `removed`, the
queue after the add phase is `q` without the first occurrence of `current`, then
`current`, then `added`, and each removed state is then erased (first occurrence; a
removed state that is not in the queue fails the assertion). When `added` is empty,
`current` is null or `current` is in `removed`, the add phase gives `q ++ added`. When
the fork condition holds and `current` is not in `q`, the update fails its assertion. -/
theorem bfs_update_queue (q addedStates removedStates : List ES) (current : Option ES) :
    (∀ c, current = some c → c ∈ q → addedStates ≠ [] → c ∉ removedStates →
      BFSSearcher.moveCurrent q current addedStates removedStates = some (q.erase c ++ [c]) ∧
      BFSSearcher.update q current addedStates removedStates
        = removedStates.foldlM BFSSearcher.eraseFirst (q.erase c ++ [c] ++ addedStates)) ∧
    ((addedStates = [] ∨ current = none ∨ ∃ c, current = some c ∧ c ∈ removedStates) →
      BFSSearcher.moveCurrent q current addedStates removedStates = some q ∧
      BFSSearcher.update q current addedStates removedStates
        = removedStates.foldlM BFSSearcher.eraseFirst (q ++ addedStates)) ∧
    (∀ c, current = some c → addedStates ≠ [] → c ∉ removedStates → c ∉ q →
      BFSSearcher.update q current addedStates removedStates = none) := by
  refine ⟨?_, ?_, ?_⟩
  · intro c hcur hc hadd hrem
    subst hcur
    have hmove : BFSSearcher.moveCurrent q (some c) addedStates removedStates
        = some (q.erase c ++ [c]) := by
      simp [BFSSearcher.moveCurrent, hadd, hrem, hc]
    refine ⟨hmove, ?_⟩
    simp only [BFSSearcher.update, hmove, Option.some_bind,
      BFSSearcher.removeOne_eq_eraseFirst]
  · intro h
    have hmove : BFSSearcher.moveCurrent q current addedStates removedStates = some q := by
      rcases h with h | h | ⟨c, hcur, hc⟩
      · subst h
        cases current <;> simp [BFSSearcher.moveCurrent]
      · subst h
        rfl
      · subst hcur
        simp [BFSSearcher.moveCurrent, hc]
    refine ⟨hmove, ?_⟩
    simp only [BFSSearcher.update, hmove, Option.some_bind,
      BFSSearcher.removeOne_eq_eraseFirst]
  · intro c hcur hadd hrem hq
    subst hcur
    simp [BFSSearcher.update, BFSSearcher.moveCurrent, hadd, hrem, hq]

/-- A fork of C23: queue 1, 2, 3 with `current = 1`, state 4 added and state 2 removed
gives the queue 3, 1, 4. -/
theorem bfs_update_queue_witness :
    BFSSearcher.update [1, 2, 3] (some 1) [4] [2]
        = [2].foldlM BFSSearcher.eraseFirst ([1, 2, 3].erase 1 ++ [1] ++ [4]) ∧
      BFSSearcher.update [1, 2, 3] (some 1) [4] [2] = some [3, 1, 4] ∧
      BFSSearcher.update [2, 3] (some 1) [4] [] = none :=
  ⟨((bfs_update_queue [1, 2, 3] [4] [2] (some 1)).1 1 rfl (by decide) (by decide)
      (by decide)).2,
    by decide,
    (bfs_update_queue [2, 3] [4] [] (some 1)).2.2 1 rfl (by decide) (by decide) (by decide)⟩

end QueueTransformation

section InterleavedBounds

open InterleavedSearcher

/-- A duplicate-free list of `n` numbers below `n` is a rearrangement of `0, ..., n-1`. -/
theorem InterleavedSearcher.perm_range_of_nodup (n : Nat) (l : List Nat) (hnd : l.Nodup)
    (hlt : ∀ x ∈ l, x < n) (hlen : l.length = n) : l.Perm (List.range n) := by
  apply List.perm_of_nodup_nodup_toFinset_eq hnd (List.nodup_range n)
  apply Finset.eq_of_subset_of_card_le
  · intro x hx
    simp only [List.mem_toFinset, List.mem_range] at hx ⊢
    exact hlt x hx
  · rw [List.toFinset_card_of_nodup hnd, List.toFinset_card_of_nodup (List.nodup_range n),
      List.length_range, hlen]

/-- The sub-searcher of the `i`-th call, from the index before the call. -/
theorem InterleavedSearcher.delegateOfCall_index (n i : Nat) (h1 : 1 ≤ n) (hn : n < 2 ^ 32) :
    delegateOfCall n i = some (n - 1 - (i - 1 + n - 1) % n) := by
  have hr : (i - 1 + n - 1) % n < n := Nat.mod_lt _ (by omega)
  unfold delegateOfCall
  rw [afterCalls_index n h1 hn, Option.some_bind,
    selectState_of_index n _ (by omega) (by omega) hn]
  simp only [Option.map_some']
  congr 1
  omega

/-- C26: the index invariant of `InterleavedSearcher`. For `N >= 1` sub-searchers (a
number that fits the `unsigned` index), `index` is 1 after construction; after any
number of `selectState` calls `1 <= index <= N`, and the next `selectState` succeeds:
its access `searchers[--index]` is at position `index - 1 < N`. Any `N` consecutive
calls delegate to each of the `N` sub-searchers exactly once: their positions are a
rearrangement of `0, ..., N-1`. -/
theorem interleaved_index_in_bounds (n : Nat) (h1 : 1 ≤ n) (hn : n < 2 ^ 32) :
    (init n).index = 1 ∧
    (∀ m, ∃ s, afterCalls (init n) m = some s ∧ s.numSearchers = n ∧
      1 ≤ s.index ∧ s.index ≤ n ∧
      ∃ r, selectState s = some r ∧ r.1 = s.index - 1 ∧ r.1 < n ∧
        afterCalls (init n) (m + 1) = some r.2) ∧
    (∀ k, ((List.range n).map fun t => delegateOfCall n (k + 1 + t)).Perm
      ((List.range n).map some)) := by
  refine ⟨rfl, ?_, ?_⟩
  · intro m
    have hr : (m + n - 1) % n < n := Nat.mod_lt _ (by omega)
    have hsel := selectState_of_index n (n - (m + n - 1) % n) (by omega) (by omega) hn
    refine ⟨_, afterCalls_index n h1 hn m, rfl, by show 1 ≤ n - _; omega,
      by show n - _ ≤ n; omega, _, hsel, rfl, by show n - _ - 1 < n; omega, ?_⟩
    show (afterCalls (init n) m).bind _ = _
    rw [afterCalls_index n h1 hn m, Option.some_bind, hsel]
    rfl
  · intro k
    have hfun : ((List.range n).map fun t => delegateOfCall n (k + 1 + t))
        = ((List.range n).map fun t => n - 1 - (k + t + n - 1) % n).map some := by
      rw [List.map_map]
      apply List.map_congr_left
      intro t _
      rw [delegateOfCall_index n (k + 1 + t) h1 hn]
      simp only [Function.comp]
      congr 3
      omega
    rw [hfun]
    apply List.Perm.map
    apply perm_range_of_nodup
    · apply List.Nodup.map_on _ (List.nodup_range n)
      intro a ha b hb hab
      rw [List.mem_range] at ha hb
      have hra : (k + a + n - 1) % n < n := Nat.mod_lt _ (by omega)
      have hrb : (k + b + n - 1) % n < n := Nat.mod_lt _ (by omega)
      have heq : (k + n - 1 + a) % n = (k + n - 1 + b) % n := by
        have e1 : k + a + n - 1 = k + n - 1 + a := by omega
        have e2 : k + b + n - 1 = k + n - 1 + b := by omega
        rw [e1] at hab hra
        rw [e2] at hab hrb
        omega
      have hmod : a ≡ b [MOD n] := Nat.ModEq.add_left_cancel' (k + n - 1) heq
      exact Nat.ModEq.eq_of_lt_of_lt hmod ha hb
    · intro x hx
      rw [List.mem_map] at hx
      obtain ⟨t, _, rfl⟩ := hx
      omega
    · simp

/-- Three sub-searchers: the index stays between 1 and 3, and the calls 2, 3 and 4
delegate to the positions 2, 1 and 0. -/
theorem interleaved_index_in_bounds_witness :
    (∀ m, ∃ s, afterCalls (init 3) m = some s ∧ s.numSearchers = 3 ∧
      1 ≤ s.index ∧ s.index ≤ 3 ∧
      ∃ r, selectState s = some r ∧ r.1 = s.index - 1 ∧ r.1 < 3 ∧
        afterCalls (init 3) (m + 1) = some r.2) ∧
    ((List.range 3).map fun t => delegateOfCall 3 (1 + 1 + t)) = [some 2, some 1, some 0] ∧
    ((List.range 3).map fun t => delegateOfCall 3 (1 + 1 + t)).Perm
      ((List.range 3).map some) :=
  ⟨(interleaved_index_in_bounds 3 (by decide) (by decide)).2.1, by decide,
    (interleaved_index_in_bounds 3 (by decide) (by decide)).2.2 1⟩

end InterleavedBounds

section AttemptLemmas

open PendingSearcher

/-- One iteration over flat bases: the state that is selected is a pending one, the
query is the one on its constraint, and the iteration revives or destroys it. -/
theorem PendingSearcher.attempt_flat (kN kP : FlatKind) (rng : Nat → Nat) (solver : Solver)
    (s : State (List ES × Nat) (List ES × Nat)) (e : Engine)
    (hrev : Revivable solver s e) (hp : s.pending.1 ≠ []) :
    ∃ x expr r, x ∈ s.pending.1 ∧ e.constraintOf x = some expr ∧
      attempt (flatBase kN rng) (flatBase kP rng) solver s e = some r ∧
      r.1 = ((solver.mayBeTrue x expr).1 && (solver.mayBeTrue x expr).2) ∧
      r.2.1.pending.1 = s.pending.1.erase x ∧
      r.2.1.maxReviveTime = s.maxReviveTime ∧
      r.2.2 = (if r.1 then revived (queried solver e x expr) x expr
        else destroyed (queried solver e x expr) x) ∧
      Revivable solver r.2.1 r.2.2 ∧
      (∀ y, y ≠ x → r.2.2.constraintOf y = e.constraintOf y) := by
  obtain ⟨hnd, hwf⟩ := hrev
  obtain ⟨sel, hsel⟩ := flatBase_selectState_isSome kP rng s.pending hp
  obtain ⟨hmem, hsame⟩ := flatBase_selectState kP rng s.pending sel hsel
  obtain ⟨hst, expr, hexpr, hw⟩ := hwf sel.1 hmem
  have hmem2 : sel.1 ∈ ({ s with pending := sel.2 } :
      State (List ES × Nat) (List ES × Nat)).pending.1 := by
    show sel.1 ∈ sel.2.1
    rw [hsame]; exact hmem
  have hnd2 : ({ s with pending := sel.2 } :
      State (List ES × Nat) (List ES × Nat)).pending.1.Nodup := by
    show sel.2.1.Nodup
    rw [hsame]; exact hnd
  have hnotin : sel.1 ∉ s.pending.1.erase sel.1 := List.Nodup.not_mem_erase hnd
  have hq : ∀ y, y ≠ sel.1 →
      (queried solver e sel.1 expr).constraintOf y = e.constraintOf y := by
    intro y hy
    have := Engine.constraintOf_clear_ne e sel.1 y hy
    simp only [Engine.constraintOf] at this ⊢
    simpa [queried, Engine.record] using this
  have hrest : ∀ e1 : Engine, e1.states = e.states.erase sel.1 ∨ e1.states = e.states →
      (∀ y, y ≠ sel.1 → e1.constraintOf y = e.constraintOf y) →
      Revivable solver
        ({ s with pending := (s.pending.1.erase sel.1, sel.2.2) } :
          State (List ES × Nat) (List ES × Nat)) e1 ∧
      Revivable solver
        ({ s with normal := (s.normal.1 ++ [sel.1], s.normal.2),
                  pending := (s.pending.1.erase sel.1, sel.2.2) } :
          State (List ES × Nat) (List ES × Nat)) e1 := by
    intro e1 hst1 hc1
    have key : (s.pending.1.erase sel.1).Nodup ∧
        ∀ x ∈ s.pending.1.erase sel.1, x ∈ e1.states ∧
          ∃ expr, e1.constraintOf x = some expr ∧ solver.width expr ≠ 0 := by
      refine ⟨hnd.erase _, ?_⟩
      intro x hx
      have hxne : x ≠ sel.1 := fun h => hnotin (h ▸ hx)
      obtain ⟨hxs, expr', he', hw'⟩ := hwf x (List.mem_of_mem_erase hx)
      refine ⟨?_, expr', by rw [hc1 x hxne]; exact he', hw'⟩
      rcases hst1 with h | h
      · rw [h]; exact (List.mem_erase_of_ne hxne).2 hxs
      · rw [h]; exact hxs
    exact ⟨key, key⟩
  by_cases hacc : ((solver.mayBeTrue sel.1 expr).1 && (solver.mayBeTrue sel.1 expr).2) = true
  · have hr := revive_flat kN kP rng ({ s with pending := sel.2 })
      (queried solver e sel.1 expr) sel.1 expr hmem2 hnd2
    have hc1 : ∀ y, y ≠ sel.1 →
        (revived (queried solver e sel.1 expr) sel.1 expr).constraintOf y
          = e.constraintOf y := by
      intro y hy
      rw [← hq y hy]
      rfl
    refine ⟨sel.1, expr,
      (true,
        ({ s with normal := (s.normal.1 ++ [sel.1], s.normal.2),
                  pending := (sel.2.1.erase sel.1, sel.2.2) } :
          State (List ES × Nat) (List ES × Nat)),
        revived (queried solver e sel.1 expr) sel.1 expr), hmem,
      hexpr, ?_, hacc.symm, ?_, rfl, by simp, ?_, hc1⟩
    · simp only [attempt, hsel, Option.some_bind, hexpr, hw, if_false, hacc, if_true, hr,
        Option.map_some']
    · show sel.2.1.erase sel.1 = _
      rw [hsame]
    · have := (hrest (revived (queried solver e sel.1 expr) sel.1 expr) (Or.inr rfl) hc1).2
      simpa [hsame] using this
  · have hrej : ((solver.mayBeTrue sel.1 expr).1 && (solver.mayBeTrue sel.1 expr).2)
        = false := by simpa using hacc
    have hk := kill_flat kP rng ({ s with pending := sel.2 })
      (queried solver e sel.1 expr) sel.1 hmem2 hnd2
      (by simpa [queried, Engine.record, Engine.clearConstraint] using hst)
    have hc1 : ∀ y, y ≠ sel.1 →
        (destroyed (queried solver e sel.1 expr) sel.1).constraintOf y
          = e.constraintOf y := by
      intro y hy
      rw [← hq y hy]
      rfl
    refine ⟨sel.1, expr,
      (false,
        ({ s with pending := (sel.2.1.erase sel.1, sel.2.2) } :
          State (List ES × Nat) (List ES × Nat)),
        destroyed (queried solver e sel.1 expr) sel.1), hmem,
      hexpr, ?_, hrej.symm, ?_, rfl, by simp, ?_, hc1⟩
    · simp only [attempt, hsel, Option.some_bind, hexpr, hw, if_false, hrej,
        Bool.false_eq_true, hk, Option.map_some']
    · show sel.2.1.erase sel.1 = _
      rw [hsame]
    · have := (hrest (destroyed (queried solver e sel.1 expr) sel.1) (Or.inl rfl) hc1).1
      simpa [hsame] using this

end AttemptLemmas

section CullOutcome

open PendingSearcher

/-- The loop of `selectForDelition` over flat bases, when the engine is not halted: it
returns, and `new`, `k` and `v` are the calls it appends to the trace, its kills and its
revivals. -/
theorem PendingSearcher.cullLoop_outcome (kN kP : FlatKind) (rng : Nat → Nat)
    (C : Culling (List ES × Nat) (List ES × Nat)) (solver : Solver) :
    ∀ (fuel : Nat) (s : State (List ES × Nat) (List ES × Nat)) (e : Engine)
      (size rv kl : Int),
      Revivable solver s e → s.pending.1.length < fuel →
      ∃ (res : CullResult (List ES × Nat) (List ES × Nat)) (new : List Event) (k v : Nat),
        cullLoop (flatBase kN rng) (flatBase kP rng) C solver false fuel s e size rv kl
          = some res ∧
        res.halted = false ∧ res.engine.trace = e.trace ++ new ∧
        res.size = size - k ∧ res.killed = kl + k ∧ res.revived = rv + v ∧
        res.engine.pendingKills = e.pendingKills + k ∧
        res.engine.pendingRevives = e.pendingRevives + v ∧
        new.countP Event.isQuery = k + v ∧ new.countP Event.isRelease = k ∧
        (0 ≤ size - rv → (k : Int) + v ≤ size - rv) ∧
        (∀ x, Event.release x ∈ new →
          x ∈ s.pending.1 ∧ ∃ expr, e.constraintOf x = some expr ∧
            Event.mayBeTrue x expr e.solverTimeout e.ignoreSolverFailures
              (solver.mayBeTrue x expr).1 (solver.mayBeTrue x expr).2 ∈ new ∧
            ((solver.mayBeTrue x expr).1 && (solver.mayBeTrue x expr).2) = false) ∧
        (∀ x expr t i st rs, Event.mayBeTrue x expr t i st rs ∈ new →
          t = e.solverTimeout ∧ i = e.ignoreSolverFailures ∧ x ∈ s.pending.1) ∧
        res.engine.ignoreSolverFailures = e.ignoreSolverFailures ∧
        res.engine.solverTimeout = e.solverTimeout := by
  intro fuel
  induction fuel with
  | zero => intro s e _ _ _ _ h; omega
  | succ fuel ih =>
    intro s e size rv kl hrev hlen
    rw [cullLoop]
    simp only [flatBase_empty]
    by_cases hcond : (!s.pending.1.isEmpty && decide (size - rv > 0) &&
        decide (C.pendingSize s.pending > size)) = true
    · rw [if_pos hcond]
      simp only [Bool.false_eq_true, if_false]
      have hp : s.pending.1 ≠ [] := by
        intro h0
        rw [h0] at hcond
        simp at hcond
      have hpos : size - rv > 0 := by
        simp only [Bool.and_eq_true, decide_eq_true_eq] at hcond
        exact hcond.1.2
      obtain ⟨x, expr, r, hx, hexpr, hatt, hacc, hpend, -, heng, hrev', hcof⟩ :=
        attempt_flat kN kP rng solver s e hrev hp
      have hnd : s.pending.1.Nodup := hrev.1
      have hnotin : x ∉ s.pending.1.erase x := List.Nodup.not_mem_erase hnd
      have hlen' : r.2.1.pending.1.length < fuel := by
        rw [hpend, List.length_erase_of_mem hx]
        have := List.length_pos.2 hp
        omega
      have hsub : ∀ y, y ∈ r.2.1.pending.1 → y ∈ s.pending.1 ∧ y ≠ x := by
        intro y hy
        rw [hpend] at hy
        exact ⟨List.mem_of_mem_erase hy, fun h => hnotin (h ▸ hy)⟩
      have hsame : (⟨s.normal, s.pending, s.maxReviveTime⟩ :
          State (List ES × Nat) (List ES × Nat)) = s := rfl
      rw [hatt, Option.some_bind]
      by_cases hr1 : r.1 = true
      · -- revived
        rw [if_pos hr1]
        rw [hr1] at heng hacc
        simp only [if_true] at heng
        obtain ⟨res, new', k, v, h1, h2, h3, h4, h5, h6, h7, h8, h9, h10, h11, h12, h13, h14,
          h15⟩ := ih r.2.1 r.2.2 size (rv + 1) kl hrev' hlen'
        refine ⟨res, [Event.mayBeTrue x expr e.solverTimeout e.ignoreSolverFailures
            (solver.mayBeTrue x expr).1 (solver.mayBeTrue x expr).2,
            Event.addConstraint x expr, Event.addToNormal x, Event.removeFromPending x] ++ new',
          k, v + 1, h1, h2, ?_, h4, h5, ?_, ?_, ?_, ?_, ?_, ?_, ?_, ?_, ?_, ?_⟩
        · rw [h3, heng]
          simp [revived, queried, Engine.record, Engine.clearConstraint]
        · rw [h6]; push_cast; ring
        · rw [h7, heng]; rfl
        · rw [h8, heng]
          simp [revived, queried, Engine.record, Engine.clearConstraint]
          omega
        · simp [List.countP_cons, Event.isQuery, h9]
          omega
        · simp [List.countP_cons, Event.isRelease, h10]
        · intro _
          have := h11 (by omega)
          push_cast
          omega
        · intro y hy
          simp only [List.mem_append, List.mem_cons, List.not_mem_nil, or_false] at hy
          rcases hy with (hy | hy | hy | hy) | hy
          · exact absurd hy (by simp)
          · exact absurd hy (by simp)
          · exact absurd hy (by simp)
          · exact absurd hy (by simp)
          · obtain ⟨q0, expr', q1, q2, q3⟩ := h12 y hy
            obtain ⟨hys, hyne⟩ := hsub y q0
            rw [hcof y hyne] at q1
            refine ⟨hys, expr', q1, ?_, q3⟩
            apply List.mem_append_right
            rw [heng] at q2
            simpa [revived, queried, Engine.record, Engine.clearConstraint] using q2
        · intro y expr' t i st rs hy
          simp only [List.mem_append, List.mem_cons, List.not_mem_nil, or_false] at hy
          rcases hy with (hy | hy | hy | hy) | hy
          · simp only [Event.mayBeTrue.injEq] at hy
            obtain ⟨rfl, -, rfl, rfl, -, -⟩ := hy
            exact ⟨rfl, rfl, hx⟩
          · exact absurd hy (by simp)
          · exact absurd hy (by simp)
          · exact absurd hy (by simp)
          · obtain ⟨q1, q2, q3⟩ := h13 y expr' t i st rs hy
            rw [heng] at q1 q2
            exact ⟨by simpa [revived, queried, Engine.record, Engine.clearConstraint] using q1,
              by simpa [revived, queried, Engine.record, Engine.clearConstraint] using q2,
              (hsub y q3).1⟩
        · rw [h14, heng]; rfl
        · rw [h15, heng]; rfl
      · -- destroyed
        have hr1' : r.1 = false := by simpa using hr1
        rw [if_neg hr1]
        rw [hr1'] at heng hacc
        simp only [Bool.false_eq_true, if_false] at heng
        obtain ⟨res, new', k, v, h1, h2, h3, h4, h5, h6, h7, h8, h9, h10, h11, h12, h13, h14,
          h15⟩ := ih r.2.1 r.2.2 (size - 1) rv (kl + 1) hrev' hlen'
        refine ⟨res, [Event.mayBeTrue x expr e.solverTimeout e.ignoreSolverFailures
            (solver.mayBeTrue x expr).1 (solver.mayBeTrue x expr).2] ++ destroySteps x ++ new',
          k + 1, v, h1, h2, ?_, ?_, ?_, h6, ?_, ?_, ?_, ?_, ?_, ?_, ?_, ?_, ?_⟩
        · rw [h3, heng]
          simp [destroyed, queried, Engine.record, Engine.clearConstraint, destroySteps]
        · rw [h4]; push_cast; ring
        · rw [h5]; push_cast; ring
        · rw [h7, heng]
          simp [destroyed, queried, Engine.record, Engine.clearConstraint]
          omega
        · rw [h8, heng]; rfl
        · simp [List.countP_cons, List.countP_append, Event.isQuery, h9, destroySteps]
          omega
        · simp [List.countP_cons, List.countP_append, Event.isRelease, h10, destroySteps]
        · intro _
          have := h11 (by omega)
          push_cast
          omega
        · intro y hy
          simp only [List.mem_append, List.mem_singleton, destroySteps, List.mem_cons,
            List.not_mem_nil, or_false] at hy
          rcases hy with (hy | hy | hy | hy | hy) | hy
          · exact absurd hy (by simp)
          · exact absurd hy (by simp)
          · exact absurd hy (by simp)
          · exact absurd hy (by simp)
          · simp only [Event.release.injEq] at hy
            subst hy
            exact ⟨hx, expr, hexpr, by simp, hacc.symm⟩
          · obtain ⟨q0, expr', q1, q2, q3⟩ := h12 y hy
            obtain ⟨hys, hyne⟩ := hsub y q0
            rw [hcof y hyne] at q1
            refine ⟨hys, expr', q1, ?_, q3⟩
            apply List.mem_append_right
            rw [heng] at q2
            simpa [destroyed, queried, Engine.record, Engine.clearConstraint] using q2
        · intro y expr' t i st rs hy
          simp only [List.mem_append, List.mem_singleton, destroySteps, List.mem_cons,
            List.not_mem_nil, or_false] at hy
          rcases hy with (hy | hy | hy | hy | hy) | hy
          · simp only [Event.mayBeTrue.injEq] at hy
            obtain ⟨rfl, -, rfl, rfl, -, -⟩ := hy
            exact ⟨rfl, rfl, hx⟩
          · exact absurd hy (by simp)
          · exact absurd hy (by simp)
          · exact absurd hy (by simp)
          · exact absurd hy (by simp)
          · obtain ⟨q1, q2, q3⟩ := h13 y expr' t i st rs hy
            rw [heng] at q1 q2
            exact ⟨by simpa [destroyed, queried, Engine.record, Engine.clearConstraint] using q1,
              by simpa [destroyed, queried, Engine.record, Engine.clearConstraint] using q2,
              (hsub y q3).1⟩
        · rw [h14, heng]; rfl
        · rw [h15, heng]; rfl
    · rw [if_neg hcond]
      refine ⟨_, [], 0, 0, rfl, rfl, by simp, by simp, by simp, by simp, by simp, by simp,
        by simp, by simp, ?_, by simp, by simp, rfl, rfl⟩
      intro h
      simpa using h

end CullOutcome

section QuerySettings

open PendingSearcher

theorem PendingSearcher.revive_engine {α β : Type} (BN : Base α) (BP : Base β)
    (s : State α β) (e : Engine) (es : ES) (expr : Nat) (r : State α β × Engine)
    (h : revive BN BP s e es expr = some r) : r.2 = revived e es expr := by
  simp only [revive, Option.bind_eq_some, Option.map_eq_some'] at h
  obtain ⟨n, -, p, -, rfl⟩ := h
  rfl

theorem PendingSearcher.kill_engine {α β : Type} (BP : Base β)
    (s : State α β) (e : Engine) (es : ES) (r : State α β × Engine)
    (h : kill BP s e es = some r) : r.2 = destroyed e es := by
  simp only [kill, Option.bind_eq_some] at h
  obtain ⟨p, -, h⟩ := h
  split_ifs at h
  have := (Option.some.inj h).symm
  subst this
  rfl

/-- Whatever the bases are, every query that the loop of `empty` issues is made under
the timeout and the `IgnoreSolverFailures` flag that the engine has when the loop
starts, and the loop does not write the flag. -/
theorem PendingSearcher.reviveLoop_queries {α β : Type} (BN : Base α) (BP : Base β)
    (solver : Solver) :
    ∀ (fuel : Nat) (s : State α β) (e : Engine) (r : Bool × State α β × Engine),
      reviveLoop BN BP solver fuel s e = some r →
      ∃ new, r.2.2.trace = e.trace ++ new ∧
        (∀ x expr t i st rs, Event.mayBeTrue x expr t i st rs ∈ new →
          t = e.solverTimeout ∧ i = e.ignoreSolverFailures) ∧
        r.2.2.ignoreSolverFailures = e.ignoreSolverFailures := by
  intro fuel
  induction fuel with
  | zero => intro s e r h; simp [reviveLoop] at h
  | succ fuel ih =>
    intro s e r h
    rw [reviveLoop] at h
    simp only at h
    by_cases h1 : (BN.empty s.normal).1 = true
    · rw [if_pos h1] at h
      by_cases h2 : (BP.empty s.pending).1 = true
      · rw [if_pos h2] at h
        have := (Option.some.inj h).symm
        subst this
        exact ⟨[], by simp, by simp, rfl⟩
      · rw [if_neg h2] at h
        rw [Option.bind_eq_some] at h
        obtain ⟨sel, -, h⟩ := h
        split at h
        · exact absurd h (by simp)
        · rename_i expr hexpr
          by_cases hw : solver.width expr = 0
          · rw [if_pos hw] at h
            exact absurd h (by simp)
          rw [if_neg hw] at h
          by_cases hacc : ((solver.mayBeTrue sel.1 expr).1 && (solver.mayBeTrue sel.1 expr).2)
              = true
          · rw [if_pos hacc, Option.bind_eq_some] at h
            obtain ⟨r1, hr1, h⟩ := h
            have he := revive_engine BN BP _ _ _ _ r1 hr1
            obtain ⟨new', q1, q2, q3⟩ := ih r1.1 r1.2 r h
            rw [he] at q1 q2 q3
            refine ⟨[Event.mayBeTrue sel.1 expr e.solverTimeout e.ignoreSolverFailures
                (solver.mayBeTrue sel.1 expr).1 (solver.mayBeTrue sel.1 expr).2,
                Event.addConstraint sel.1 expr, Event.addToNormal sel.1,
                Event.removeFromPending sel.1] ++ new', ?_, ?_, ?_⟩
            · rw [q1]
              simp [PendingSearcher.revived, queried, Engine.record, Engine.clearConstraint]
            · intro x expr' t i st rs hx
              simp only [List.mem_append, List.mem_cons, List.not_mem_nil, or_false] at hx
              rcases hx with (hx | hx | hx | hx) | hx
              · simp only [Event.mayBeTrue.injEq] at hx
                obtain ⟨-, -, rfl, rfl, -, -⟩ := hx
                exact ⟨rfl, rfl⟩
              · exact absurd hx (by simp)
              · exact absurd hx (by simp)
              · exact absurd hx (by simp)
              · exact q2 x expr' t i st rs hx
            · rw [q3]; rfl
          · rw [if_neg hacc, Option.bind_eq_some] at h
            obtain ⟨r1, hr1, h⟩ := h
            have he := kill_engine BP _ _ _ r1 hr1
            obtain ⟨new', q1, q2, q3⟩ := ih r1.1 r1.2 r h
            rw [he] at q1 q2 q3
            refine ⟨[Event.mayBeTrue sel.1 expr e.solverTimeout e.ignoreSolverFailures
                (solver.mayBeTrue sel.1 expr).1 (solver.mayBeTrue sel.1 expr).2]
                ++ destroySteps sel.1 ++ new', ?_, ?_, ?_⟩
            · rw [q1]
              simp [destroyed, queried, Engine.record, Engine.clearConstraint, destroySteps]
            · intro x expr' t i st rs hx
              simp only [List.mem_append, List.mem_singleton, destroySteps, List.mem_cons,
                List.not_mem_nil, or_false] at hx
              rcases hx with (hx | hx | hx | hx | hx) | hx
              · simp only [Event.mayBeTrue.injEq] at hx
                obtain ⟨-, -, rfl, rfl, -, -⟩ := hx
                exact ⟨rfl, rfl⟩
              · exact absurd hx (by simp)
              · exact absurd hx (by simp)
              · exact absurd hx (by simp)
              · exact absurd hx (by simp)
              · exact q2 x expr' t i st rs hx
            · rw [q3]; rfl
    · rw [if_neg h1] at h
      refine ⟨[Event.setTimeout 0], ?_, by simp, ?_⟩
      · split_ifs at h <;>
        · have := (Option.some.inj h).symm
          subst this
          simp [Engine.setTimeout]
      · split_ifs at h <;>
        · have := (Option.some.inj h).symm
          subst this
          rfl

end QuerySettings

section DeletionContract

open PendingSearcher

/-- The method `selectForDelition` under the default policy with the engine not halted,
over flat bases: it returns, and `new`, `k` and `v` are the calls of its loop, its
kills and its revivals. -/
theorem PendingSearcher.selectForDelition_outcome (kN kP : FlatKind) (rng : Nat → Nat)
    (C : Culling (List ES × Nat) (List ES × Nat)) (solver : Solver) (fuel : Nat)
    (s : State (List ES × Nat) (List ES × Nat)) (e : Engine) (size : Int)
    (hrev : Revivable solver s e) (hfuel : s.pending.1.length < fuel) :
    ∃ (r : List ES × State (List ES × Nat) (List ES × Nat) × Engine) (new : List Event)
      (k v : Nat),
      selectForDelition (flatBase kN rng) (flatBase kP rng) C solver false false fuel s e size
        = some r ∧
      r.2.2.trace
        = e.trace ++ Event.setTimeout s.maxReviveTime :: new ++ [Event.setTimeout 0] ∧
      r.2.2.pendingKills = e.pendingKills + k ∧
      r.2.2.pendingRevives = e.pendingRevives + v ∧
      new.countP Event.isQuery = k + v ∧ new.countP Event.isRelease = k ∧
      (0 ≤ size → (k : Int) + v ≤ size) ∧
      (∀ x, Event.release x ∈ new →
        x ∈ s.pending.1 ∧ ∃ expr, e.constraintOf x = some expr ∧
          Event.mayBeTrue x expr s.maxReviveTime true
            (solver.mayBeTrue x expr).1 (solver.mayBeTrue x expr).2 ∈ new ∧
          ((solver.mayBeTrue x expr).1 && (solver.mayBeTrue x expr).2) = false) ∧
      (∀ x expr t i st rs, Event.mayBeTrue x expr t i st rs ∈ new →
        t = s.maxReviveTime ∧ i = true ∧ x ∈ s.pending.1) ∧
      r.1 = C.normalVictims r.2.1.normal (size - k) ∧
      r.2.2.ignoreSolverFailures = e.ignoreSolverFailures := by
  obtain ⟨res, new, k, v, h1, h2, h3, h4, h5, h6, h7, h8, h9, h10, h11, h12, h13, h14, h15⟩ :=
    cullLoop_outcome kN kP rng C solver fuel s (tolerant e s.maxReviveTime) size 0 0 hrev hfuel
  refine ⟨(C.normalVictims res.searcher.normal res.size, res.searcher,
      restored res.engine e.ignoreSolverFailures), new, k, v, ?_, ?_, ?_, ?_, h9, h10, ?_,
    h12, h13, ?_, rfl⟩
  · simp [selectForDelition, h1, h2]
  · show (res.engine.setTimeout 0).trace = _
    simp [Engine.setTimeout, h3, tolerant]
  · show res.engine.pendingKills = _
    rw [h7]; rfl
  · show res.engine.pendingRevives = _
    rw [h8]; rfl
  · intro h
    have := h11 (by omega)
    omega
  · show C.normalVictims res.searcher.normal res.size = _
    rw [h4]

/-- C24: `PendingSearcher::selectForDelition(n)` under the default policy
(random-pending-deletion off, engine not halted) over flat bases, with the solver as an
oracle. It returns; with `new` the calls of its loop, `kills` its kills and `revives`
its revivals, it issues `kills + revives <= n` queries, it kills (releases) `kills <= n`
states, every killed state was in the pending base and its query failed, and the
result is exactly `baseNormalSearcher.selectForDelition(n - kills)`. -/
theorem pending_select_for_deletion_shortfall (kN kP : FlatKind) (rng : Nat → Nat)
    (C : PendingSearcher.Culling (List ES × Nat) (List ES × Nat)) (solver : Solver)
    (fuel : Nat) (s : PendingSearcher.State (List ES × Nat) (List ES × Nat)) (e : Engine)
    (n : Nat) (hrev : PendingSearcher.Revivable solver s e)
    (hfuel : s.pending.1.length < fuel) :
    ∃ (r : List ES × PendingSearcher.State (List ES × Nat) (List ES × Nat) × Engine)
      (new : List Event) (kills revives : Nat),
      selectForDelition (flatBase kN rng) (flatBase kP rng) C solver false false fuel s e n
        = some r ∧
      r.2.2.trace
        = e.trace ++ Event.setTimeout s.maxReviveTime :: new ++ [Event.setTimeout 0] ∧
      r.2.2.pendingKills = e.pendingKills + kills ∧
      r.2.2.pendingRevives = e.pendingRevives + revives ∧
      new.countP Event.isQuery = kills + revives ∧ kills + revives ≤ n ∧
      new.countP Event.isRelease = kills ∧ kills ≤ n ∧
      (∀ x, Event.release x ∈ new →
        x ∈ s.pending.1 ∧ ∃ expr, e.constraintOf x = some expr ∧
          Event.mayBeTrue x expr s.maxReviveTime true
            (solver.mayBeTrue x expr).1 (solver.mayBeTrue x expr).2 ∈ new ∧
          ((solver.mayBeTrue x expr).1 && (solver.mayBeTrue x expr).2) = false) ∧
      r.1 = C.normalVictims r.2.1.normal ((n : Int) - kills) := by
  obtain ⟨r, new, k, v, h1, h2, h3, h4, h5, h6, h7, h8, -, h10, -⟩ :=
    selectForDelition_outcome kN kP rng C solver fuel s e n hrev hfuel
  have hle : (k : Int) + v ≤ n := h7 (by omega)
  exact ⟨r, new, k, v, h1, h2, h3, h4, h5, by omega, h6, by omega, h8, h10⟩

/-- A run of C24: the pending base holds 3 and 4 and one victim is asked for; state 4
is queried, fails and is killed, and nothing is left to ask of the normal base. -/
theorem pending_select_for_deletion_shortfall_witness :
    (selectForDelition (flatBase .bfs fun _ => 0) (flatBase .dfs fun _ => 0) exampleCulling
        exampleSolver false false 3 exampleStarved exampleEngine 1).map
        (fun r => (r.1, r.2.1.pending.1, r.2.2.pendingKills, r.2.2.pendingRevives))
      = some ([], [3], 1, 0) ∧
    ∃ (r : List ES × PendingSearcher.State (List ES × Nat) (List ES × Nat) × Engine)
      (new : List Event) (kills revives : Nat),
      selectForDelition (flatBase .bfs fun _ => 0) (flatBase .dfs fun _ => 0) exampleCulling
          exampleSolver false false 3 exampleStarved exampleEngine ((1 : Nat) : Int)
        = some r ∧
      r.2.2.trace
        = exampleEngine.trace ++ Event.setTimeout exampleStarved.maxReviveTime :: new
          ++ [Event.setTimeout 0] ∧
      r.2.2.pendingKills = exampleEngine.pendingKills + kills ∧
      r.2.2.pendingRevives = exampleEngine.pendingRevives + revives ∧
      new.countP Event.isQuery = kills + revives ∧ kills + revives ≤ 1 ∧
      new.countP Event.isRelease = kills ∧ kills ≤ 1 ∧
      (∀ x, Event.release x ∈ new →
        x ∈ exampleStarved.pending.1 ∧ ∃ expr, exampleEngine.constraintOf x = some expr ∧
          Event.mayBeTrue x expr exampleStarved.maxReviveTime true
            (exampleSolver.mayBeTrue x expr).1 (exampleSolver.mayBeTrue x expr).2 ∈ new ∧
          ((exampleSolver.mayBeTrue x expr).1 && (exampleSolver.mayBeTrue x expr).2)
            = false) ∧
      r.1 = exampleCulling.normalVictims r.2.1.normal (((1 : Nat) : Int) - kills) :=
  ⟨by rfl,
    pending_select_for_deletion_shortfall .bfs .dfs (fun _ => 0) exampleCulling exampleSolver 3
      exampleStarved exampleEngine 1 PendingSearcher.example_revivable (by decide)⟩

/-- C25, counterexample: `empty()` entered with `IgnoreSolverFailures` false makes its
two queries with the flag false (and the timeout at the revive time 5000000). -/
theorem pending_empty_keeps_entry_tolerance :
    exampleEngine.ignoreSolverFailures = false ∧
    (PendingSearcher.empty (flatBase .bfs fun _ => 0) (flatBase .dfs fun _ => 0)
        exampleSolver 3 exampleStarved exampleEngine).map
        (fun r => (r.2.2.trace.filter Event.isQuery, r.2.2.ignoreSolverFailures))
      = some ([Event.mayBeTrue 4 40 5000000 false false true,
          Event.mayBeTrue 3 30 5000000 false true true], false) := by
  refine ⟨rfl, ?_⟩
  rfl

/-- C25, amended: every `mayBeTrue` query issued by `PendingSearcher::empty` is made
with the timeout set to the revive time and with `IgnoreSolverFailures` at its entry
value: `empty()` does not write the flag, which has its entry value on return. It is
`selectForDelition` (default policy, engine not halted) that makes every query with
the flag forced to true, under the revive timeout, and restores the entry value of the
flag when it returns. -/
theorem pending_empty_query_settings (kN kP : FlatKind) (rng : Nat → Nat)
    (C : PendingSearcher.Culling (List ES × Nat) (List ES × Nat)) (solver : Solver)
    (fuel : Nat) (s : PendingSearcher.State (List ES × Nat) (List ES × Nat)) (e : Engine)
    (size : Int) (hrev : PendingSearcher.Revivable solver s e)
    (hfuel : s.pending.1.length < fuel) :
    (∃ r new, PendingSearcher.empty (flatBase kN rng) (flatBase kP rng) solver fuel s e
        = some r ∧
      r.2.2.trace = e.trace ++ new ∧
      (∀ x expr t i st rs, Event.mayBeTrue x expr t i st rs ∈ new →
        t = s.maxReviveTime ∧ i = e.ignoreSolverFailures) ∧
      r.2.2.ignoreSolverFailures = e.ignoreSolverFailures) ∧
    (∃ r new, selectForDelition (flatBase kN rng) (flatBase kP rng) C solver false false fuel
        s e size = some r ∧
      r.2.2.trace = e.trace ++ new ∧
      (∀ x expr t i st rs, Event.mayBeTrue x expr t i st rs ∈ new →
        t = s.maxReviveTime ∧ i = true) ∧
      r.2.2.ignoreSolverFailures = e.ignoreSolverFailures) := by
  constructor
  · obtain ⟨r, -, hr, -⟩ := empty_outcome kN kP rng solver fuel s e hrev hfuel
    refine ⟨r, ?_⟩
    by_cases hn : s.normal.1 = []
    · have hr' : reviveLoop (flatBase kN rng) (flatBase kP rng) solver fuel s
          (e.setTimeout s.maxReviveTime) = some r := by
        rw [← hr]
        simp [PendingSearcher.empty, flatBase_empty, hn]
      obtain ⟨new, q1, q2, q3⟩ := reviveLoop_queries _ _ solver fuel s _ r hr'
      refine ⟨Event.setTimeout s.maxReviveTime :: new, hr, ?_, ?_, q3⟩
      · rw [q1]; simp [Engine.setTimeout]
      · intro x expr t i st rs hx
        simp only [List.mem_cons] at hx
        rcases hx with hx | hx
        · exact absurd hx (by simp)
        · exact q2 x expr t i st rs hx
    · have hne : s.normal.1.isEmpty = false := by
        cases hl : s.normal.1 with
        | nil => exact absurd hl hn
        | cons a t => rfl
      have hr' : PendingSearcher.empty (flatBase kN rng) (flatBase kP rng) solver fuel s e
          = some (false, s, e) := by simp [PendingSearcher.empty, flatBase_empty, hne]
      rw [hr'] at hr
      have := (Option.some.inj hr).symm
      subst this
      exact ⟨[], hr', by simp, by simp, rfl⟩
  · obtain ⟨r, new, k, v, h1, h2, -, -, -, -, -, -, h9, -, h11⟩ :=
      selectForDelition_outcome kN kP rng C solver fuel s e size hrev hfuel
    refine ⟨r, Event.setTimeout s.maxReviveTime :: new ++ [Event.setTimeout 0], h1, ?_, ?_,
      h11⟩
    · rw [h2]; simp
    · intro x expr t i st rs hx
      simp only [List.mem_append, List.mem_cons, List.mem_singleton, List.not_mem_nil,
        or_false] at hx
      rcases hx with (hx | hx) | hx
      · exact absurd hx (by simp)
      · exact ⟨(h9 x expr t i st rs hx).1, (h9 x expr t i st rs hx).2.1⟩
      · exact absurd hx (by simp)

/-- The two methods on the example, entered with the flag false: the queries of
`empty` carry false, those of `selectForDelition` carry true. -/
theorem pending_empty_query_settings_witness :
    (∃ r new, PendingSearcher.empty (flatBase .bfs fun _ => 0) (flatBase .dfs fun _ => 0)
        exampleSolver 3 exampleStarved exampleEngine = some r ∧
      r.2.2.trace = exampleEngine.trace ++ new ∧
      (∀ x expr t i st rs, Event.mayBeTrue x expr t i st rs ∈ new →
        t = exampleStarved.maxReviveTime ∧ i = exampleEngine.ignoreSolverFailures) ∧
      r.2.2.ignoreSolverFailures = exampleEngine.ignoreSolverFailures) ∧
    (∃ r new, selectForDelition (flatBase .bfs fun _ => 0) (flatBase .dfs fun _ => 0)
        exampleCulling exampleSolver false false 3 exampleStarved exampleEngine 1 = some r ∧
      r.2.2.trace = exampleEngine.trace ++ new ∧
      (∀ x expr t i st rs, Event.mayBeTrue x expr t i st rs ∈ new →
        t = exampleStarved.maxReviveTime ∧ i = true) ∧
      r.2.2.ignoreSolverFailures = exampleEngine.ignoreSolverFailures) :=
  pending_empty_query_settings .bfs .dfs (fun _ => 0) exampleCulling exampleSolver 3
    exampleStarved exampleEngine 1 PendingSearcher.example_revivable (by decide)

end DeletionContract

section ZestiMirror

open ZESTIPendingSearcher

/-- On a list without duplicates, for removed states that are members and are not
removed twice, the removal loop of the DFS searcher returns and removes the same states
as the erase loop of `update`. -/
theorem ZESTIPendingSearcher.dfs_update_eq_eraseAll (removed : List ES) :
    ∀ l : List ES, l.Nodup → removed.Nodup → (∀ x ∈ removed, x ∈ l) →
      removed.foldlM DFSSearcher.removeOne l = some (eraseAll l removed) ∧
        (eraseAll l removed).Nodup := by
  induction removed with
  | nil => intro l hl _ _; exact ⟨rfl, hl⟩
  | cons r t ih =>
    intro l hl hnd hsub
    have hr := List.nodup_cons.1 hnd
    have h1 : DFSSearcher.removeOne l r = some (l.erase r) :=
      DFSSearcher.dfs_removeOne_eq_erase l r hl (List.ne_nil_of_mem (hsub r (by simp)))
    have hsub' : ∀ x ∈ t, x ∈ l.erase r := by
      intro x hx
      have hne : x ≠ r := by
        intro h0
        rw [h0] at hx
        exact hr.1 hx
      exact (List.mem_erase_of_ne hne).2 (hsub x (by simp [hx]))
    have := ih (l.erase r) (hl.erase r) hr.2 hsub'
    simp only [List.foldlM_cons, h1, Option.bind_eq_bind, Option.some_bind, eraseAll,
      List.foldl_cons] at this ⊢
    exact this

/-- One `update` returns and keeps the mirror invariant when its assertion holds, the
added non-pending states are new and the states removed from the normal population
are live. -/
theorem ZESTIPendingSearcher.update_mirror (env : Env) (isPending : ES → Bool) (s : State)
    (current : Option ES) (addedStates removedStates : List ES) (hm : Mirror s)
    (hassert : s.hasSelectedState = true →
      (∀ x ∈ addedStates, isPending x = false) ∧ ∀ c, current = some c → isPending c = false)
    (hnew : (s.normalStates ++ addedStates.filter fun es => !isPending es).Nodup)
    (hlive : Live isPending s current removedStates) :
    ∃ s1, update env isPending s current addedStates removedStates = some s1 ∧ Mirror s1 := by
  have hsub : (addedStates.filter fun es => !isPending es && !outOfBound env s es).Sublist
      (addedStates.filter fun es => !isPending es) := by
    have : (addedStates.filter fun es => !isPending es && !outOfBound env s es)
        = (addedStates.filter fun es => !isPending es).filter
            fun es => !outOfBound env s es := by
      rw [List.filter_filter]
      congr 1
      funext x
      exact Bool.and_comm _ _
    rw [this]
    exact List.filter_sublist _
  have hl : (s.normalStates
      ++ addedStates.filter fun es => !isPending es && !outOfBound env s es).Nodup :=
    hnew.sublist (List.Sublist.append (List.Sublist.refl _) hsub)
  have hmem : ∀ x ∈ (removedStates.filter fun es => !isPending es)
      ++ current.toList.filter isPending,
      x ∈ s.normalStates
        ++ addedStates.filter fun es => !isPending es && !outOfBound env s es := by
    intro x hx
    have := hlive.2 x hx
    rw [hm.1] at this
    exact List.mem_append_left _ this
  obtain ⟨e1, e2⟩ := dfs_update_eq_eraseAll
    ((removedStates.filter fun es => !isPending es) ++ current.toList.filter isPending) _ hl
    hlive.1 hmem
  rw [← hm.1] at e1
  refine ⟨_, update_some env isPending s current addedStates removedStates _ hassert e1,
    ?_, e2⟩
  show eraseAll (s.normalSearcher ++ _) _ = eraseAll (s.normalStates ++ _) _
  rw [hm.1]

/-- The loop of `empty` returns, keeps the mirror invariant, and leaves no pending
state behind when it leaves `normalStates` empty. -/
theorem ZESTIPendingSearcher.reviveLoop_mirror (env : Env) :
    ∀ (fuel : Nat) (s : State) (e : Engine), Mirror s → s.pendingStates.length < fuel →
      ∃ r, reviveLoop env fuel s e = some r ∧ Mirror r.1 ∧
        (r.1.normalStates = [] → r.1.pendingStates = []) := by
  intro fuel
  induction fuel with
  | zero => intro s e _ h; omega
  | succ fuel ih =>
    intro s e hm hfuel
    rw [reviveLoop]
    by_cases hcond : (s.normalStates.isEmpty && !s.pendingStates.isEmpty) = true
    · rw [if_pos hcond]
      simp only [Bool.and_eq_true, List.isEmpty_iff, Bool.not_eq_true', ] at hcond
      obtain ⟨hn, hp⟩ := hcond
      have hp' : s.pendingStates ≠ [] := by
        intro h0; rw [h0] at hp; simp at hp
      rcases List.eq_nil_or_concat s.pendingStates with h0 | ⟨pre, es, hpe⟩
      · exact absurd h0 hp'
      rw [List.concat_eq_append] at hpe
      have h2 : s.pendingStates.getLast? = some es := by simp [hpe]
      have h3 : s.pendingStates.dropLast = pre := by simp [hpe]
      have hlen : pre.length < fuel := by
        rw [hpe] at hfuel; simp at hfuel; omega
      simp only [h2, h3]
      have hkill : ∀ e1 : Engine, ∃ r,
          reviveLoop env fuel { s with pendingStates := pre } e1 = some r ∧ Mirror r.1 ∧
            (r.1.normalStates = [] → r.1.pendingStates = []) :=
        fun e1 => ih _ e1 hm hlen
      by_cases hd : (distanceOf s.smallestSensitiveDistance es != 999999) = true
      · rw [if_pos hd]
        by_cases ha : env.attemptToRevive es = true
        · rw [if_pos ha]
          have hnp : (revived e es).isPending es = false := by
            have := Engine.constraintOf_clear_self e es
            simp only [Engine.constraintOf] at this
            simp [revived, Engine.isPending, Engine.constraintOf, Engine.record,
              Engine.clearConstraint, this]
            intro a b _ h1 h2
            exact h1 h2.symm
          obtain ⟨s1, hs1, hm1⟩ := update_mirror env (revived e es).isPending
            (window env { s with pendingStates := pre } es) none [es] [] hm
            (fun _ => ⟨fun x hx => by
              have : x = es := by simpa using hx
              rw [this]; exact hnp, fun c hc => by simp at hc⟩)
            (by
              show (s.normalStates ++ _).Nodup
              rw [hn, List.nil_append]
              exact (List.nodup_singleton es).filter _)
            (by
              refine ⟨by simp, ?_⟩
              intro x hx
              simp at hx)
          have hs1p : s1.pendingStates = pre := by
            rw [(update_inv env _ _ s1 none [es] [] hs1).2.2]
            simp [eraseAll, window, hnp]
          rw [hs1, Option.some_bind]
          exact ih s1 _ hm1 (by rw [hs1p]; exact hlen)
        · rw [if_neg ha]
          exact hkill _
      · rw [if_neg hd]
        exact hkill _
    · rw [if_neg hcond]
      refine ⟨(s, e), rfl, hm, ?_⟩
      intro hn
      simp only [Bool.and_eq_true, List.isEmpty_iff, Bool.not_eq_true', not_and,
        Bool.not_eq_false] at hcond
      have := hcond hn
      simpa using this

/-- C27: the mirror invariant of `ZESTIPendingSearcher`. The new searcher satisfies it;
every `update` in which no state is added twice and every state removed from the normal
population is live returns unless its assertion on pending states fails, and then
`normalStates` and the list of the internal DFS searcher hold the same states and the
lists stay duplicate-free; `selectState` keeps them. Consequently, with a non-zero
multiplier and the invariant at entry, `empty()` returns, it returns true iff
`normalStates` is empty, and when it returns true `pendingStates` is empty. -/
theorem zesti_mirror_invariant (env : ZESTIPendingSearcher.Env) :
    Mirror init ∧
    (∀ (isPending : ES → Bool) (s : ZESTIPendingSearcher.State) (current : Option ES)
        (addedStates removedStates : List ES),
      Mirror s → Fresh isPending s current addedStates →
      Live isPending s current removedStates →
      (s.hasSelectedState = true →
        (∀ x ∈ addedStates, isPending x = false) ∧
          ∀ c, current = some c → isPending c = false) →
      ∃ s1, update env isPending s current addedStates removedStates = some s1 ∧
        Mirror s1 ∧ s1.pendingStates.Nodup ∧
        ∀ x, x ∈ s1.normalStates ↔ x ∈ s1.normalSearcher) ∧
    (∀ (s : ZESTIPendingSearcher.State) (e : Engine) (r : ES × State × Engine),
      Mirror s → selectState env s e = some r → Mirror r.2.1) ∧
    (∀ (fuel : Nat) (s : ZESTIPendingSearcher.State) (e : Engine),
      env.zestiBound ≠ 0 → Mirror s → (prepare env s).pendingStates.length < fuel →
      ∃ r, empty env fuel s e = some r ∧ Mirror r.2.1 ∧
        (r.1 = true ↔ r.2.1.normalStates = []) ∧
        (r.1 = true → r.2.1.pendingStates = [])) := by
  refine ⟨by decide, ?_, ?_, ?_⟩
  · intro isPending s current addedStates removedStates hm hfresh hlive hassert
    obtain ⟨s1, hs1, hm1⟩ := update_mirror env isPending s current addedStates removedStates
      hm hassert hfresh.1 hlive
    refine ⟨s1, hs1, hm1, ?_, fun x => by rw [hm1.1]⟩
    rw [(update_inv env isPending s s1 current addedStates removedStates hs1).2.2]
    exact eraseAll_nodup _ _ hfresh.2
  · intro s e r hm h
    simp only [selectState, Option.map_eq_some'] at h
    obtain ⟨es, -, rfl⟩ := h
    have hp : Mirror (prepare env s) := by
      unfold prepare
      split_ifs <;> exact hm
    exact hp
  · intro fuel s e h0 hm hfuel
    have hp : Mirror (prepare env s) := by
      unfold prepare
      split_ifs <;> exact hm
    obtain ⟨r, hr, hmr, hrp⟩ := reviveLoop_mirror env fuel (prepare env s) e hp hfuel
    refine ⟨(FlatKind.empty .dfs r.1.normalSearcher, r.1, r.2), ?_, hmr, ?_, ?_⟩
    · simp [empty, h0, hr]
    · show FlatKind.empty .dfs r.1.normalSearcher = true ↔ _
      rw [hmr.1]
      simp [FlatKind.empty]
    · intro ht
      apply hrp
      have : FlatKind.empty .dfs r.1.normalSearcher = true := ht
      rw [hmr.1] at this
      simpa [FlatKind.empty] using this

/-- The invariant on the examples: the update of scenario 6 that adds the states of
depth 14 and 13 and removes the live state 1, and the revival round with the multiplier −1, which returns true with
no pending state left. -/
theorem zesti_mirror_invariant_witness :
    (∃ s1, update exampleEnv (fun _ => false) exampleRevived (some 1) [2, 3] [1] = some s1 ∧
      Mirror s1 ∧ s1.pendingStates.Nodup ∧
      ∀ x, x ∈ s1.normalStates ↔ x ∈ s1.normalSearcher) ∧
    (∃ r, empty exampleNegative 2 examplePending exampleEngine = some r ∧ Mirror r.2.1 ∧
      (r.1 = true ↔ r.2.1.normalStates = []) ∧ (r.1 = true → r.2.1.pendingStates = [])) :=
  ⟨(zesti_mirror_invariant exampleEnv).2.1 (fun _ => false) exampleRevived (some 1) [2, 3] [1]
      (by decide) (by decide) (by decide) (fun _ => ⟨fun _ _ => rfl, fun _ _ => rfl⟩),
    (zesti_mirror_invariant exampleNegative).2.2.2 2 examplePending exampleEngine (by decide)
      (by decide) (by decide)⟩

end ZestiMirror

end klee
